import Mathlib

/-!
Sort functions of `sort_funcs.h`: a shallow embedding and its properties.

The element type is `T = int` (32-bit signed), as instantiated by `sortTimer.cpp`.
An array `[begin, end)` is a `List Int`; every element access goes through a
bounds-checked read or write, so that an access outside the array is visible as
`Run.fault Fault.outOfRange` instead of being silently defined. Loops whose number of
iterations depends on the data carry an iteration budget; running out of it is the
separate fault `Fault.fuel`, so a result `Run.ok` means that the routine returned
without any access outside its arrays.
-/

namespace SortFuncs

/-! ## Results of running a routine -/

/-- Ways in which a run can fail to produce a result. `outOfRange` is an element access
outside the accessed array, `alloc` is a failed allocation (a size that does not fit),
`fuel` is an exhausted iteration budget of a data-dependent loop. -/
inductive Fault where
  | outOfRange
  | alloc
  | fuel
  deriving DecidableEq, Repr

/-- Outcome of a routine: a value, or a fault. -/
inductive Run (α : Type) where
  | ok (val : α)
  | fault (f : Fault)
  deriving DecidableEq, Repr

/-- Sequencing of runs: the first fault stops the computation. -/
def Run.bind {α β : Type} (r : Run α) (f : α → Run β) : Run β :=
  match r with
  | Run.ok v => f v
  | Run.fault e => Run.fault e

instance : Monad Run where
  pure := Run.ok
  bind := Run.bind

/-! ## Machine arithmetic and element access -/

/-- Value of a 32-bit two's complement `int` holding the mathematical integer `x` modulo 2^32. -/
def wrap32 (x : Int) : Int := (x + 2147483648) % 4294967296 - 2147483648

/-- Value of a `uint32_t` / `unsigned` holding `x` modulo 2^32. -/
def u32 (x : Nat) : Nat := x % 4294967296

/-- The values of the element type `int`. -/
def isInt32 (x : Int) : Prop := -2147483648 ≤ x ∧ x ≤ 2147483647

instance (x : Int) : Decidable (isInt32 x) := by unfold isInt32; infer_instance

/-- Read `*(begin + i)` for a non-negative offset. -/
def rd {α : Type} (a : List α) (i : Nat) : Run α :=
  match a[i]? with
  | some v => Run.ok v
  | none => Run.fault Fault.outOfRange

/-- Write `*(begin + i) = v` for a non-negative offset. -/
def wr {α : Type} (a : List α) (i : Nat) (v : α) : Run (List α) :=
  if i < a.length then Run.ok (a.set i v) else Run.fault Fault.outOfRange

/-- Read `*(begin + i)` for an `int` offset. -/
def rdI {α : Type} (a : List α) (i : Int) : Run α :=
  if 0 ≤ i then rd a i.toNat else Run.fault Fault.outOfRange

/-- Write `*(begin + i) = v` for an `int` offset. -/
def wrI {α : Type} (a : List α) (i : Int) (v : α) : Run (List α) :=
  if 0 ≤ i then wr a i.toNat v else Run.fault Fault.outOfRange

/-- The exchange `std::swap(*(begin + i), *(begin + j))`. -/
def swap (a : List Int) (i j : Nat) : Run (List Int) := do
  let x ← rd a i
  let y ← rd a j
  let a1 ← wr a i y
  wr a1 j x

/-- The exchange `std::swap(*(begin + i), *(begin + j))` for `int` offsets. -/
def swapI (a : List Int) (i j : Int) : Run (List Int) := do
  let x ← rdI a i
  let y ← rdI a j
  let a1 ← wrI a i y
  wrI a1 j x

/-- The array `a` after the exchange of the elements at the offsets `i` and `j`. -/
def exch (a : List Int) (i j : Nat) : List Int := (a.set i (a.getD j 0)).set j (a.getD i 0)

/-- The array `b` is the array `a` rearranged within the offsets `first..last`: a
permutation of `a` that agrees with `a` outside `first..last`, and every property that all
the elements of `a` at `first..last` have, all the elements of `b` at `first..last` have. -/
def Rearranged (a b : List Int) (first last : Int) : Prop :=
  b.Perm a ∧
  (∀ k : Nat, ((k : Int) < first ∨ last < (k : Int)) → b.getD k 0 = a.getD k 0) ∧
  (∀ P : Int → Prop, (∀ k : Nat, first ≤ (k : Int) → (k : Int) ≤ last → P (a.getD k 0)) →
    ∀ k : Nat, first ≤ (k : Int) → (k : Int) ≤ last → P (b.getD k 0))

/-- Number of pairs of offsets `i < j` whose elements are out of order (`a[j] < a[i]`). -/
def inversions : List Int → Nat
  | [] => 0
  | x :: rest => rest.countP (fun y => y < x) + inversions rest

/-- The values `min`, `min + 1`, ..., `min + k - 1` in this order, each repeated as many
times as it occurs in `a`. -/
def expand (a : List Int) (min : Int) : Nat → List Int
  | 0 => []
  | k + 1 => expand a min k ++ List.replicate (a.count (min + k)) (min + k)

/-- The array `b` is reached from `a` by exchanges of adjacent elements, each made while
the predecessor is greater than its successor. -/
inductive AdjacentSwaps : List Int → List Int → Prop where
  | refl (a : List Int) : AdjacentSwaps a a
  | step (a b : List Int) (j : Nat) (hj : j + 1 < a.length)
      (hlt : a.getD (j + 1) 0 < a.getD j 0) (h : AdjacentSwaps (exch a (j + 1) j) b) :
      AdjacentSwaps a b

/-! ## `radixSort` -/

/-- Bits per digit. -/
def DIGIT_BITS : Nat := 8

/-- Number of buckets, `1 << DIGIT_BITS`. -/
def NUM_BUCKETS : Nat := 2 ^ DIGIT_BITS

/-- Mask of all the bits of a digit, `NUM_BUCKETS - 1`. -/
def BUCKET_MASK : Int := NUM_BUCKETS - 1

/-- The digit `(x >> j) & BUCKET_MASK`: the shift of a signed value is arithmetic (floor
division by `2 ^ j`) and the mask keeps the low 8 bits of the two's complement pattern (the
non-negative remainder modulo `BUCKET_MASK + 1`). -/
def digit (x : Int) (j : Nat) : Nat := ((x / 2 ^ j) % (BUCKET_MASK + 1)).toNat

/-- The increment `++b[d]` (or `b[d]++`) of a `uint32_t` table entry. -/
def bump (b : Nat → Nat) (d : Nat) : Nat → Nat :=
  fun k => if k = d then u32 (b d + 1) else b k

/-- The separate histogram loop `for (temp = first; temp != end; ++temp)
++bucketSize[(*temp >> j) & BUCKET_MASK]`. -/
def histogram (j : Nat) : List Int → (Nat → Nat) → (Nat → Nat)
  | [], b => b
  | x :: rest, b => histogram j rest (bump b (digit x j))

/-- The table `bucketPos` after `bucketPos[0] = 0` and the loop
`bucketPos[i + 1] = bucketPos[i] + bucketSize[i]` for `i < NUM_BUCKETS - 1`. -/
def bucketPos (bucketSize : Nat → Nat) : Nat → Nat
  | 0 => 0
  | i + 1 => u32 (bucketPos bucketSize i + bucketSize i)

/-- The table `bucketSize` after the loop that sets `bucketSize[i] = 0` for
`i < NUM_BUCKETS - 1`: the entry of the last bucket is not touched. -/
def clearSizes (bucketSize : Nat → Nat) : Nat → Nat :=
  fun i => if i < NUM_BUCKETS - 1 then 0 else bucketSize i

/-- The scatter loop of the last digit position:
`*(pBuffer + bucketPos[digit]++) = *temp` for every element of the source range. -/
def scatterLast (j : Nat) : List Int → List Int → (Nat → Nat) → Run (List Int × (Nat → Nat))
  | [], dst, pos => Run.ok (dst, pos)
  | x :: rest, dst, pos => do
      let dst1 ← wr dst (pos (digit x j)) x
      scatterLast j rest dst1 (bump pos (digit x j))

/-- The fused scatter loop: `*(pBuffer + bucketPos[digit]++) = *temp` followed by
`++bucketSize[(*temp >> next) & BUCKET_MASK]` for every element of the source range. -/
def scatterFused (j next : Nat) :
    List Int → List Int → (Nat → Nat) → (Nat → Nat) → Run (List Int × (Nat → Nat) × (Nat → Nat))
  | [], dst, pos, size => Run.ok (dst, pos, size)
  | x :: rest, dst, pos, size => do
      let dst1 ← wr dst (pos (digit x j)) x
      scatterFused j next rest dst1 (bump pos (digit x j)) (bump size (digit x next))

/-- The variables of `radixSort` that live across digit passes. `first` is the content of
the range `[first, end)`, `pBuffer` the content of the other buffer, `firstIsBegin` tells
whether `first == begin`. -/
structure RadixState where
  first : List Int
  pBuffer : List Int
  firstIsBegin : Bool
  bucketSize : Nat → Nat
  doSeparateHistogramCalculation : Bool

/-- One iteration of the digit loop of `radixSort`, for the bit offset `j`. -/
def radixPass (j : Nat) (s : RadixState) : Run RadixState := do
  let bucketSize :=
    if s.doSeparateHistogramCalculation then histogram j s.first (fun _ => 0) else s.bucketSize
  let x0 ← rd s.first 0
  if bucketSize (digit x0 j) = u32 s.first.length then
    Run.ok { s with bucketSize := bucketSize, doSeparateHistogramCalculation := true }
  else if j = 8 * 4 - DIGIT_BITS then do
    let r ← scatterLast j s.first s.pBuffer (bucketPos bucketSize)
    Run.ok { first := r.1, pBuffer := s.first, firstIsBegin := !s.firstIsBegin,
             bucketSize := bucketSize, doSeparateHistogramCalculation := false }
  else do
    let r ← scatterFused j (j + DIGIT_BITS) s.first s.pBuffer (bucketPos bucketSize)
      (clearSizes bucketSize)
    Run.ok { first := r.1, pBuffer := s.first, firstIsBegin := !s.firstIsBegin,
             bucketSize := r.2.2, doSeparateHistogramCalculation := false }

/-- The digit loop `for (j = 0; j < 8 * sizeof(T); j += DIGIT_BITS)`; `k` bounds the number
of iterations still to run (4 for a 32-bit `T`). -/
def radixLoop : Nat → Nat → RadixState → Run RadixState
  | 0, j, s => if j < 8 * 4 then Run.fault Fault.fuel else Run.ok s
  | k + 1, j, s =>
      if j < 8 * 4 then do
        let s1 ← radixPass j s
        radixLoop k (j + DIGIT_BITS) s1
      else Run.ok s

/-- The copy loop `for (temp = first; temp != end; ++temp) *pBuffer++ = *temp`, with `i` the
offset of `pBuffer` in its array. -/
def copyBack : List Int → List Int → Nat → Run (List Int)
  | [], dst, _ => Run.ok dst
  | x :: rest, dst, i => do
      let dst1 ← wr dst i x
      copyBack rest dst1 (i + 1)

/-- The routine `radixSort(begin, end)` for `T = int`: the result is the final content of
`[begin, end)`. The auxiliary buffer `new T[n]` starts with unspecified content, taken as 0. -/
def radixSort (a : List Int) : Run (List Int) := do
  let s ← radixLoop 4 0
    { first := a, pBuffer := List.replicate a.length 0, firstIsBegin := true,
      bucketSize := fun _ => 0, doSeparateHistogramCalculation := true }
  if s.firstIsBegin then Run.ok s.first else copyBack s.first s.pBuffer 0

/-! ## Auxiliary notions used to state the behaviour of `radixSort` -/

/-- Number of elements of `l` whose digit at bit offset `j` is `d`. -/
def cnt (j d : Nat) (l : List Int) : Nat := l.countP (fun x => digit x j = d)

/-- The elements of `src` with digit `0`, then those with digit `1`, ..., up to digit `m - 1`,
each group in the order of `src`. -/
def buckets (j : Nat) (src : List Int) : Nat → List Int
  | 0 => []
  | m + 1 => buckets j src m ++ src.filter (fun x => digit x j = m)

/-- The variables of `radixSort` before the first digit pass, for the input `a`. -/
def radixInit (a : List Int) : RadixState :=
  { first := a, pBuffer := List.replicate a.length 0, firstIsBegin := true,
    bucketSize := fun _ => 0, doSeparateHistogramCalculation := true }

/-- The table `bucketSize` as the single-bucket test of the pass at bit offset `j` reads it:
freshly computed when `doSeparateHistogramCalculation` holds, otherwise as the fused scatter
of the pass before left it. -/
def sizesAtTest (j : Nat) (s : RadixState) : Nat → Nat :=
  if s.doSeparateHistogramCalculation then histogram j s.first (fun _ => 0) else s.bucketSize

/-- The single-bucket test `bucketSize[(*first >> j) & BUCKET_MASK] == uint32_t(end - first)`
of the pass at bit offset `j`; when it holds, the pass skips its scatter. -/
def scatterSkipped (j : Nat) (s : RadixState) : Run Bool := do
  let x0 ← rd s.first 0
  Run.ok (decide (sizesAtTest j s (digit x0 j) = u32 s.first.length))

/-! ## `insertionSort` -/

/-- The inner loop `for (j = i; j != begin; j--)` of `insertionSort`, at offset `j`: the
element moves towards the front by adjacent exchanges while `*j < *(j - 1)`, and the loop
is left by `break` otherwise. -/
def insertionInner : Nat → List Int → Run (List Int)
  | 0, a => Run.ok a
  | j + 1, a => do
      let x ← rd a (j + 1)
      let y ← rd a j
      if x < y then do
        let a1 ← swap a (j + 1) j
        insertionInner j a1
      else Run.ok a

/-- The outer loop `for (i = begin; i != end; i++)` of `insertionSort`, with `k` the number of
positions between `i` and `end`. -/
def insertionOuter : Nat → Nat → List Int → Run (List Int)
  | 0, _, a => Run.ok a
  | k + 1, i, a => do
      let a1 ← insertionInner i a
      insertionOuter k (i + 1) a1

/-- The routine `insertionSort(begin, end)`. -/
def insertionSort (a : List Int) : Run (List Int) := insertionOuter a.length 0 a

/-! ## `combSort` -/

/-- The inner loop `for (swapped = false; next != end; current++, next++)` of `combSort`;
`n` is the offset of `end`. An access outside the array faults, so `fuel` larger than the
array length is never used up. -/
def combPass (n : Int) : Nat → List Int → Int → Int → Bool → Run (List Int × Bool)
  | 0, _, _, _, _ => Run.fault Fault.fuel
  | fuel + 1, a, current, next, swapped =>
      if next ≠ n then do
        let x ← rdI a next
        let y ← rdI a current
        if x < y then do
          let a1 ← swapI a current next
          combPass n fuel a1 (current + 1) (next + 1) true
        else combPass n fuel a (current + 1) (next + 1) swapped
      else Run.ok (a, swapped)

/-- The gap of the next pass: `space = ((space*10) + 3)/13` in `int` arithmetic, with 9 and
10 replaced by 11. -/
def nextSpace (space : Int) : Int :=
  let s := Int.tdiv (wrap32 (wrap32 (space * 10) + 3)) 13
  if s = 9 ∨ s = 10 then 11 else s

/-- The outer loop `for (bool swapped = false; (space > 1) || swapped;)` of `combSort`. -/
def combLoop (n : Int) : Nat → List Int → Int → Bool → Run (List Int)
  | 0, _, _, _ => Run.fault Fault.fuel
  | fuel + 1, a, space, swapped =>
      if space > 1 ∨ swapped = true then do
        let r ← combPass n (a.length + 1) a 0 (nextSpace space) false
        combLoop n fuel r.1 (nextSpace space) r.2
      else Run.ok a

/-- The routine `combSort(begin, end)`; `length = static_cast<int>(std::distance(begin, end))`.
The iteration budget covers one pass per gap value and one pass per inversion. -/
def combSort (a : List Int) : Run (List Int) :=
  combLoop (a.length : Int) (a.length + a.length * a.length + 2) a (wrap32 a.length) false

/-! ## `countingSort` -/

/-- The value `*std::min_element(begin, end)`; on an empty range the iterator returned is
`end`, whose dereference is outside the array. -/
def minElement : List Int → Run Int
  | [] => Run.fault Fault.outOfRange
  | x :: rest => Run.ok (rest.foldl (fun m v => if v < m then v else m) x)

/-- The value `*std::max_element(begin, end)`; on an empty range the iterator returned is
`end`, whose dereference is outside the array. -/
def maxElement : List Int → Run Int
  | [] => Run.fault Fault.outOfRange
  | x :: rest => Run.ok (rest.foldl (fun m v => if m < v then v else m) x)

/-- The loop `for (T* i = begin; i != end; ++i) ++count[*i - min]`; the `int` index
`*i - min` is converted to `size_t`, so a negative index is out of range. -/
def tally (min : Int) : List Int → List Nat → Run (List Nat)
  | [], count => Run.ok count
  | x :: rest, count => do
      let c ← rdI count (wrap32 (x - min))
      let count1 ← wrI count (wrap32 (x - min)) (u32 (c + 1))
      tally min rest count1

/-- The loop `for (unsigned j = 0; j < c; ++j) *start++ = v`, with `start` an offset into
the array; the result carries the new offset. -/
def emit (v : Int) : Nat → List Int → Nat → Run (List Int × Nat)
  | 0, a, start => Run.ok (a, start)
  | c + 1, a, start => do
      let a1 ← wr a start v
      emit v c a1 (start + 1)

/-- The loop `for (T i = min; i <= max; ++i)` around the emission of `count[i - min]` copies
of `i`; `++i` is `int` arithmetic modulo 2^32. Every iteration reads a new entry of `count`,
so `fuel` larger than its length is never used up. -/
def emitAll (min max : Int) (count : List Nat) : Nat → Int → List Int → Nat → Run (List Int)
  | 0, _, _, _ => Run.fault Fault.fuel
  | fuel + 1, i, a, start =>
      if i ≤ max then do
        let c ← rdI count (wrap32 (i - min))
        let r ← emit i c a start
        emitAll min max count fuel (wrap32 (i + 1)) r.1 r.2
      else Run.ok a

/-- The routine `countingSort(begin, end)` (standard-algorithm branch). The size
`(max - min) + 1` is an `int` converted to `size_t`: a negative value asks for more memory
than exists. -/
def countingSort (a : List Int) : Run (List Int) := do
  let min ← minElement a
  let max ← maxElement a
  let size := wrap32 (wrap32 (max - min) + 1)
  if size < 0 then Run.fault Fault.alloc
  else do
    let count ← tally min a (List.replicate size.toNat 0)
    emitAll min max count (size.toNat + 1) min a 0

/-! ## `quickSort` -/

/-- The scan `while (*(begin + lower) < bound) lower++`. Every iteration reads a new
element, so `fuel` larger than the array length is never used up. -/
def scanLower (a : List Int) (bound : Int) : Nat → Int → Run Int
  | 0, _ => Run.fault Fault.fuel
  | fuel + 1, lower => do
      let v ← rdI a lower
      if v < bound then scanLower a bound fuel (lower + 1) else Run.ok lower

/-- The scan `while (bound < *(begin + upper)) upper--`. -/
def scanUpper (a : List Int) (bound : Int) : Nat → Int → Run Int
  | 0, _ => Run.fault Fault.fuel
  | fuel + 1, upper => do
      let v ← rdI a upper
      if bound < v then scanUpper a bound fuel (upper - 1) else Run.ok upper

/-- The loop `while (lower <= upper)` of `quick_sort`; the result is the array and the final
value of `upper`. The offsets `lower` and `upper` are exact integers: an access outside the
array faults, so they stay between -1 and the length plus one, which an `int` holds whenever
it holds the length. -/
def partitionLoop (bound : Int) : Nat → List Int → Int → Int → Run (List Int × Int)
  | 0, _, _, _ => Run.fault Fault.fuel
  | fuel + 1, a, lower, upper =>
      if lower ≤ upper then do
        let lower1 ← scanLower a bound (a.length + 1) lower
        let upper1 ← scanUpper a bound (a.length + 1) upper
        if lower1 < upper1 then do
          let a1 ← swapI a lower1 upper1
          partitionLoop bound fuel a1 (lower1 + 1) (upper1 - 1)
        else partitionLoop bound fuel a (lower1 + 1) upper1
      else Run.ok (a, upper)

/-- The first part of `quick_sort(begin, first, last)`: the choice of `bound`, the partition
loop and the exchange `std::swap(*(begin + upper), *(begin + first))`. The result is the
array and `upper`. -/
def partition (a : List Int) (first last : Int) : Run (List Int × Int) := do
  let bound ← rdI a first
  let r ← partitionLoop bound (a.length + 1) a (first + 1) last
  let a1 ← swapI r.1 r.2 first
  Run.ok (a1, r.2)

/-- The routine `quick_sort(begin, first, last)`; `fuel` bounds the depth of the
recursion. -/
def quick_sort : Nat → List Int → Int → Int → Run (List Int)
  | 0, _, _, _ => Run.fault Fault.fuel
  | fuel + 1, a, first, last => do
      let r ← partition a first last
      let a1 ← (if first < r.2 - 1 then quick_sort fuel r.1 first (r.2 - 1) else Run.ok r.1)
      if r.2 + 1 < last then quick_sort fuel a1 (r.2 + 1) last else Run.ok a1

/-- The loop `for (int i = 1; i < n; i++) if (*(begin + max) < *(begin + i)) max = i` of
`quickSort`; the result is `max`. -/
def maxLoop (a : List Int) (n : Int) : Nat → Int → Int → Run Int
  | 0, _, _ => Run.fault Fault.fuel
  | fuel + 1, i, max =>
      if i < n then do
        let m ← rdI a max
        let v ← rdI a i
        maxLoop a n fuel (i + 1) (if m < v then i else max)
      else Run.ok max

/-- The routine `quickSort(begin, end)`; `n = static_cast<int>(std::distance(begin, end))`. -/
def quickSort (a : List Int) : Run (List Int) :=
  let n := wrap32 a.length
  if n < 2 then Run.ok a
  else do
    let max ← maxLoop a n a.length 1 0
    let a1 ← swapI a (n - 1) max
    quick_sort a.length a1 0 (n - 2)

/-! ## `quick_sort` with the sequence of its element accesses -/

/-- An element access of a routine: a read or a write at an offset from `begin`. -/
inductive Access where
  | read (i : Int)
  | write (i : Int)
  deriving DecidableEq, Repr

/-- The offset of an access. -/
def Access.offset : Access → Int
  | Access.read i => i
  | Access.write i => i

/-- Whether an access is a write. -/
def Access.isWrite : Access → Bool
  | Access.read _ => false
  | Access.write _ => true

/-- The accesses of `std::swap(*(begin + i), *(begin + j))`. -/
def swapLog (i j : Int) : List Access :=
  [Access.read i, Access.read j, Access.write i, Access.write j]

/-- The scan `while (*(begin + lower) < bound) lower++` together with its accesses. -/
def scanLowerT (a : List Int) (bound : Int) : Nat → Int → Run (Int × List Access)
  | 0, _ => Run.fault Fault.fuel
  | fuel + 1, lower => do
      let v ← rdI a lower
      if v < bound then do
        let r ← scanLowerT a bound fuel (lower + 1)
        Run.ok (r.1, Access.read lower :: r.2)
      else Run.ok (lower, [Access.read lower])

/-- The scan `while (bound < *(begin + upper)) upper--` together with its accesses. -/
def scanUpperT (a : List Int) (bound : Int) : Nat → Int → Run (Int × List Access)
  | 0, _ => Run.fault Fault.fuel
  | fuel + 1, upper => do
      let v ← rdI a upper
      if bound < v then do
        let r ← scanUpperT a bound fuel (upper - 1)
        Run.ok (r.1, Access.read upper :: r.2)
      else Run.ok (upper, [Access.read upper])

/-- The loop `while (lower <= upper)` of `quick_sort` together with its accesses. -/
def partitionLoopT (bound : Int) :
    Nat → List Int → Int → Int → Run ((List Int × Int) × List Access)
  | 0, _, _, _ => Run.fault Fault.fuel
  | fuel + 1, a, lower, upper =>
      if lower ≤ upper then do
        let l ← scanLowerT a bound (a.length + 1) lower
        let u ← scanUpperT a bound (a.length + 1) upper
        if l.1 < u.1 then do
          let a1 ← swapI a l.1 u.1
          let r ← partitionLoopT bound fuel a1 (l.1 + 1) (u.1 - 1)
          Run.ok (r.1, l.2 ++ u.2 ++ swapLog l.1 u.1 ++ r.2)
        else do
          let r ← partitionLoopT bound fuel a (l.1 + 1) u.1
          Run.ok (r.1, l.2 ++ u.2 ++ r.2)
      else Run.ok ((a, upper), [])

/-- The partition step of `quick_sort(begin, first, last)` together with its accesses. -/
def partitionT (a : List Int) (first last : Int) : Run ((List Int × Int) × List Access) := do
  let bound ← rdI a first
  let r ← partitionLoopT bound (a.length + 1) a (first + 1) last
  let a1 ← swapI r.1.1 r.1.2 first
  Run.ok ((a1, r.1.2), Access.read first :: r.2 ++ swapLog r.1.2 first)

/-- The routine `quick_sort(begin, first, last)` together with the accesses of the call and
of all the calls below it. -/
def quick_sortT : Nat → List Int → Int → Int → Run (List Int × List Access)
  | 0, _, _, _ => Run.fault Fault.fuel
  | fuel + 1, a, first, last => do
      let p ← partitionT a first last
      let l ← (if first < p.1.2 - 1 then quick_sortT fuel p.1.1 first (p.1.2 - 1)
        else Run.ok (p.1.1, []))
      let r ← (if p.1.2 + 1 < last then quick_sortT fuel l.1 (p.1.2 + 1) last
        else Run.ok (l.1, []))
      Run.ok (r.1, p.2 ++ l.2 ++ r.2)

/-! ## `combSort` with the gaps of its passes -/

/-- The outer loop of `combSort` together with the gaps (`space`) of the passes it runs, in
order. -/
def combLoopT (n : Int) : Nat → List Int → Int → Bool → Run (List Int × List Int)
  | 0, _, _, _ => Run.fault Fault.fuel
  | fuel + 1, a, space, swapped =>
      if space > 1 ∨ swapped = true then do
        let r ← combPass n (a.length + 1) a 0 (nextSpace space) false
        let t ← combLoopT n fuel r.1 (nextSpace space) r.2
        Run.ok (t.1, nextSpace space :: t.2)
      else Run.ok (a, [])

/-- The order of two gaps of consecutive passes: while the gap is greater than 1 the next
one is smaller, and after a gap of 1 the next one is 1. -/
def GapStep (g g1 : Int) : Prop := (1 < g → g1 < g) ∧ (g = 1 → g1 = 1)

/-- The elements of `a` at the offsets `first..last`, in order. -/
def segment (a : List Int) (first last : Int) : List Int :=
  (a.drop first.toNat).take (last + 1 - first).toNat

/-! ## The benchmark harness `Sort<T, S>` -/

/-- Element order of the benchmark array. -/
inductive order where
  | ORDERED
  | REVERSED
  | MOSTLY_ORDERED
  | RANDOM
  deriving DecidableEq, Repr

/-- The fill `std::generate(a, a + n, [i = 1]() mutable { return i++; })`, from the value
`i` on, for `k` positions. -/
def generateUp : Nat → Int → List Int
  | 0, _ => []
  | k + 1, i => i :: generateUp k (i + 1)

/-- The fill `std::generate(a, a + n, [i = n]() mutable { return i--; })`, from the value
`i` on, for `k` positions. -/
def generateDown : Nat → Int → List Int
  | 0, _ => []
  | k + 1, i => i :: generateDown k (i - 1)

/-- The fill `std::generate(a, a + n, [&]() { return dist(mt); })`: the position `i` gets
the draw number `i`, for `k` positions. -/
def generateRandom (draw : Nat → Nat) : Nat → Nat → List Int
  | 0, _ => []
  | k + 1, i => (draw i : Int) :: generateRandom draw k (i + 1)

/-- The number of exchanges of the mostly-ordered fill: `end = (s < (100 - percent)) ? 1 :
(s / (100 - percent))` with `percent = 80` and `s = n`. -/
def swapCount (s : Nat) : Nat := if s < 100 - 80 then 1 else s / (100 - 80)

/-- The loop `for (i = 0; i < end; i++) { j = dist(mt); k = dist(mt); std::swap(a[j], a[k]); }`
with `r` the number of iterations still to run; iteration `i` takes the draws `2 * i` and
`2 * i + 1`. -/
def swapLoop (draw : Nat → Nat) : Nat → Nat → List Int → Run (List Int)
  | 0, _, a => Run.ok a
  | r + 1, i, a => do
      let a1 ← swap a (draw (2 * i)) (draw (2 * i + 1))
      swapLoop draw r (i + 1) a1

/-- The routine `constructTestArray(n, type)`; `draw` is the sequence of values that
`dist(mt)` returns, each in `[0, n]`. The allocation `new T[n]` fails for a negative `n`. -/
def constructTestArray (draw : Nat → Nat) (n : Int) (type : order) : Run (List Int) :=
  if n < 0 then Run.fault Fault.alloc
  else
    match type with
    | order.ORDERED => Run.ok (generateUp n.toNat 1)
    | order.REVERSED => Run.ok (generateDown n.toNat n)
    | order.MOSTLY_ORDERED => swapLoop draw (swapCount n.toNat) 0 (generateUp n.toNat 1)
    | order.RANDOM => Run.ok (generateRandom draw n.toNat 0)

/-- The check `std::is_sorted(bmArray, bmArray + n)`: no element is less than its
predecessor. -/
def isSorted : List Int → Bool
  | [] => true
  | [_] => true
  | x :: y :: rest => !(decide (y < x)) && isSorted (y :: rest)

/-- What a call of `benchmark` does that is visible from outside. -/
inductive Event where
  | generate
  | sort
  deriving DecidableEq, Repr

/-- How a call of `benchmark` ends: it returns, it throws
`std::runtime_error("sort failed")`, or a fault occurs in the generator or the sort. -/
inductive Ending where
  | returned
  | sortFailed
  | faulted (f : Fault)
  deriving DecidableEq, Repr

/-- The routine `Sort<T, S>::benchmark(n, type)` for a sort routine `S`: the calls it made,
in order, and how it ended. The test `if (bmArray)` always holds, since `new` does not
return a null pointer. -/
def benchmark (S : List Int → Run (List Int)) (draw : Nat → Nat) (n : Int) (type : order) :
    List Event × Ending :=
  if n ≠ 0 then
    match constructTestArray draw n type with
    | Run.fault f => ([Event.generate], Ending.faulted f)
    | Run.ok bmArray =>
      match S bmArray with
      | Run.fault f => ([Event.generate, Event.sort], Ending.faulted f)
      | Run.ok out =>
        if !isSorted out then ([Event.generate, Event.sort], Ending.sortFailed)
        else ([Event.generate, Event.sort], Ending.returned)
  else ([], Ending.returned)

/-- The array after the exchanges at the given pairs of offsets, made in order. -/
def exchAll : List (Nat × Nat) → List Int → List Int
  | [], a => a
  | p :: rest, a => exchAll rest (exch a p.1 p.2)

/-- The pairs of offsets `(j, k)` that `r` iterations of the swap loop draw, from iteration
`i` on. -/
def drawPairs (draw : Nat → Nat) : Nat → Nat → List (Nat × Nat)
  | 0, _ => []
  | r + 1, i => (draw (2 * i), draw (2 * i + 1)) :: drawPairs draw r (i + 1)

/-! ## `insertionSort` with the sequence of its element accesses and of its exchanges -/

/-- The writes of a sequence of calls `std::swap(*(begin + p), *(begin + q))`, in order. -/
def exchangeWrites : List (Nat × Nat) → List Access
  | [] => []
  | p :: rest => Access.write (p.1 : Int) :: Access.write (p.2 : Int) :: exchangeWrites rest

/-- Every exchange of the sequence, made in order from the array `a`, is an exchange of an
element with its predecessor (the offsets are `j` and `j - 1`, both inside the array) at a
moment when the predecessor is greater than the element. -/
def AdjacentExchanges : List Int → List (Nat × Nat) → Prop
  | _, [] => True
  | a, p :: rest =>
      p.1 = p.2 + 1 ∧ p.1 < a.length ∧ a.getD p.1 0 < a.getD p.2 0 ∧
        AdjacentExchanges (exch a p.1 p.2) rest

/-- The loop `for (auto j = i; j != begin; j--)` of `insertionSort` from the offset `j`,
together with its element accesses, in order, and the pairs of offsets of its calls of
`std::swap`, in order. -/
def insertionInnerT : Nat → List Int → Run (List Int × List Access × List (Nat × Nat))
  | 0, a => Run.ok (a, [], [])
  | j + 1, a => do
      let x ← rd a (j + 1)
      let y ← rd a j
      if x < y then do
        let a1 ← swap a (j + 1) j
        let r ← insertionInnerT j a1
        Run.ok (r.1,
          Access.read ((j + 1 : Nat) : Int) :: Access.read (j : Int) ::
            (swapLog ((j + 1 : Nat) : Int) (j : Int) ++ r.2.1),
          (j + 1, j) :: r.2.2)
      else Run.ok (a, [Access.read ((j + 1 : Nat) : Int), Access.read (j : Int)], [])

/-- The loop `for (auto i = begin; i != end; i++)` of `insertionSort` with `k` iterations
left, from the offset `i`, together with its element accesses and its exchanges. -/
def insertionOuterT : Nat → Nat → List Int → Run (List Int × List Access × List (Nat × Nat))
  | 0, _, a => Run.ok (a, [], [])
  | k + 1, i, a => do
      let r1 ← insertionInnerT i a
      let r2 ← insertionOuterT k (i + 1) r1.1
      Run.ok (r2.1, r1.2.1 ++ r2.2.1, r1.2.2 ++ r2.2.2)

/-- The routine `insertionSort(begin, end)` together with its element accesses, in order, and
the pairs of offsets of its calls of `std::swap`, in order. -/
def insertionSortT (a : List Int) : Run (List Int × List Access × List (Nat × Nat)) :=
  insertionOuterT a.length 0 a

/-! ## The functor of `Sort` -/

/-- The functor `Sort<T, S>::operator()(start, last)`: it hands the range to the sort routine
`S` as it is, with no test on it. -/
def sortCall (S : List Int → Run (List Int)) (a : List Int) : Run (List Int) := S a

/-! ## Running: basic facts -/

@[simp] theorem Run.ok_bind {α β : Type} (v : α) (f : α → Run β) : (Run.ok v >>= f) = f v := rfl

@[simp] theorem Run.fault_bind {α β : Type} (e : Fault) (f : α → Run β) :
    ((Run.fault e : Run α) >>= f) = Run.fault e := rfl

@[simp] theorem Run.pure_eq {α : Type} (v : α) : (pure v : Run α) = Run.ok v := rfl

theorem u32_of_lt {x : Nat} (h : x < 4294967296) : u32 x = x := Nat.mod_eq_of_lt h

theorem wrap32_of_range {x : Int} (h1 : -2147483648 ≤ x) (h2 : x ≤ 2147483647) :
    wrap32 x = x := by
  unfold wrap32; omega

theorem rd_eq_ok {α : Type} {a : List α} {i : Nat} (h : i < a.length) : rd a i = Run.ok a[i] := by
  simp [rd, List.getElem?_eq_getElem h]

theorem rd_eq_getD {a : List Int} {i : Nat} (h : i < a.length) :
    rd a i = Run.ok (a.getD i 0) := by
  rw [rd_eq_ok h, List.getD_eq_getElem _ _ h]

theorem wr_eq_ok {α : Type} {a : List α} {i : Nat} (v : α) (h : i < a.length) :
    wr a i v = Run.ok (a.set i v) := by
  simp [wr, h]

theorem rdI_eq_getD {a : List Int} {i : Int} (h0 : 0 ≤ i) (h : i < a.length) :
    rdI a i = Run.ok (a.getD i.toNat 0) := by
  rw [rdI, if_pos h0, rd_eq_getD (by omega)]

theorem swap_eq_exch {a : List Int} {i j : Nat} (hi : i < a.length) (hj : j < a.length) :
    swap a i j = Run.ok (exch a i j) := by
  unfold swap
  rw [rd_eq_getD hi, Run.ok_bind, rd_eq_getD hj, Run.ok_bind, wr_eq_ok _ hi, Run.ok_bind,
    wr_eq_ok _ (by simpa using hj)]
  rfl

theorem swapI_eq_exch {a : List Int} {i j : Int} (hi0 : 0 ≤ i) (hi : i < a.length)
    (hj0 : 0 ≤ j) (hj : j < a.length) : swapI a i j = Run.ok (exch a i.toNat j.toNat) := by
  have h1 : i.toNat < a.length := by omega
  have h2 : j.toNat < a.length := by omega
  unfold swapI wrI
  rw [rdI_eq_getD hi0 hi, Run.ok_bind, rdI_eq_getD hj0 hj, Run.ok_bind, if_pos hi0,
    wr_eq_ok _ h1, Run.ok_bind, if_pos hj0, wr_eq_ok _ (by simpa using h2)]
  rfl

@[simp] theorem length_exch (a : List Int) (i j : Nat) : (exch a i j).length = a.length := by
  simp [exch]

theorem getD_set (a : List Int) (i k : Nat) (v : Int) (hi : i < a.length) :
    (a.set i v).getD k 0 = if k = i then v else a.getD k 0 := by
  simp only [List.getD_eq_getElem?_getD, List.getElem?_set]
  by_cases h : i = k
  · subst h; simp [hi]
  · simp [h, Ne.symm h]

theorem getD_exch (a : List Int) (i j k : Nat) (hi : i < a.length) (hj : j < a.length) :
    (exch a i j).getD k 0
      = if k = j then a.getD i 0 else if k = i then a.getD j 0 else a.getD k 0 := by
  unfold exch
  rw [getD_set _ _ _ _ (by simpa using hj), getD_set _ _ _ _ hi]

theorem count_set_add (l : List Int) (i : Nat) (w v : Int) (h : i < l.length) :
    (l.set i w).count v + (if l.getD i 0 = v then 1 else 0)
      = l.count v + (if w = v then 1 else 0) := by
  induction l generalizing i with
  | nil => simp at h
  | cons x l ih =>
    cases i with
    | zero =>
      simp only [List.set_cons_zero, List.count_cons, List.getD_cons_zero, beq_iff_eq]
      omega
    | succ i =>
      have h1 : i < l.length := by simpa using h
      have := ih i h1
      simp only [List.set_cons_succ, List.count_cons, List.getD_cons_succ, beq_iff_eq]
      omega

theorem exch_perm (a : List Int) (i j : Nat) (hi : i < a.length) (hj : j < a.length) :
    (exch a i j).Perm a := by
  rw [List.perm_iff_count]
  intro v
  have h1 := count_set_add a i (a.getD j 0) v hi
  have h2 := count_set_add (a.set i (a.getD j 0)) j (a.getD i 0) v (by simpa using hj)
  have h3 : (a.set i (a.getD j 0)).getD j 0 = a.getD j 0 := by
    rw [getD_set _ _ _ _ hi]; split <;> rfl
  rw [h3] at h2
  unfold exch
  omega

/-- A list whose elements are in order at every pair of offsets is sorted. -/
theorem sorted_of_getD (a : List Int)
    (h : ∀ p q : Nat, p < q → q < a.length → a.getD p 0 ≤ a.getD q 0) :
    List.Sorted (· ≤ ·) a := by
  unfold List.Sorted
  rw [List.pairwise_iff_getElem]
  intro p q hp hq hpq
  have := h p q hpq hq
  rwa [List.getD_eq_getElem _ _ hp, List.getD_eq_getElem _ _ hq] at this

theorem getD_le_of_sorted (a : List Int) (h : List.Sorted (· ≤ ·) a) (p q : Nat) (hpq : p < q)
    (hq : q < a.length) : a.getD p 0 ≤ a.getD q 0 := by
  unfold List.Sorted at h
  rw [List.pairwise_iff_getElem] at h
  have := h p q (by omega) hq hpq
  rwa [List.getD_eq_getElem _ _ (by omega), List.getD_eq_getElem _ _ hq]

theorem take_succ_set (dst : List Int) (i : Nat) (x : Int) (hi : i < dst.length) :
    (dst.set i x).take (i + 1) = dst.take i ++ [x] := by
  rw [List.set_eq_take_append_cons_drop, if_pos hi, List.take_append_eq_append_take]
  simp [List.length_take, Nat.min_eq_left hi.le, List.take_take]

theorem getD_replicate_zero (n k : Nat) (hk : k < n) : (List.replicate n (0 : Nat)).getD k 0 = 0 := by
  simp [List.getD_eq_getElem?_getD, List.getElem?_replicate, hk]

/-! ## `radixSort`: the scatter is a stable distribution into buckets -/

theorem digit_lt (x : Int) (j : Nat) : digit x j < 256 := by
  have hm : BUCKET_MASK + 1 = 256 := by
    simp [BUCKET_MASK, NUM_BUCKETS, DIGIT_BITS]
  unfold digit
  rw [hm]
  have h := Int.emod_lt_of_pos (x / 2 ^ j) (show (0 : Int) < 256 by norm_num)
  have h0 := Int.emod_nonneg (x / 2 ^ j) (show (256 : Int) ≠ 0 by norm_num)
  omega

theorem cnt_append (j d : Nat) (l₁ l₂ : List Int) :
    cnt j d (l₁ ++ l₂) = cnt j d l₁ + cnt j d l₂ := by
  simp [cnt, List.countP_append]

theorem cnt_cons (j d : Nat) (x : Int) (l : List Int) :
    cnt j d (x :: l) = cnt j d l + if digit x j = d then 1 else 0 := by
  simp [cnt, List.countP_cons]

theorem cnt_le_length (j d : Nat) (l : List Int) : cnt j d l ≤ l.length := by
  unfold cnt; exact List.countP_le_length _

theorem cnt_eq_length_filter (j d : Nat) (l : List Int) :
    cnt j d l = (l.filter (fun x => digit x j = d)).length := by
  unfold cnt; exact List.countP_eq_length_filter _ _

theorem histogram_apply (j : Nat) (l : List Int) (b : Nat → Nat) (d : Nat)
    (h : b d + cnt j d l < 4294967296) : histogram j l b d = b d + cnt j d l := by
  induction l generalizing b with
  | nil => simp [histogram, cnt]
  | cons x rest ih =>
    rw [cnt_cons] at h
    rw [histogram, cnt_cons]
    by_cases hd : digit x j = d
    · have hb : bump b (digit x j) d = b d + 1 := by
        simp only [bump, hd, if_true]
        exact u32_of_lt (by simp [hd] at h; omega)
      rw [ih (bump b (digit x j)) (by rw [hb]; simp [hd] at h; omega), hb]
      simp [hd]; omega
    · have hb : bump b (digit x j) d = b d := by
        simp [bump, Ne.symm hd]
      rw [ih (bump b (digit x j)) (by rw [hb]; simp [hd] at h; omega), hb]
      simp [hd]

theorem length_buckets_succ (j : Nat) (src : List Int) (m : Nat) :
    (buckets j src (m + 1)).length = (buckets j src m).length + cnt j m src := by
  simp [buckets, cnt_eq_length_filter]

theorem length_buckets_mono (j : Nat) (src : List Int) {d m : Nat} (h : d ≤ m) :
    (buckets j src d).length ≤ (buckets j src m).length := by
  induction m with
  | zero => simp [Nat.le_zero.mp h]
  | succ m ih =>
    rcases Nat.lt_or_ge d (m + 1) with h1 | h1
    · have := ih (by omega)
      rw [length_buckets_succ]; omega
    · have : d = m + 1 := by omega
      rw [this]

theorem count_filter_digit_ne (j : Nat) (src : List Int) (v : Int) (m : Nat)
    (h : digit v j ≠ m) : (src.filter (fun x => digit x j = m)).count v = 0 := by
  apply List.count_eq_zero_of_not_mem
  intro hm
  exact h (by simpa using (List.mem_filter.mp hm).2)

theorem count_buckets (j : Nat) (src : List Int) (v : Int) (m : Nat) :
    (buckets j src m).count v = if digit v j < m then src.count v else 0 := by
  induction m with
  | zero => simp [buckets]
  | succ m ih =>
    simp only [buckets, List.count_append, ih]
    by_cases h1 : digit v j < m
    · have h2 : digit v j < m + 1 := by omega
      rw [count_filter_digit_ne j src v m (by omega)]
      simp [h1, h2]
    · by_cases h3 : digit v j = m
      · have h2 : digit v j < m + 1 := by omega
        simp only [h1, h2, if_true, if_false, Nat.zero_add]
        exact List.count_filter (by simpa using h3)
      · have h2 : ¬ digit v j < m + 1 := by omega
        rw [count_filter_digit_ne j src v m h3]
        simp [h1, h2]

theorem buckets_perm (j : Nat) (src : List Int) : (buckets j src 256).Perm src := by
  rw [List.perm_iff_count]
  intro v
  rw [count_buckets, if_pos (digit_lt v j)]

theorem length_buckets (j : Nat) (src : List Int) : (buckets j src 256).length = src.length :=
  (buckets_perm j src).length_eq

theorem buckets_getElem? (j : Nat) (src : List Int) {d m i : Nat} (hd : d < m)
    (hi : i < cnt j d src) :
    (buckets j src m)[(buckets j src d).length + i]? = (src.filter (fun x => digit x j = d))[i]? := by
  induction m with
  | zero => omega
  | succ m ih =>
    rcases Nat.lt_or_ge d m with h1 | h1
    · have hlen : (buckets j src d).length + i < (buckets j src m).length := by
        have := length_buckets_mono j src (show d + 1 ≤ m by omega)
        rw [length_buckets_succ] at this; omega
      rw [buckets, List.getElem?_append_left hlen]
      exact ih h1
    · have hdm : d = m := by omega
      subst hdm
      rw [buckets, List.getElem?_append_right (by omega)]
      congr 1; omega

theorem buckets_index (j : Nat) (src : List Int) {m p : Nat}
    (hp : p < (buckets j src m).length) :
    ∃ d, d < m ∧ ∃ i, i < cnt j d src ∧ p = (buckets j src d).length + i := by
  induction m with
  | zero => simp [buckets] at hp
  | succ m ih =>
    rcases Nat.lt_or_ge p (buckets j src m).length with h1 | h1
    · obtain ⟨d, hd, i, hi, he⟩ := ih h1
      exact ⟨d, by omega, i, hi, he⟩
    · rw [length_buckets_succ] at hp
      exact ⟨m, by omega, p - (buckets j src m).length, by omega, by omega⟩

theorem filter_getElem?_next (j : Nat) (done rest : List Int) (x : Int) :
    ((done ++ x :: rest).filter (fun y => digit y j = digit x j))[cnt j (digit x j) done]?
      = some x := by
  rw [List.filter_append, List.getElem?_append_right (by rw [cnt_eq_length_filter])]
  simp [cnt_eq_length_filter]

/-- The scatter loop, started after the elements `done` have been distributed, completes and
fills the destination with the stable distribution of the whole source. -/
theorem scatterLast_inv (j : Nat) (src : List Int) (hn : src.length < 4294967296) :
    ∀ (rest done dst : List Int) (pos : Nat → Nat), src = done ++ rest →
      dst.length = src.length →
      (∀ d, d < 256 → pos d = (buckets j src d).length + cnt j d done) →
      (∀ d, d < 256 → ∀ i, i < cnt j d done →
        dst[(buckets j src d).length + i]? = (buckets j src 256)[(buckets j src d).length + i]?) →
      ∃ r, scatterLast j rest dst pos = Run.ok r ∧ r.1 = buckets j src 256 := by
  intro rest
  induction rest with
  | nil =>
    intro done dst pos hsrc hlen _ hdst
    refine ⟨(dst, pos), rfl, ?_⟩
    have hdone : done = src := by simp [hsrc]
    subst hdone
    apply List.ext_getElem?
    intro p
    rcases Nat.lt_or_ge p (buckets j done 256).length with hp | hp
    · obtain ⟨d, hd, i, hi, he⟩ := buckets_index j done hp
      rw [he]; exact hdst d hd i hi
    · rw [List.getElem?_eq_none hp, List.getElem?_eq_none]
      rw [length_buckets] at hp; simpa [hlen] using hp
  | cons x rest ih =>
    intro done dst pos hsrc hlen hpos hdst
    have hx := digit_lt x j
    have hc : cnt j (digit x j) src = cnt j (digit x j) done + cnt j (digit x j) rest + 1 := by
      rw [hsrc, cnt_append, cnt_cons]; simp; omega
    have hb1 := length_buckets_succ j src (digit x j)
    have hb2 := length_buckets_mono j src (show digit x j + 1 ≤ 256 by omega)
    have hb3 := length_buckets j src
    have hw : pos (digit x j) < dst.length := by rw [hpos _ hx]; omega
    rw [scatterLast, wr_eq_ok x hw, Run.ok_bind]
    apply ih (done ++ [x]) (dst.set (pos (digit x j)) x) (bump pos (digit x j))
    · simp [hsrc]
    · simp [hlen]
    · intro d hd
      by_cases hdx : d = digit x j
      · subst hdx
        simp only [bump, if_true, cnt_append, cnt_cons]
        rw [u32_of_lt (by omega), hpos _ hx]
        simp [cnt]; omega
      · simp only [bump, hdx, if_false, cnt_append, cnt_cons]
        rw [hpos d hd]
        simp [cnt, Ne.symm hdx]
    · intro d hd i hi
      have hcd : cnt j d (done ++ [x]) = cnt j d done + if digit x j = d then 1 else 0 := by
        rw [cnt_append, cnt_cons]; simp [cnt]
      by_cases hdx : d = digit x j
      · subst hdx
        rw [hcd, if_pos rfl] at hi
        rcases Nat.lt_or_ge i (cnt j (digit x j) done) with h1 | h1
        · rw [List.getElem?_set_ne (by rw [hpos _ hx]; omega)]
          exact hdst _ hd i h1
        · have hie : i = cnt j (digit x j) done := by omega
          subst hie
          rw [← hpos _ hx, List.getElem?_set_self hw, hpos _ hx,
            buckets_getElem? j src hx (by omega), hsrc]
          exact (filter_getElem?_next j done rest x).symm
      · rw [hcd, if_neg (Ne.symm hdx)] at hi
        have hle : cnt j d done ≤ cnt j d src := by rw [hsrc, cnt_append]; omega
        have hdis : (buckets j src d).length + i ≠ pos (digit x j) := by
          rw [hpos _ hx]
          rcases Nat.lt_or_ge d (digit x j) with h2 | h2
          · have := length_buckets_mono j src (show d + 1 ≤ digit x j by omega)
            rw [length_buckets_succ] at this; omega
          · have := length_buckets_mono j src (show digit x j + 1 ≤ d by omega)
            rw [length_buckets_succ] at this; omega
        rw [List.getElem?_set_ne (Ne.symm hdis)]
        exact hdst d hd i hi

theorem bucketPos_eq (j : Nat) (src : List Int) (hn : src.length < 4294967296)
    (b : Nat → Nat) (hb : ∀ d, d < 255 → b d = cnt j d src) :
    ∀ d, d < 256 → bucketPos b d = (buckets j src d).length := by
  intro d
  induction d with
  | zero => intro _; simp [bucketPos, buckets]
  | succ d ih =>
    intro hd
    have h1 := length_buckets_mono j src (show d + 1 ≤ 256 by omega)
    rw [length_buckets] at h1
    rw [bucketPos, ih (by omega), hb d (by omega), length_buckets_succ]
    rw [length_buckets_succ] at h1
    exact u32_of_lt (by omega)

/-- With an accurate size table for the buckets below the last one, the scatter of the last
digit position completes with the stable distribution of the source. -/
theorem scatterLast_spec (j : Nat) (src dst : List Int) (hn : src.length < 4294967296)
    (hlen : dst.length = src.length) (b : Nat → Nat) (hb : ∀ d, d < 255 → b d = cnt j d src) :
    ∃ r, scatterLast j src dst (bucketPos b) = Run.ok r ∧ r.1 = buckets j src 256 := by
  apply scatterLast_inv j src hn src [] dst (bucketPos b) (by simp) hlen
  · intro d hd
    rw [bucketPos_eq j src hn b hb d hd]; simp [cnt]
  · intro d _ i hi
    simp [cnt] at hi

theorem scatterFused_eq (j next : Nat) (src dst : List Int) (pos size : Nat → Nat) :
    scatterFused j next src dst pos size
      = (scatterLast j src dst pos >>= fun r => Run.ok (r.1, r.2, histogram next src size)) := by
  induction src generalizing dst pos size with
  | nil => rfl
  | cons x rest ih =>
    rw [scatterFused, scatterLast, histogram]
    cases h : wr dst (pos (digit x j)) x with
    | ok dst1 => simp only [Run.ok_bind]; rw [ih]
    | fault e => rfl

theorem cnt_perm (j d : Nat) {l₁ l₂ : List Int} (h : l₁.Perm l₂) : cnt j d l₁ = cnt j d l₂ :=
  h.countP_eq _

theorem bucketSize_accurate (j : Nat) (a : List Int) (s : RadixState)
    (hn : a.length < 4294967296) (hp : s.first.Perm a)
    (hs : s.doSeparateHistogramCalculation = false → ∀ d, d < 255 → s.bucketSize d = cnt j d s.first) :
    ∀ d, d < 255 →
      (if s.doSeparateHistogramCalculation then histogram j s.first (fun _ => 0) else s.bucketSize) d
        = cnt j d s.first := by
  intro d hd
  cases hsep : s.doSeparateHistogramCalculation with
  | false => simpa using hs hsep d hd
  | true =>
    have h1 := cnt_le_length j d s.first
    have h2 := hp.length_eq
    simp only [if_true]
    rw [histogram_apply j s.first _ d (by omega)]; simp

/-- One digit pass keeps the range a permutation of the input and the two buffers of equal
length; after a fused scatter the size table is accurate below the last bucket. -/
theorem radixPass_inv (j : Nat) (a : List Int) (s : RadixState) (hne : a ≠ [])
    (hn : a.length < 4294967296) (hp : s.first.Perm a) (hl : s.pBuffer.length = a.length)
    (hs : s.doSeparateHistogramCalculation = false → ∀ d, d < 255 → s.bucketSize d = cnt j d s.first) :
    ∃ s1, radixPass j s = Run.ok s1 ∧ s1.first.Perm a ∧ s1.pBuffer.length = a.length ∧
      (j ≠ 24 → s1.doSeparateHistogramCalculation = false →
        ∀ d, d < 255 → s1.bucketSize d = cnt (j + 8) d s1.first) := by
  have hlen := hp.length_eq
  have hpos : 0 < s.first.length := by
    rw [hlen]; exact List.length_pos.mpr hne
  have hacc := bucketSize_accurate j a s hn hp hs
  unfold radixPass
  simp only [rd_eq_ok hpos, Run.ok_bind]
  generalize (if s.doSeparateHistogramCalculation then histogram j s.first (fun _ => 0)
    else s.bucketSize) = bs at hacc ⊢
  obtain ⟨r, hr, hr1⟩ := scatterLast_spec j s.first s.pBuffer (by omega) (by omega) bs hacc
  by_cases hsingle : bs (digit s.first[0] j) = u32 s.first.length
  · rw [if_pos hsingle]
    exact ⟨_, rfl, hp, hl, fun _ h => by simp at h⟩
  · rw [if_neg hsingle]
    by_cases hlast : j = 8 * 4 - DIGIT_BITS
    · rw [if_pos hlast, hr, Run.ok_bind]
      refine ⟨_, rfl, ?_, ?_, ?_⟩
      · simp only [hr1]; exact (buckets_perm j s.first).trans hp
      · simpa using hlen
      · intro h24; simp [DIGIT_BITS] at hlast; omega
    · have hclr : ∀ d, d < 255 → clearSizes bs d = 0 := by
        intro d hd; simp [clearSizes, NUM_BUCKETS, DIGIT_BITS, hd]
      rw [if_neg hlast, scatterFused_eq, hr]
      simp only [Run.ok_bind]
      refine ⟨_, rfl, ?_, ?_, ?_⟩
      · simp only [hr1]; exact (buckets_perm j s.first).trans hp
      · simpa using hlen
      · intro _ _ d hd
        have h1 := cnt_le_length (j + 8) d s.first
        simp only [hr1, DIGIT_BITS]
        rw [histogram_apply _ _ _ _ (by rw [hclr d hd]; omega), hclr d hd,
          cnt_perm (j + 8) d (buckets_perm j s.first)]
        simp

theorem copyBack_eq (src : List Int) : ∀ (dst : List Int) (i : Nat),
    dst.length = i + src.length → copyBack src dst i = Run.ok (dst.take i ++ src) := by
  induction src with
  | nil => intro dst i h; simp [copyBack, List.take_of_length_le (show dst.length ≤ i by simpa using h.le)]
  | cons x rest ih =>
    intro dst i h
    have hi : i < dst.length := by simp at h; omega
    rw [copyBack, wr_eq_ok x hi, Run.ok_bind, ih _ _ (by simp at h ⊢; omega)]
    rw [take_succ_set dst i x hi]
    simp

/-- The run of `radixSort` on a non-empty array completes, and its result is the range
reached after the four digit passes, a permutation of the input. -/
theorem radixSort_run (a : List Int) (hne : a ≠ []) (hn : a.length < 4294967296) :
    ∃ out, radixSort a = Run.ok out ∧ out.Perm a := by
  obtain ⟨s1, h1, p1, l1, b1⟩ := radixPass_inv 0 a
    { first := a, pBuffer := List.replicate a.length 0, firstIsBegin := true,
      bucketSize := fun _ => 0, doSeparateHistogramCalculation := true }
    hne hn (List.Perm.refl a) (by simp) (by simp)
  obtain ⟨s2, h2, p2, l2, b2⟩ := radixPass_inv 8 a s1 hne hn p1 l1 (b1 (by decide))
  obtain ⟨s3, h3, p3, l3, b3⟩ := radixPass_inv 16 a s2 hne hn p2 l2 (b2 (by decide))
  obtain ⟨s4, h4, p4, l4, _⟩ := radixPass_inv 24 a s3 hne hn p3 l3 (b3 (by decide))
  have hloop : radixLoop 4 0
      { first := a, pBuffer := List.replicate a.length 0, firstIsBegin := true,
        bucketSize := fun _ => 0, doSeparateHistogramCalculation := true } = Run.ok s4 := by
    simp [radixLoop, DIGIT_BITS, h1, h2, h3, h4]
  unfold radixSort
  rw [hloop, Run.ok_bind]
  split
  · exact ⟨_, rfl, p4⟩
  · refine ⟨s4.first, ?_, p4⟩
    rw [copyBack_eq _ _ 0 (by simp [l4, p4.length_eq])]
    simp

/-! ## `insertionSort` -/

theorem adjacentSwaps_trans {a b c : List Int} (h1 : AdjacentSwaps a b)
    (h2 : AdjacentSwaps b c) : AdjacentSwaps a c := by
  induction h1 with
  | refl a => exact h2
  | step a b j hj hlt _ ih => exact AdjacentSwaps.step a c j hj hlt (ih h2)

/-- The inner loop of `insertionSort` at offset `j`, when the elements at the offsets up to
`i` other than `j` are in order and the element at `j` is not greater than those between
`j` and `i`: it completes, and the elements up to `i` are in order. -/
theorem insertionInner_spec : ∀ (j : Nat) (a : List Int) (i : Nat), j ≤ i → i < a.length →
    (∀ p q : Nat, p < q → q ≤ i → p ≠ j → q ≠ j → a.getD p 0 ≤ a.getD q 0) →
    (∀ q : Nat, j < q → q ≤ i → a.getD j 0 ≤ a.getD q 0) →
    ∃ out, insertionInner j a = Run.ok out ∧ out.Perm a ∧ AdjacentSwaps a out ∧
      ∀ p q : Nat, p < q → q ≤ i → out.getD p 0 ≤ out.getD q 0 := by
  intro j
  induction j with
  | zero =>
    intro a i _ _ hA hB
    refine ⟨a, rfl, List.Perm.refl a, AdjacentSwaps.refl a, ?_⟩
    intro p q hpq hq
    by_cases hp : p = 0
    · subst hp; exact hB q hpq hq
    · exact hA p q hpq hq hp (by omega)
  | succ j ih =>
    intro a i hji hi hA hB
    have hj1 : j + 1 < a.length := by omega
    have hj : j < a.length := by omega
    unfold insertionInner
    rw [rd_eq_getD hj1, Run.ok_bind, rd_eq_getD hj, Run.ok_bind]
    by_cases hlt : a.getD (j + 1) 0 < a.getD j 0
    · rw [if_pos hlt, swap_eq_exch hj1 hj, Run.ok_bind]
      have hg := fun k => getD_exch a (j + 1) j k hj1 hj
      obtain ⟨out, hrun, hperm, hadj, hsorted⟩ := ih (exch a (j + 1) j) i (by omega) (by simpa using hi)
        (by
          intro p q hpq hq hpj hqj
          rw [hg p, hg q, if_neg hpj, if_neg hqj]
          by_cases hp1 : p = j + 1
          · rw [if_pos hp1, if_neg (by omega)]
            exact hA j q (by omega) hq (by omega) (by omega)
          · rw [if_neg hp1]
            by_cases hq1 : q = j + 1
            · rw [if_pos hq1]
              exact hA p j (by omega) (by omega) (by omega) (by omega)
            · rw [if_neg hq1]
              exact hA p q hpq hq (by omega) (by omega))
        (by
          intro q hjq hq
          rw [hg j, hg q, if_pos rfl, if_neg (by omega)]
          by_cases hq1 : q = j + 1
          · rw [if_pos hq1]; omega
          · rw [if_neg hq1]
            exact hB q (by omega) hq)
      exact ⟨out, hrun, hperm.trans (exch_perm a (j + 1) j hj1 hj),
        AdjacentSwaps.step a out j hj1 hlt hadj, hsorted⟩
    · rw [if_neg hlt]
      refine ⟨a, rfl, List.Perm.refl a, AdjacentSwaps.refl a, ?_⟩
      intro p q hpq hq
      by_cases hp1 : p = j + 1
      · subst hp1; exact hB q hpq hq
      · by_cases hq1 : q = j + 1
        · subst hq1
          by_cases hpj : p = j
          · subst hpj; omega
          · have := hA p j (by omega) (by omega) hp1 (by omega)
            omega
        · exact hA p q hpq hq hp1 hq1

/-- The outer loop of `insertionSort` from offset `i`, when the elements before `i` are in
order: it completes with a sorted permutation. -/
theorem insertionOuter_spec : ∀ (k i : Nat) (a : List Int), i + k = a.length →
    (∀ p q : Nat, p < q → q < i → a.getD p 0 ≤ a.getD q 0) →
    ∃ out, insertionOuter k i a = Run.ok out ∧ out.Perm a ∧ AdjacentSwaps a out ∧
      List.Sorted (· ≤ ·) out := by
  intro k
  induction k with
  | zero =>
    intro i a hik hs
    exact ⟨a, rfl, List.Perm.refl a, AdjacentSwaps.refl a,
      sorted_of_getD a (fun p q hpq hq => hs p q hpq (by omega))⟩
  | succ k ih =>
    intro i a hik hs
    obtain ⟨a1, h1, hp1, hd1, hs1⟩ := insertionInner_spec i a i (le_refl i) (by omega)
      (fun p q hpq hq _ hqi => hs p q hpq (by omega)) (fun q h1 h2 => by omega)
    obtain ⟨out, h2, hp2, hd2, hs2⟩ := ih (i + 1) a1 (by rw [hp1.length_eq]; omega)
      (fun p q hpq hq => hs1 p q hpq (by omega))
    refine ⟨out, ?_, hp2.trans hp1, adjacentSwaps_trans hd1 hd2, hs2⟩
    rw [insertionOuter, h1, Run.ok_bind, h2]

theorem insertionSort_spec (a : List Int) :
    ∃ out, insertionSort a = Run.ok out ∧ out.Perm a ∧ AdjacentSwaps a out ∧
      List.Sorted (· ≤ ·) out :=
  insertionOuter_spec a.length 0 a (by simp) (fun p q _ hq => by omega)

/-! ## `quickSort` -/

/-- The lower scan, started at `lower` with an element not less than `bound` at or after it
(`stop`), completes at the first such element. -/
theorem scanLower_spec (a : List Int) (bound : Int) : ∀ (fuel : Nat) (lower stop : Int),
    0 ≤ lower → lower ≤ stop → stop < a.length → ¬ (a.getD stop.toNat 0 < bound) →
    (stop - lower).toNat < fuel →
    ∃ l1, scanLower a bound fuel lower = Run.ok l1 ∧ lower ≤ l1 ∧ l1 ≤ stop ∧
      ¬ (a.getD l1.toNat 0 < bound) ∧
      ∀ k : Nat, lower ≤ k → (k : Int) < l1 → a.getD k 0 < bound := by
  intro fuel
  induction fuel with
  | zero => intro lower stop _ _ _ _ hf; omega
  | succ fuel ih =>
    intro lower stop h0 hls hstop hns hf
    unfold scanLower
    rw [rdI_eq_getD h0 (by omega), Run.ok_bind]
    by_cases hlt : a.getD lower.toNat 0 < bound
    · rw [if_pos hlt]
      have hne : lower ≠ stop := by
        intro h; rw [h] at hlt; exact hns hlt
      obtain ⟨l1, hrun, h1, h2, h3, h4⟩ := ih (lower + 1) stop (by omega) (by omega) hstop hns
        (by omega)
      refine ⟨l1, hrun, by omega, h2, h3, ?_⟩
      intro k hk1 hk2
      by_cases hkl : (k : Int) = lower
      · have : k = lower.toNat := by omega
        rw [this]; exact hlt
      · exact h4 k (by omega) hk2
    · rw [if_neg hlt]
      exact ⟨lower, rfl, le_refl _, hls, hlt, fun k hk1 hk2 => by omega⟩

/-- The upper scan, started at `upper` with an element not greater than `bound` at or before
it (`stop`), completes at the first such element going down. -/
theorem scanUpper_spec (a : List Int) (bound : Int) : ∀ (fuel : Nat) (upper stop : Int),
    0 ≤ stop → stop ≤ upper → upper < a.length → ¬ (bound < a.getD stop.toNat 0) →
    (upper - stop).toNat < fuel →
    ∃ u1, scanUpper a bound fuel upper = Run.ok u1 ∧ stop ≤ u1 ∧ u1 ≤ upper ∧
      ¬ (bound < a.getD u1.toNat 0) ∧
      ∀ k : Nat, u1 < (k : Int) → (k : Int) ≤ upper → bound < a.getD k 0 := by
  intro fuel
  induction fuel with
  | zero => intro upper stop _ _ _ _ hf; omega
  | succ fuel ih =>
    intro upper stop h0 hsu hup hns hf
    unfold scanUpper
    rw [rdI_eq_getD (by omega) hup, Run.ok_bind]
    by_cases hlt : bound < a.getD upper.toNat 0
    · rw [if_pos hlt]
      have hne : upper ≠ stop := by
        intro h; rw [h] at hlt; exact hns hlt
      obtain ⟨u1, hrun, h1, h2, h3, h4⟩ := ih (upper - 1) stop h0 (by omega) (by omega) hns
        (by omega)
      refine ⟨u1, hrun, h1, by omega, h3, ?_⟩
      intro k hk1 hk2
      by_cases hkl : (k : Int) = upper
      · have : k = upper.toNat := by omega
        rw [this]; exact hlt
      · exact h4 k hk1 (by omega)
    · rw [if_neg hlt]
      exact ⟨upper, rfl, hsu, le_refl _, hlt, fun k hk1 hk2 => by omega⟩

theorem rearranged_refl (a : List Int) (first last : Int) : Rearranged a a first last :=
  ⟨List.Perm.refl a, fun _ _ => rfl, fun _ h => h⟩

theorem rearranged_trans {a b c : List Int} {first last : Int}
    (h1 : Rearranged a b first last) (h2 : Rearranged b c first last) :
    Rearranged a c first last :=
  ⟨h2.1.trans h1.1, fun k hk => (h2.2.1 k hk).trans (h1.2.1 k hk),
    fun P hP => h2.2.2 P (h1.2.2 P hP)⟩

theorem rearranged_mono {a b : List Int} {first last first1 last1 : Int}
    (h : Rearranged a b first1 last1) (hf : first ≤ first1) (hl : last1 ≤ last) :
    Rearranged a b first last := by
  refine ⟨h.1, fun k hk => h.2.1 k (by omega), ?_⟩
  intro P hP k hk1 hk2
  by_cases hin : first1 ≤ (k : Int) ∧ (k : Int) ≤ last1
  · exact h.2.2 P (fun k1 h1 h2 => hP k1 (by omega) (by omega)) k hin.1 hin.2
  · rw [h.2.1 k (by omega)]
    exact hP k hk1 hk2

theorem rearranged_length_eq {a b : List Int} {first last : Int}
    (h : Rearranged a b first last) : b.length = a.length := h.1.length_eq

theorem rearranged_exch (a : List Int) (first last : Int) (i j : Nat) (hi : i < a.length)
    (hj : j < a.length) (hi1 : first ≤ (i : Int)) (hi2 : (i : Int) ≤ last)
    (hj1 : first ≤ (j : Int)) (hj2 : (j : Int) ≤ last) :
    Rearranged a (exch a i j) first last := by
  refine ⟨exch_perm a i j hi hj, ?_, ?_⟩
  · intro k hk
    rw [getD_exch a i j k hi hj, if_neg (by omega), if_neg (by omega)]
  · intro P hP k hk1 hk2
    rw [getD_exch a i j k hi hj]
    split
    · exact hP i hi1 hi2
    · split
      · exact hP j hj1 hj2
      · exact hP k hk1 hk2

/-- The partition loop, started in a state where the elements strictly between `first` and
`lower` (up to `upper`) are not greater than `bound` and those after `upper` (up to `last`)
are not less: it completes in such a state with `lower > upper`. -/
theorem partitionLoop_spec (bound first last : Int) (h0 : 0 ≤ first) :
    ∀ (fuel : Nat) (a : List Int) (lower upper : Int), last + 1 < a.length →
    first < lower → first ≤ upper → upper ≤ last →
    a.getD first.toNat 0 = bound → ¬ (a.getD (last + 1).toNat 0 < bound) →
    (∀ k : Nat, first < (k : Int) → (k : Int) < lower → (k : Int) ≤ upper → a.getD k 0 ≤ bound) →
    (∀ k : Nat, upper < (k : Int) → (k : Int) ≤ last → bound ≤ a.getD k 0) →
    (upper + 1 - lower).toNat < fuel →
    ∃ r, partitionLoop bound fuel a lower upper = Run.ok r ∧
      Rearranged a r.1 (first + 1) last ∧ first ≤ r.2 ∧ r.2 ≤ last ∧
      (∀ k : Nat, first < (k : Int) → (k : Int) ≤ r.2 → r.1.getD k 0 ≤ bound) ∧
      (∀ k : Nat, r.2 < (k : Int) → (k : Int) ≤ last → bound ≤ r.1.getD k 0) := by
  intro fuel
  induction fuel with
  | zero => intro a lower upper _ _ _ _ _ _ _ _ hf; omega
  | succ fuel ih =>
    intro a lower upper hlen hfl hfu hul hb hsent hlo hhi hf
    unfold partitionLoop
    by_cases hc : lower ≤ upper
    · rw [if_pos hc]
      have hstop : ¬ (a.getD (upper + 1).toNat 0 < bound) := by
        by_cases hu : upper = last
        · rw [hu]; exact hsent
        · have := hhi (upper + 1).toNat (by omega) (by omega)
          omega
      obtain ⟨l1, hl1, hl1a, hl1b, hl1c, hl1d⟩ := scanLower_spec a bound (a.length + 1) lower
        (upper + 1) (by omega) (by omega) (by omega) hstop (by omega)
      obtain ⟨u1, hu1, hu1a, hu1b, hu1c, hu1d⟩ := scanUpper_spec a bound (a.length + 1) upper
        first h0 hfu (by omega) (by rw [hb]; omega) (by omega)
      rw [hl1, Run.ok_bind, hu1, Run.ok_bind]
      by_cases hsw : l1 < u1
      · rw [if_pos hsw, swapI_eq_exch (by omega) (by omega) (by omega) (by omega), Run.ok_bind]
        have hli : l1.toNat < a.length := by omega
        have hui : u1.toNat < a.length := by omega
        have hg := fun k => getD_exch a l1.toNat u1.toNat k hli hui
        obtain ⟨r, hr, hr1, hr2, hr3, hr4, hr5⟩ := ih (exch a l1.toNat u1.toNat) (l1 + 1) (u1 - 1)
          (by simpa using hlen) (by omega) (by omega) (by omega)
          (by rw [hg, if_neg (by omega), if_neg (by omega)]; exact hb)
          (by rw [hg, if_neg (by omega), if_neg (by omega)]; exact hsent)
          (by
            intro k hk1 hk2 hk3
            rw [hg]
            by_cases hku : k = u1.toNat
            · omega
            · rw [if_neg hku]
              by_cases hkl : k = l1.toNat
              · rw [if_pos hkl]; omega
              · rw [if_neg hkl]
                by_cases hkk : (k : Int) < lower
                · exact hlo k hk1 hkk (by omega)
                · exact le_of_lt (hl1d k (by omega) (by omega)))
          (by
            intro k hk1 hk2
            rw [hg]
            by_cases hku : k = u1.toNat
            · rw [if_pos hku]; omega
            · rw [if_neg hku, if_neg (by omega)]
              by_cases hkk : (k : Int) ≤ upper
              · exact le_of_lt (hu1d k (by omega) hkk)
              · exact hhi k (by omega) hk2)
          (by omega)
        refine ⟨r, hr, ?_, hr2, hr3, hr4, hr5⟩
        exact rearranged_trans (rearranged_exch a (first + 1) last l1.toNat u1.toNat hli hui
          (by omega) (by omega) (by omega) (by omega)) hr1
      · rw [if_neg hsw]
        obtain ⟨r, hr, hr1, hr2, hr3, hr4, hr5⟩ := ih a (l1 + 1) u1 hlen (by omega) hu1a
          (by omega) hb hsent
          (by
            intro k hk1 hk2 hk3
            by_cases hkk : (k : Int) < lower
            · exact hlo k hk1 hkk (by omega)
            · by_cases hkl : (k : Int) < l1
              · exact le_of_lt (hl1d k (by omega) hkl)
              · have hke : k = u1.toNat := by omega
                rw [hke]; omega)
          (by
            intro k hk1 hk2
            by_cases hkk : (k : Int) ≤ upper
            · exact le_of_lt (hu1d k hk1 hkk)
            · exact hhi k (by omega) hk2)
          (by omega)
        exact ⟨r, hr, hr1, hr2, hr3, hr4, hr5⟩
    · rw [if_neg hc]
      exact ⟨(a, upper), rfl, rearranged_refl a _ _, hfu, hul,
        fun k hk1 hk2 => hlo k hk1 (by omega) hk2, hhi⟩

/-- The partition step of `quick_sort(begin, first, last)`, when the element after `last` is
not less than those at `first..last`: it completes with the pivot at `upper`, the elements
before it not greater and the elements after it not less. -/
theorem partition_spec (a : List Int) (first last : Int) (h0 : 0 ≤ first) (hfl : first ≤ last)
    (hlen : last + 1 < a.length)
    (hsent : ∀ k : Nat, first ≤ (k : Int) → (k : Int) ≤ last →
      a.getD k 0 ≤ a.getD (last + 1).toNat 0) :
    ∃ r, partition a first last = Run.ok r ∧ Rearranged a r.1 first last ∧
      first ≤ r.2 ∧ r.2 ≤ last ∧ r.1.getD r.2.toNat 0 = a.getD first.toNat 0 ∧
      (∀ k : Nat, first ≤ (k : Int) → (k : Int) < r.2 → r.1.getD k 0 ≤ r.1.getD r.2.toNat 0) ∧
      (∀ k : Nat, r.2 < (k : Int) → (k : Int) ≤ last → r.1.getD r.2.toNat 0 ≤ r.1.getD k 0) := by
  have hs := hsent first.toNat (by omega) (by omega)
  obtain ⟨r, hr, hr1, hr2, hr3, hr4, hr5⟩ := partitionLoop_spec (a.getD first.toNat 0) first last
    h0 (a.length + 1) a (first + 1) last hlen (by omega) hfl (le_refl _) rfl (by omega)
    (fun k h1 h2 _ => by omega) (fun k h1 h2 => by omega) (by omega)
  have hl := rearranged_length_eq hr1
  have hu : r.2.toNat < r.1.length := by omega
  have hf : first.toNat < r.1.length := by omega
  have hg := fun k => getD_exch r.1 r.2.toNat first.toNat k hu hf
  have hfirst : r.1.getD first.toNat 0 = a.getD first.toNat 0 := hr1.2.1 first.toNat (by omega)
  have hpiv : (SortFuncs.exch r.1 r.2.toNat first.toNat).getD r.2.toNat 0
      = a.getD first.toNat 0 := by
    rw [hg]
    by_cases h : r.2.toNat = first.toNat
    · rw [if_pos h]; rw [h]; exact hfirst
    · rw [if_neg h, if_pos rfl]; exact hfirst
  unfold partition
  rw [rdI_eq_getD h0 (by omega), Run.ok_bind, hr, Run.ok_bind,
    swapI_eq_exch (by omega) (by omega) h0 (by omega), Run.ok_bind]
  refine ⟨_, rfl, ?_, hr2, hr3, hpiv, ?_, ?_⟩
  · exact rearranged_trans (rearranged_mono hr1 (by omega) (le_refl _))
      (rearranged_exch r.1 first last r.2.toNat first.toNat hu hf (by omega) (by omega)
        (by omega) (by omega))
  · intro k hk1 hk2
    show (SortFuncs.exch r.1 r.2.toNat first.toNat).getD k 0
      ≤ (SortFuncs.exch r.1 r.2.toNat first.toNat).getD r.2.toNat 0
    rw [hpiv, hg]
    by_cases hkf : k = first.toNat
    · rw [if_pos hkf]
      exact hr4 r.2.toNat (by omega) (by omega)
    · rw [if_neg hkf, if_neg (by omega)]
      exact hr4 k (by omega) (by omega)
  · intro k hk1 hk2
    show (SortFuncs.exch r.1 r.2.toNat first.toNat).getD r.2.toNat 0
      ≤ (SortFuncs.exch r.1 r.2.toNat first.toNat).getD k 0
    rw [hpiv, hg, if_neg (by omega), if_neg (by omega)]
    exact hr5 k hk1 hk2

/-- The routine `quick_sort(begin, first, last)`, when the element after `last` is not less
than those at `first..last` and the recursion budget covers the range: it completes, the
array is rearranged within `first..last` only, and `first..last` is in order. -/
theorem quick_sort_spec : ∀ (fuel : Nat) (a : List Int) (first last : Int), 0 ≤ first →
    first ≤ last → last + 1 < a.length →
    (∀ k : Nat, first ≤ (k : Int) → (k : Int) ≤ last → a.getD k 0 ≤ a.getD (last + 1).toNat 0) →
    (last - first).toNat < fuel →
    ∃ out, quick_sort fuel a first last = Run.ok out ∧ Rearranged a out first last ∧
      ∀ p q : Nat, first ≤ (p : Int) → p ≤ q → (q : Int) ≤ last →
        out.getD p 0 ≤ out.getD q 0 := by
  intro fuel
  induction fuel with
  | zero => intro a first last _ _ _ _ hf; omega
  | succ fuel ih =>
    intro a first last h0 hfl hlen hsent hf
    obtain ⟨r, hr, hr1, hr2, hr3, hr4, hr5, hr6⟩ := partition_spec a first last h0 hfl hlen hsent
    have hl1 := rearranged_length_eq hr1
    -- the call on the left part
    have hleft : ∃ a1, (if first < r.2 - 1 then quick_sort fuel r.1 first (r.2 - 1)
          else Run.ok r.1) = Run.ok a1 ∧ Rearranged r.1 a1 first (r.2 - 1) ∧
        ∀ p q : Nat, first ≤ (p : Int) → p ≤ q → (q : Int) ≤ r.2 - 1 →
          a1.getD p 0 ≤ a1.getD q 0 := by
      by_cases hc : first < r.2 - 1
      · rw [if_pos hc]
        have he : (r.2 - 1 + 1).toNat = r.2.toNat := by omega
        exact ih r.1 first (r.2 - 1) h0 (by omega) (by omega)
          (fun k hk1 hk2 => by rw [he]; exact hr5 k hk1 (by omega)) (by omega)
      · rw [if_neg hc]
        refine ⟨r.1, rfl, rearranged_refl _ _ _, ?_⟩
        intro p q hp hpq hq
        have : p = q := by omega
        rw [this]
    obtain ⟨a1, ha1, hra1, hsa1⟩ := hleft
    have hl2 := rearranged_length_eq hra1
    have hpiv1 : a1.getD r.2.toNat 0 = r.1.getD r.2.toNat 0 := hra1.2.1 r.2.toNat (by omega)
    -- the call on the right part
    have hright : ∃ out, (if r.2 + 1 < last then quick_sort fuel a1 (r.2 + 1) last
          else Run.ok a1) = Run.ok out ∧ Rearranged a1 out (r.2 + 1) last ∧
        ∀ p q : Nat, r.2 + 1 ≤ (p : Int) → p ≤ q → (q : Int) ≤ last →
          out.getD p 0 ≤ out.getD q 0 := by
      by_cases hc : r.2 + 1 < last
      · rw [if_pos hc]
        refine ih a1 (r.2 + 1) last (by omega) (by omega) (by omega) ?_ (by omega)
        intro k hk1 hk2
        rw [hra1.2.1 k (by omega), hra1.2.1 (last + 1).toNat (by omega),
          hr1.2.1 (last + 1).toNat (by omega)]
        exact hr1.2.2 (fun v => v ≤ a.getD (last + 1).toNat 0) hsent k (by omega) hk2
      · rw [if_neg hc]
        refine ⟨a1, rfl, rearranged_refl _ _ _, ?_⟩
        intro p q hp hpq hq
        have : p = q := by omega
        rw [this]
    obtain ⟨out, hout, hrout, hsout⟩ := hright
    have hpiv2 : out.getD r.2.toNat 0 = r.1.getD r.2.toNat 0 := by
      rw [hrout.2.1 r.2.toNat (by omega), hpiv1]
    have hlow : ∀ k : Nat, first ≤ (k : Int) → (k : Int) ≤ r.2 →
        out.getD k 0 ≤ r.1.getD r.2.toNat 0 := by
      intro k hk1 hk2
      by_cases hku : (k : Int) = r.2
      · have : k = r.2.toNat := by omega
        rw [this, hpiv2]
      · rw [hrout.2.1 k (by omega)]
        exact hra1.2.2 (fun v => v ≤ r.1.getD r.2.toNat 0)
          (fun k1 h1 h2 => hr5 k1 h1 (by omega)) k hk1 (by omega)
    have hhigh : ∀ k : Nat, r.2 ≤ (k : Int) → (k : Int) ≤ last →
        r.1.getD r.2.toNat 0 ≤ out.getD k 0 := by
      intro k hk1 hk2
      by_cases hku : (k : Int) = r.2
      · have : k = r.2.toNat := by omega
        rw [this, hpiv2]
      · exact hrout.2.2 (fun v => r.1.getD r.2.toNat 0 ≤ v)
          (fun k1 h1 h2 => by rw [hra1.2.1 k1 (by omega)]; exact hr6 k1 (by omega) h2)
          k (by omega) hk2
    refine ⟨out, ?_, ?_, ?_⟩
    · rw [quick_sort, hr, Run.ok_bind, ha1, Run.ok_bind, hout]
    · exact rearranged_trans hr1 (rearranged_trans (rearranged_mono hra1 (le_refl _) (by omega))
        (rearranged_mono hrout (by omega) (le_refl _)))
    · intro p q hp hpq hq
      by_cases hq1 : (q : Int) < r.2
      · rw [hrout.2.1 p (by omega), hrout.2.1 q (by omega)]
        exact hsa1 p q hp hpq (by omega)
      · by_cases hp1 : r.2 < (p : Int)
        · exact hsout p q (by omega) hpq hq
        · exact le_trans (hlow p hp (by omega)) (hhigh q (by omega) hq)

/-- The search for the largest element completes with the offset of an element that no
element exceeds. -/
theorem maxLoop_spec (a : List Int) : ∀ (fuel : Nat) (i max : Int), 0 ≤ max → max < i →
    i ≤ a.length → (∀ k : Nat, (k : Int) < i → a.getD k 0 ≤ a.getD max.toNat 0) →
    ((a.length : Int) - i).toNat < fuel →
    ∃ m, maxLoop a a.length fuel i max = Run.ok m ∧ 0 ≤ m ∧ m < a.length ∧
      ∀ k : Nat, k < a.length → a.getD k 0 ≤ a.getD m.toNat 0 := by
  intro fuel
  induction fuel with
  | zero => intro i max _ _ _ _ hf; omega
  | succ fuel ih =>
    intro i max h0 hmi hi hmax hf
    unfold maxLoop
    by_cases hc : i < a.length
    · rw [if_pos hc, rdI_eq_getD h0 (by omega), Run.ok_bind, rdI_eq_getD (by omega) hc,
        Run.ok_bind]
      by_cases hlt : a.getD max.toNat 0 < a.getD i.toNat 0
      · rw [if_pos hlt]
        refine ih (i + 1) i (by omega) (by omega) (by omega) ?_ (by omega)
        intro k hk
        by_cases hki : (k : Int) = i
        · have : k = i.toNat := by omega
          rw [this]
        · have := hmax k (by omega); omega
      · rw [if_neg hlt]
        refine ih (i + 1) max h0 (by omega) (by omega) ?_ (by omega)
        intro k hk
        by_cases hki : (k : Int) = i
        · have : k = i.toNat := by omega
          rw [this]; omega
        · exact hmax k (by omega)
    · rw [if_neg hc]
      exact ⟨max, rfl, h0, by omega, fun k hk => hmax k (by omega)⟩

theorem quickSort_spec (a : List Int) (hn : a.length < 2147483648) :
    ∃ out, quickSort a = Run.ok out ∧ out.Perm a ∧ List.Sorted (· ≤ ·) out := by
  have hw : wrap32 (a.length : Int) = a.length := wrap32_of_range (by omega) (by omega)
  unfold quickSort
  simp only [hw]
  by_cases hc : (a.length : Int) < 2
  · rw [if_pos hc]
    exact ⟨a, rfl, List.Perm.refl a, sorted_of_getD a (fun p q hpq hq => by omega)⟩
  · rw [if_neg hc]
    obtain ⟨m, hm, hm0, hm1, hm2⟩ := maxLoop_spec a a.length 1 0 (le_refl _) (by omega)
      (by omega) (fun k hk => by have : k = 0 := by omega
                                 rw [this]; rfl) (by omega)
    have hi : ((a.length : Int) - 1).toNat < a.length := by omega
    have hmi : m.toNat < a.length := by omega
    have hg := fun k => getD_exch a ((a.length : Int) - 1).toNat m.toNat k hi hmi
    have hlast : ∀ k : Nat, k < a.length →
        (exch a ((a.length : Int) - 1).toNat m.toNat).getD k 0
          ≤ (exch a ((a.length : Int) - 1).toNat m.toNat).getD
              ((a.length : Int) - 2 + 1).toNat 0 := by
      intro k hk
      have he : ((a.length : Int) - 2 + 1).toNat = ((a.length : Int) - 1).toNat := by omega
      rw [he, hg k, hg]
      have hmax : (if ((a.length : Int) - 1).toNat = m.toNat
          then a.getD ((a.length : Int) - 1).toNat 0
          else if ((a.length : Int) - 1).toNat = ((a.length : Int) - 1).toNat
            then a.getD m.toNat 0 else a.getD ((a.length : Int) - 1).toNat 0)
          = a.getD m.toNat 0 := by
        by_cases h : ((a.length : Int) - 1).toNat = m.toNat
        · rw [if_pos h, h]
        · rw [if_neg h, if_pos rfl]
      rw [hmax]
      split
      · exact hm2 _ hi
      · split
        · exact hm2 _ hmi
        · exact hm2 k hk
    obtain ⟨out, hout, hr, hs⟩ := quick_sort_spec a.length
      (exch a ((a.length : Int) - 1).toNat m.toNat) 0 ((a.length : Int) - 2) (le_refl _)
      (by omega) (by rw [length_exch]; omega) (fun k _ hk2 => hlast k (by omega)) (by omega)
    rw [hm, Run.ok_bind, swapI_eq_exch (by omega) (by omega) hm0 hm1, Run.ok_bind, hout]
    refine ⟨out, rfl, hr.1.trans (exch_perm a _ _ hi hmi), ?_⟩
    apply sorted_of_getD
    intro p q hpq hq
    have hlo := rearranged_length_eq hr
    simp only [length_exch] at hlo
    by_cases hq1 : (q : Int) ≤ (a.length : Int) - 2
    · exact hs p q (by omega) (by omega) hq1
    · have hqe : q = ((a.length : Int) - 2 + 1).toNat := by omega
      rw [hqe, hr.2.1 ((a.length : Int) - 2 + 1).toNat (by omega)]
      exact hr.2.2 (fun v => v ≤ (exch a ((a.length : Int) - 1).toNat m.toNat).getD
          ((a.length : Int) - 2 + 1).toNat 0)
        (fun k _ hk2 => hlast k (by omega)) p (by omega) (by omega)

/-! ## `combSort` -/

theorem exch_cons_succ (x : Int) (l : List Int) (i j : Nat) :
    exch (x :: l) (i + 1) (j + 1) = x :: exch l i j := by
  simp [exch]

theorem inversions_le (l : List Int) : inversions l ≤ l.length * l.length := by
  induction l with
  | nil => simp [inversions]
  | cons x rest ih =>
    have h := List.countP_le_length (fun y => decide (y < x)) (l := rest)
    simp only [inversions, List.length_cons]
    nlinarith

/-- The exchange of two adjacent elements that are out of order removes one inversion. -/
theorem inversions_exch_adjacent : ∀ (a : List Int) (k : Nat), k + 1 < a.length →
    a.getD (k + 1) 0 < a.getD k 0 → inversions (exch a k (k + 1)) + 1 = inversions a := by
  intro a
  induction a with
  | nil => intro k h; simp at h
  | cons x rest ih =>
    intro k hk hlt
    cases k with
    | zero =>
      cases rest with
      | nil => simp at hk
      | cons y rest1 =>
        have hyx : y < x := by simpa using hlt
        have hxy : ¬ x < y := by omega
        simp [exch, inversions, List.countP_cons, hyx, hxy]
        omega
    | succ k =>
      have hk1 : k + 1 < rest.length := by simpa using hk
      have hlt1 : rest.getD (k + 1) 0 < rest.getD k 0 := by simpa using hlt
      have hp := (exch_perm rest k (k + 1) (by omega) hk1).countP_eq (fun y => decide (y < x))
      have := ih k hk1 hlt1
      rw [exch_cons_succ]
      simp only [inversions, hp]
      omega

theorem nextSpace_spec (s : Int) (h1 : 1 ≤ s) (h2 : s * 10 + 3 ≤ 2147483647) :
    1 ≤ nextSpace s ∧ nextSpace s ≤ s ∧ (2 ≤ s → nextSpace s < s) := by
  unfold nextSpace
  rw [wrap32_of_range (x := s * 10) (by omega) (by omega),
    wrap32_of_range (x := s * 10 + 3) (by omega) (by omega),
    Int.tdiv_eq_ediv (by omega) (by norm_num)]
  simp only []
  split <;> omega

/-- One pass of `combSort` with the gap `s`, from the offset `c`: it completes; a pass that
reports no exchange left the array as it was, with every compared pair in order; with the
gap 1, a pass that made an exchange removed an inversion. -/
theorem combPass_spec (n s : Nat) (hs : 1 ≤ s) : ∀ (fuel : Nat) (a : List Int) (c : Nat)
    (current next : Int) (swapped : Bool), a.length = n → current = c → next = c + s →
    c + s ≤ n → n - (c + s) < fuel →
    ∃ r, combPass n fuel a current next swapped = Run.ok r ∧ r.1.Perm a ∧
      (s = 1 → inversions r.1 ≤ inversions a) ∧
      (r.2 = false → swapped = false ∧ r.1 = a ∧
        ∀ k : Nat, c ≤ k → k + s < n → a.getD k 0 ≤ a.getD (k + s) 0) ∧
      (r.2 = true → swapped = false → s = 1 → inversions r.1 < inversions a) := by
  intro fuel
  induction fuel with
  | zero => intro a c current next swapped _ _ _ _ hf; omega
  | succ fuel ih =>
    intro a c current next swapped hlen hcur hnext hcs hf
    unfold combPass
    by_cases hc : next ≠ (n : Int)
    · rw [if_pos hc]
      have hci : current.toNat = c := by omega
      have hni : next.toNat = c + s := by omega
      rw [rdI_eq_getD (by omega) (by omega), Run.ok_bind, rdI_eq_getD (by omega) (by omega),
        Run.ok_bind, hci, hni]
      by_cases hlt : a.getD (c + s) 0 < a.getD c 0
      · rw [if_pos hlt, swapI_eq_exch (by omega) (by omega) (by omega) (by omega), Run.ok_bind,
          hci, hni]
        obtain ⟨r, hr, hp, hi, hf1, ht1⟩ := ih (exch a c (c + s)) (c + 1) (current + 1) (next + 1)
          true (by simpa using hlen) (by omega) (by omega) (by omega) (by omega)
        have hpe := exch_perm a c (c + s) (by omega) (by omega)
        refine ⟨r, hr, hp.trans hpe, ?_, ?_, ?_⟩
        · intro h1
          subst h1
          have := inversions_exch_adjacent a c (by omega) hlt
          have := hi rfl
          omega
        · intro h; have := (hf1 h).1; simp at this
        · intro _ _ h1
          subst h1
          have := inversions_exch_adjacent a c (by omega) hlt
          have := hi rfl
          omega
      · rw [if_neg hlt]
        obtain ⟨r, hr, hp, hi, hf1, ht1⟩ := ih a (c + 1) (current + 1) (next + 1) swapped hlen
          (by omega) (by omega) (by omega) (by omega)
        refine ⟨r, hr, hp, hi, ?_, ht1⟩
        intro h
        obtain ⟨h1, h2, h3⟩ := hf1 h
        refine ⟨h1, h2, ?_⟩
        intro k hk1 hk2
        by_cases hkc : k = c
        · subst hkc; omega
        · exact h3 k (by omega) hk2
    · rw [if_neg hc]
      refine ⟨(a, swapped), rfl, List.Perm.refl a, fun _ => le_refl _, ?_, ?_⟩
      · intro h
        exact ⟨h, rfl, fun k hk1 hk2 => by omega⟩
      · intro h1 h2; simp at h1; rw [h1] at h2; simp at h2

/-- A list in which no element is greater than its successor is sorted. -/
theorem sorted_of_adjacent (a : List Int)
    (h : ∀ k : Nat, k + 1 < a.length → a.getD k 0 ≤ a.getD (k + 1) 0) :
    List.Sorted (· ≤ ·) a := by
  apply sorted_of_getD
  intro p q hpq
  induction q with
  | zero => omega
  | succ q ih =>
    intro hq
    by_cases hpe : p = q
    · subst hpe; exact h p hq
    · exact le_trans (ih (by omega) (by omega)) (h q hq)

/-- The pass loop of `combSort`, started with a gap between 1 and the length and enough
iteration budget for the gaps and inversions still to come: it completes with a sorted
permutation. -/
theorem combLoop_spec (n : Nat) (hn : (n : Int) * 10 + 3 ≤ 2147483647) :
    ∀ (fuel : Nat) (a : List Int) (space : Int) (swapped : Bool), a.length = n →
    space ≤ n → (1 ≤ n → 1 ≤ space) → (swapped = true → 1 ≤ n) →
    (swapped = false → space ≤ 1 → List.Sorted (· ≤ ·) a) →
    (if space > 1 then space.toNat + n * n + 2
      else if swapped = true then inversions a + 2 else 1) ≤ fuel →
    ∃ out, combLoop n fuel a space swapped = Run.ok out ∧ out.Perm a ∧
      List.Sorted (· ≤ ·) out := by
  intro fuel
  induction fuel with
  | zero =>
    intro a space swapped _ _ _ _ _ hf
    split at hf
    · omega
    · split at hf <;> omega
  | succ fuel ih =>
    intro a space swapped hlen hsn hs1 hsw hsorted hf
    unfold combLoop
    by_cases hc : space > 1 ∨ swapped = true
    · rw [if_pos hc]
      have hn1 : 1 ≤ n := by
        rcases hc with h | h
        · omega
        · exact hsw h
      have hsp := hs1 hn1
      obtain ⟨hns1, hns2, hns3⟩ := nextSpace_spec space hsp (by omega)
      obtain ⟨r, hr, hp, hi, hf1, ht1⟩ := combPass_spec n (nextSpace space).toNat (by omega)
        (a.length + 1) a 0 0 (nextSpace space) false hlen rfl (by omega) (by omega) (by omega)
      rw [hlen] at hr ⊢
      rw [hr, Run.ok_bind]
      have hlen1 : r.1.length = n := by rw [hp.length_eq, hlen]
      have hinv := inversions_le r.1
      rw [hlen1] at hinv
      obtain ⟨out, hout, hpo, hso⟩ := ih r.1 (nextSpace space) r.2 hlen1 (by omega)
        (fun _ => hns1) (fun _ => hn1)
        (by
          intro h1 h2
          obtain ⟨_, h3, h4⟩ := hf1 h1
          rw [h3]
          apply sorted_of_adjacent
          intro k hk
          have he : (nextSpace space).toNat = 1 := by omega
          have := h4 k (by omega) (by rw [he, ← hlen]; exact hk)
          rwa [he] at this)
        (by
          by_cases hb : space > 1
          · rw [if_pos hb] at hf
            have := hns3 (by omega)
            split
            · omega
            · split <;> omega
          · have hs : space = 1 := by omega
            have hsw1 : swapped = true := by
              rcases hc with h | h
              · omega
              · exact h
            rw [if_neg hb, if_pos hsw1] at hf
            have hns : nextSpace space = 1 := by omega
            rw [if_neg (by omega)]
            split
            · rename_i h
              have := ht1 h rfl (by omega)
              omega
            · omega)
      exact ⟨out, hout, hpo.trans hp, hso⟩
    · rw [if_neg hc]
      have h1 : swapped = false := by
        cases swapped
        · rfl
        · exact absurd (Or.inr rfl) hc
      exact ⟨a, rfl, List.Perm.refl a, hsorted h1 (by omega)⟩

theorem combSort_spec (a : List Int) (hn : (a.length : Int) * 10 + 3 ≤ 2147483647) :
    ∃ out, combSort a = Run.ok out ∧ out.Perm a ∧ List.Sorted (· ≤ ·) out := by
  unfold combSort
  rw [wrap32_of_range (x := (a.length : Int)) (by omega) (by omega)]
  apply combLoop_spec a.length hn _ a a.length false rfl (le_refl _) (fun h => by omega)
    (fun h => by simp at h)
  · intro _ h
    exact sorted_of_getD a (fun p q hpq hq => by omega)
  · split
    · omega
    · simp

/-! ## `countingSort` -/

theorem foldl_min_spec : ∀ (rest : List Int) (x : Int),
    rest.foldl (fun m v => if v < m then v else m) x ≤ x ∧
    (∀ v ∈ rest, rest.foldl (fun m v => if v < m then v else m) x ≤ v) ∧
    (rest.foldl (fun m v => if v < m then v else m) x = x ∨
      rest.foldl (fun m v => if v < m then v else m) x ∈ rest) := by
  intro rest
  induction rest with
  | nil => intro x; simp
  | cons y rest ih =>
    intro x
    have hz : (if y < x then y else x) ≤ x ∧ (if y < x then y else x) ≤ y ∧
        ((if y < x then y else x) = x ∨ (if y < x then y else x) = y) := by
      split <;> omega
    obtain ⟨h1, h2, h3⟩ := ih (if y < x then y else x)
    simp only [List.foldl_cons, List.mem_cons]
    generalize (if y < x then y else x) = z at hz h1 h2 h3
    refine ⟨by omega, ?_, ?_⟩
    · intro v hv
      rcases hv with hv | hv
      · subst hv; omega
      · exact h2 v hv
    · rcases h3 with h3 | h3
      · rcases hz.2.2 with h | h
        · left; omega
        · right; left; omega
      · right; right; exact h3

theorem foldl_max_spec : ∀ (rest : List Int) (x : Int),
    x ≤ rest.foldl (fun m v => if m < v then v else m) x ∧
    (∀ v ∈ rest, v ≤ rest.foldl (fun m v => if m < v then v else m) x) ∧
    (rest.foldl (fun m v => if m < v then v else m) x = x ∨
      rest.foldl (fun m v => if m < v then v else m) x ∈ rest) := by
  intro rest
  induction rest with
  | nil => intro x; simp
  | cons y rest ih =>
    intro x
    have hz : x ≤ (if x < y then y else x) ∧ y ≤ (if x < y then y else x) ∧
        ((if x < y then y else x) = x ∨ (if x < y then y else x) = y) := by
      split <;> omega
    obtain ⟨h1, h2, h3⟩ := ih (if x < y then y else x)
    simp only [List.foldl_cons, List.mem_cons]
    generalize (if x < y then y else x) = z at hz h1 h2 h3
    refine ⟨by omega, ?_, ?_⟩
    · intro v hv
      rcases hv with hv | hv
      · subst hv; omega
      · exact h2 v hv
    · rcases h3 with h3 | h3
      · rcases hz.2.2 with h | h
        · left; omega
        · right; left; omega
      · right; right; exact h3

theorem minElement_spec (a : List Int) (hne : a ≠ []) :
    ∃ m, minElement a = Run.ok m ∧ m ∈ a ∧ ∀ v ∈ a, m ≤ v := by
  cases a with
  | nil => exact absurd rfl hne
  | cons x rest =>
    obtain ⟨h1, h2, h3⟩ := foldl_min_spec rest x
    refine ⟨_, rfl, ?_, ?_⟩
    · simp only [List.mem_cons]; exact h3
    · intro v hv
      simp only [List.mem_cons] at hv
      rcases hv with hv | hv
      · rw [hv]; exact h1
      · exact h2 v hv

theorem maxElement_spec (a : List Int) (hne : a ≠ []) :
    ∃ m, maxElement a = Run.ok m ∧ m ∈ a ∧ ∀ v ∈ a, v ≤ m := by
  cases a with
  | nil => exact absurd rfl hne
  | cons x rest =>
    obtain ⟨h1, h2, h3⟩ := foldl_max_spec rest x
    refine ⟨_, rfl, ?_, ?_⟩
    · simp only [List.mem_cons]; exact h3
    · intro v hv
      simp only [List.mem_cons] at hv
      rcases hv with hv | hv
      · rw [hv]; exact h1
      · exact h2 v hv

theorem getD_set_nat (a : List Nat) (i k : Nat) (v : Nat) (hi : i < a.length) :
    (a.set i v).getD k 0 = if k = i then v else a.getD k 0 := by
  simp only [List.getD_eq_getElem?_getD, List.getElem?_set]
  by_cases h : i = k
  · subst h; simp [hi]
  · simp [h, Ne.symm h]

theorem rdI_eq_getD_nat {a : List Nat} {i : Int} (h0 : 0 ≤ i) (h : i < a.length) :
    rdI a i = Run.ok (a.getD i.toNat 0) := by
  rw [rdI, if_pos h0, rd_eq_ok (by omega), List.getD_eq_getElem _ _ (by omega)]

theorem wrI_eq_ok {α : Type} {a : List α} {i : Int} (v : α) (h0 : 0 ≤ i) (h : i < a.length) :
    wrI a i v = Run.ok (a.set i.toNat v) := by
  rw [wrI, if_pos h0, wr_eq_ok v (by omega)]

/-- The tally loop over values within `min .. min + size - 1` completes and adds to every
entry of `count` the number of occurrences of its value. -/
theorem tally_spec (min : Int) (size : Nat) (hsize : size ≤ 2147483647) :
    ∀ (l : List Int) (count : List Nat), count.length = size →
    (∀ x ∈ l, min ≤ x ∧ x < min + size) →
    (∀ k : Nat, k < size → count.getD k 0 + l.count (min + k) < 4294967296) →
    ∃ count1, tally min l count = Run.ok count1 ∧ count1.length = size ∧
      ∀ k : Nat, k < size → count1.getD k 0 = count.getD k 0 + l.count (min + k) := by
  intro l
  induction l with
  | nil => intro count hlen _ _; exact ⟨count, rfl, hlen, fun k _ => by simp⟩
  | cons x rest ih =>
    intro count hlen hx hb
    obtain ⟨hx1, hx2⟩ := hx x (List.mem_cons_self x rest)
    have hw : wrap32 (x - min) = x - min := wrap32_of_range (by omega) (by omega)
    have hj : (x - min).toNat < size := by omega
    have hxe : min + ((x - min).toNat : Int) = x := by omega
    have hcx : ∀ k : Nat, (x :: rest).count (min + k)
        = rest.count (min + k) + if k = (x - min).toNat then 1 else 0 := by
      intro k
      rw [List.count_cons]
      by_cases hk : k = (x - min).toNat
      · rw [if_pos hk, hk, hxe]; simp
      · rw [if_neg hk]
        have : ¬ x = min + (k : Int) := by omega
        simp [this]
    have hbj := hb _ hj
    rw [hcx, if_pos rfl] at hbj
    unfold tally
    rw [hw, rdI_eq_getD_nat (by omega) (by omega), Run.ok_bind,
      wrI_eq_ok _ (by omega) (by omega), Run.ok_bind, u32_of_lt (by omega)]
    obtain ⟨count1, h1, h2, h3⟩ := ih (count.set (x - min).toNat (count.getD (x - min).toNat 0 + 1))
      (by simpa using hlen) (fun y hy => hx y (List.mem_cons_of_mem x hy))
      (by
        intro k hk
        have := hb k hk
        rw [hcx] at this
        rw [getD_set_nat _ _ _ _ (by omega)]
        split
        · rename_i h; rw [if_pos h, h] at this; rw [h]; omega
        · rename_i h; rw [if_neg h] at this; omega)
    refine ⟨count1, h1, h2, ?_⟩
    intro k hk
    rw [h3 k hk, hcx, getD_set_nat _ _ _ _ (by omega)]
    split
    · rename_i h; rw [h]; omega
    · omega

/-- The emission of `c` copies of `v` from the offset `start` completes when the copies fit;
the array then begins with its former first `start` elements followed by the copies. -/
theorem emit_spec (v : Int) : ∀ (c : Nat) (a : List Int) (start : Nat), start + c ≤ a.length →
    ∃ r, emit v c a start = Run.ok r ∧ r.2 = start + c ∧ r.1.length = a.length ∧
      r.1.take (start + c) = a.take start ++ List.replicate c v := by
  intro c
  induction c with
  | zero => intro a start _; exact ⟨(a, start), rfl, rfl, rfl, by simp⟩
  | succ c ih =>
    intro a start h
    have hs : start < a.length := by omega
    obtain ⟨r, h1, h2, h3, h4⟩ := ih (a.set start v) (start + 1) (by simp; omega)
    refine ⟨r, ?_, by omega, by simpa using h3, ?_⟩
    · rw [emit, wr_eq_ok v hs, Run.ok_bind, h1]
    · have he : start + (c + 1) = start + 1 + c := by omega
      rw [he, h4, take_succ_set a start v hs, List.replicate_succ]
      simp

theorem length_expand_succ (a : List Int) (min : Int) (k : Nat) :
    (expand a min (k + 1)).length = (expand a min k).length + a.count (min + k) := by
  simp [expand]

theorem length_expand_mono (a : List Int) (min : Int) {j k : Nat} (h : j ≤ k) :
    (expand a min j).length ≤ (expand a min k).length := by
  induction k with
  | zero => simp [Nat.le_zero.mp h]
  | succ k ih =>
    rcases Nat.lt_or_ge j (k + 1) with h1 | h1
    · have := ih (by omega)
      rw [length_expand_succ]; omega
    · have : j = k + 1 := by omega
      rw [this]

theorem mem_expand (a : List Int) (min : Int) (k : Nat) (v : Int) (h : v ∈ expand a min k) :
    min ≤ v ∧ v < min + k := by
  induction k with
  | zero => simp [expand] at h
  | succ k ih =>
    simp only [expand, List.mem_append, List.mem_replicate] at h
    rcases h with h | h
    · have := ih h; omega
    · omega

theorem count_expand (a : List Int) (min : Int) (k : Nat) (v : Int) :
    (expand a min k).count v = if min ≤ v ∧ v < min + k then a.count v else 0 := by
  induction k with
  | zero =>
    rw [if_neg (by omega)]
    simp [expand]
  | succ k ih =>
    have hrep : (List.replicate (a.count (min + k)) (min + (k : Int))).count v
        = if min + (k : Int) = v then a.count v else 0 := by
      rw [List.count_replicate]
      by_cases h : min + (k : Int) = v
      · simp [h]
      · simp [h]
    rw [expand, List.count_append, ih, hrep]
    by_cases h1 : min ≤ v ∧ v < min + k
    · rw [if_pos h1, if_neg (by omega), if_pos (by omega)]; rfl
    · by_cases h3 : min + (k : Int) = v
      · rw [if_neg h1, if_pos h3, if_pos (by omega)]; simp
      · rw [if_neg h1, if_neg h3, if_neg (by omega)]

theorem expand_perm (a : List Int) (min : Int) (k : Nat)
    (h : ∀ v ∈ a, min ≤ v ∧ v < min + k) : (expand a min k).Perm a := by
  rw [List.perm_iff_count]
  intro v
  rw [count_expand]
  split
  · rfl
  · rename_i hv
    symm
    apply List.count_eq_zero_of_not_mem
    intro hm
    exact hv (h v hm)

theorem expand_sorted (a : List Int) (min : Int) (k : Nat) :
    List.Sorted (· ≤ ·) (expand a min k) := by
  induction k with
  | zero => simp [expand]
  | succ k ih =>
    unfold List.Sorted at ih ⊢
    rw [expand, List.pairwise_append]
    refine ⟨ih, ?_, ?_⟩
    · rw [List.pairwise_replicate]
      right; exact le_refl _
    · intro x hx y hy
      have := mem_expand a min k x hx
      rw [List.mem_replicate] at hy
      omega

/-- The emission loop, started at the value `min + j` with the array beginning with the
expansion of the `j` smaller values: it completes with the expansion of all the values. -/
theorem emitAll_spec (a : List Int) (min max : Int) (size : Nat) (count : List Nat)
    (hsz : (size : Int) = max - min + 1) (hrange : max - min + 1 ≤ 2147483647)
    (hmax : max + 1 ≤ 2147483647)
    (hmin : -2147483648 ≤ min) (hcl : count.length = size)
    (hc : ∀ k : Nat, k < size → count.getD k 0 = a.count (min + k))
    (htot : (expand a min size).length = a.length) :
    ∀ (fuel j : Nat) (i : Int) (arr : List Int), i = min + j → j ≤ size →
    arr.length = a.length → arr.take (expand a min j).length = expand a min j →
    size - j < fuel →
    emitAll min max count fuel i arr (expand a min j).length = Run.ok (expand a min size) := by
  intro fuel
  induction fuel with
  | zero => intro j i arr _ _ _ _ hf; omega
  | succ fuel ih =>
    intro j i arr hi hj hlen htake hf
    unfold emitAll
    by_cases hle : i ≤ max
    · have hjs : j < size := by omega
      have hw1 : wrap32 (i - min) = j := by rw [wrap32_of_range (by omega) (by omega)]; omega
      have hw2 : wrap32 (i + 1) = min + ((j + 1 : Nat) : Int) := by
        rw [wrap32_of_range (by omega) (by omega)]; omega
      have hmono := length_expand_mono a min (show j + 1 ≤ size by omega)
      have hsucc := length_expand_succ a min j
      obtain ⟨r, hr1, hr2, hr3, hr4⟩ := emit_spec i (count.getD j 0) arr (expand a min j).length
        (by rw [hc j hjs, hlen]; omega)
      rw [if_pos hle, hw1, rdI_eq_getD_nat (by omega) (by omega), Run.ok_bind]
      simp only [Int.toNat_ofNat]
      rw [hr1, Run.ok_bind, hw2, hr2, hc j hjs, ← hsucc]
      apply ih (j + 1) _ r.1 rfl (by omega) (by rw [hr3, hlen])
      · rw [hsucc, ← hc j hjs, hr4, htake, expand, hc j hjs, hi]
      · omega
    · have hjs : j = size := by omega
      subst hjs
      rw [if_neg hle]
      congr 1
      rw [← htake, htot, ← hlen, List.take_length]

theorem countingSort_spec (a : List Int) (hne : a ≠ []) (hlen : a.length < 4294967296)
    (hlo : ∀ x ∈ a, -2147483648 ≤ x) (hhi : ∀ x ∈ a, x + 1 ≤ 2147483647)
    (hrange : ∀ x ∈ a, ∀ y ∈ a, y - x + 1 ≤ 2147483647) :
    ∃ out, countingSort a = Run.ok out ∧ out.Perm a ∧ List.Sorted (· ≤ ·) out := by
  obtain ⟨mn, hmn, hmn1, hmn2⟩ := minElement_spec a hne
  obtain ⟨mx, hmx, hmx1, hmx2⟩ := maxElement_spec a hne
  have hr := hrange mn hmn1 mx hmx1
  have hle := hmn2 mx hmx1
  have hw : wrap32 (wrap32 (mx - mn) + 1) = mx - mn + 1 := by
    rw [wrap32_of_range (x := mx - mn) (by omega) (by omega),
      wrap32_of_range (by omega) (by omega)]
  have hin : ∀ v ∈ a, mn ≤ v ∧ v < mn + ((mx - mn + 1).toNat : Int) := by
    intro v hv
    have := hmn2 v hv
    have := hmx2 v hv
    omega
  have hperm := expand_perm a mn (mx - mn + 1).toNat hin
  obtain ⟨count, hc1, hc2, hc3⟩ := tally_spec mn (mx - mn + 1).toNat (by omega) a
    (List.replicate (mx - mn + 1).toNat 0) (by simp) hin
    (by
      intro k hk
      have := List.count_le_length (mn + (k : Int)) a
      rw [getD_replicate_zero _ _ hk]; omega)
  have hrun := emitAll_spec a mn mx (mx - mn + 1).toNat count (by omega) hr (hhi mx hmx1)
    (hlo mn hmn1) hc2
    (by intro k hk; rw [hc3 k hk, getD_replicate_zero _ _ hk]; omega)
    hperm.length_eq ((mx - mn + 1).toNat + 1) 0 mn a (by simp) (by omega) rfl
    (by simp [expand]) (by omega)
  refine ⟨expand a mn (mx - mn + 1).toNat, ?_, hperm, expand_sorted a mn _⟩
  unfold countingSort
  rw [hmn, Run.ok_bind, hmx, Run.ok_bind]
  simp only [hw]
  rw [if_neg (by omega), hc1, Run.ok_bind]
  exact hrun

/-! ## The benchmark harness -/

theorem isSorted_iff_chain : ∀ (a : List Int), isSorted a = true ↔ List.Chain' (· ≤ ·) a
  | [] => by simp [isSorted]
  | [_] => by simp [isSorted]
  | x :: y :: rest => by
    rw [isSorted, List.chain'_cons, ← isSorted_iff_chain (y :: rest)]
    simp

/-- The check of the harness accepts exactly the sorted arrays. -/
theorem isSorted_iff (a : List Int) : isSorted a = true ↔ List.Sorted (· ≤ ·) a := by
  rw [isSorted_iff_chain]
  exact List.chain'_iff_pairwise

theorem benchmark_zero (S : List Int → Run (List Int)) (draw : Nat → Nat) (type : order) :
    benchmark S draw 0 type = ([], Ending.returned) := by
  simp [benchmark]

theorem benchmark_sortFailed (S : List Int → Run (List Int)) (draw : Nat → Nat) (n : Int)
    (type : order) :
    (benchmark S draw n type).2 = Ending.sortFailed ↔
      0 ≠ n ∧ ∃ arr out, constructTestArray draw n type = Run.ok arr ∧ S arr = Run.ok out ∧
        ¬ List.Sorted (· ≤ ·) out := by
  unfold benchmark
  by_cases hn : n ≠ 0
  · rw [if_pos hn]
    cases hc : constructTestArray draw n type with
    | fault f => simp
    | ok arr =>
      cases hs : S arr with
      | fault f => simp [hs]
      | ok out =>
        simp only [hs]
        by_cases hso : isSorted out = true
        · have hsorted := (isSorted_iff out).mp hso
          constructor
          · intro h; simp [hso] at h
          · rintro ⟨_, arr1, out1, h1, h2, h3⟩
            cases h1
            rw [hs] at h2
            cases h2
            exact absurd hsorted h3
        · have hns : ¬ List.Sorted (· ≤ ·) out := fun h => hso ((isSorted_iff out).mpr h)
          constructor
          · intro _
            exact ⟨Ne.symm hn, arr, out, rfl, hs, hns⟩
          · intro _
            simp [hso]
  · rw [if_neg hn]
    have : n = 0 := by omega
    simp [this]

/-! ## The array generator -/

@[simp] theorem length_generateUp : ∀ (k : Nat) (i : Int), (generateUp k i).length = k
  | 0, _ => rfl
  | k + 1, i => by simp [generateUp, length_generateUp k]

theorem getD_generateUp : ∀ (k : Nat) (i : Int) (j : Nat), j < k →
    (generateUp k i).getD j 0 = i + j
  | 0, _, _, h => by omega
  | k + 1, i, 0, _ => by simp [generateUp]
  | k + 1, i, j + 1, h => by
    rw [generateUp, List.getD_cons_succ, getD_generateUp k (i + 1) j (by omega)]
    push_cast; omega

theorem mem_generateUp : ∀ (k : Nat) (i y : Int), y ∈ generateUp k i → i ≤ y ∧ y < i + k
  | 0, _, _, h => by simp [generateUp] at h
  | k + 1, i, y, h => by
    rw [generateUp, List.mem_cons] at h
    rcases h with h | h
    · subst h; omega
    · have := mem_generateUp k (i + 1) y h
      push_cast; omega

theorem sorted_generateUp : ∀ (k : Nat) (i : Int), List.Sorted (· < ·) (generateUp k i)
  | 0, _ => by simp [generateUp]
  | k + 1, i => by
    rw [generateUp, List.sorted_cons]
    exact ⟨fun y hy => by have := mem_generateUp k (i + 1) y hy; omega,
      sorted_generateUp k (i + 1)⟩

@[simp] theorem length_generateDown : ∀ (k : Nat) (i : Int), (generateDown k i).length = k
  | 0, _ => rfl
  | k + 1, i => by simp [generateDown, length_generateDown k]

theorem getD_generateDown : ∀ (k : Nat) (i : Int) (j : Nat), j < k →
    (generateDown k i).getD j 0 = i - j
  | 0, _, _, h => by omega
  | k + 1, i, 0, _ => by simp [generateDown]
  | k + 1, i, j + 1, h => by
    rw [generateDown, List.getD_cons_succ, getD_generateDown k (i - 1) j (by omega)]
    push_cast; omega

theorem mem_generateDown : ∀ (k : Nat) (i y : Int), y ∈ generateDown k i → i - k < y ∧ y ≤ i
  | 0, _, _, h => by simp [generateDown] at h
  | k + 1, i, y, h => by
    rw [generateDown, List.mem_cons] at h
    rcases h with h | h
    · subst h; push_cast; omega
    · have := mem_generateDown k (i - 1) y h
      push_cast; omega

theorem sorted_generateDown : ∀ (k : Nat) (i : Int), List.Sorted (· > ·) (generateDown k i)
  | 0, _ => by simp [generateDown]
  | k + 1, i => by
    rw [generateDown, List.sorted_cons]
    exact ⟨fun y hy => by have := mem_generateDown k (i - 1) y hy; omega,
      sorted_generateDown k (i - 1)⟩

theorem swapCount_eq (s : Nat) : swapCount s = max 1 (s / 20) := by
  unfold swapCount
  split <;> omega

@[simp] theorem length_drawPairs (draw : Nat → Nat) : ∀ (r i : Nat),
    (drawPairs draw r i).length = r
  | 0, _ => rfl
  | r + 1, i => by simp [drawPairs, length_drawPairs draw r]

@[simp] theorem length_exchAll : ∀ (ps : List (Nat × Nat)) (a : List Int),
    (exchAll ps a).length = a.length
  | [], _ => rfl
  | p :: rest, a => by rw [exchAll, length_exchAll rest, length_exch]

/-- With every draw a valid offset, the swap loop completes and makes one exchange per
iteration, at the offsets drawn. -/
theorem swapLoop_eq (draw : Nat → Nat) : ∀ (r i : Nat) (a : List Int),
    (∀ d, draw d < a.length) → swapLoop draw r i a = Run.ok (exchAll (drawPairs draw r i) a)
  | 0, _, _, _ => rfl
  | r + 1, i, a, h => by
    rw [swapLoop, swap_eq_exch (h _) (h _), Run.ok_bind,
      swapLoop_eq draw r (i + 1) _ (by simpa using h)]
    rfl

theorem constructTestArray_mostly (draw : Nat → Nat) (n : Int) (hn : 0 ≤ n) :
    constructTestArray draw n order.MOSTLY_ORDERED
      = swapLoop draw (swapCount n.toNat) 0 (generateUp n.toNat 1) := by
  simp [constructTestArray, not_lt.mpr hn]

theorem constructTestArray_ordered (draw : Nat → Nat) (n : Int) (hn : 0 ≤ n) :
    constructTestArray draw n order.ORDERED = Run.ok (generateUp n.toNat 1) := by
  simp [constructTestArray, not_lt.mpr hn]

theorem constructTestArray_reversed (draw : Nat → Nat) (n : Int) (hn : 0 ≤ n) :
    constructTestArray draw n order.REVERSED = Run.ok (generateDown n.toNat n) := by
  simp [constructTestArray, not_lt.mpr hn]

theorem constructTestArray_negative (draw : Nat → Nat) (n : Int) (type : order) (hn : n < 0) :
    constructTestArray draw n type = Run.fault Fault.alloc := by
  simp [constructTestArray, hn]

theorem benchmark_negative (S : List Int → Run (List Int)) (draw : Nat → Nat) (n : Int)
    (type : order) (hn : n < 0) :
    benchmark S draw n type = ([Event.generate], Ending.faulted Fault.alloc) := by
  have h0 : n ≠ 0 := by omega
  simp [benchmark, h0, constructTestArray_negative draw n type hn]

/-! ## `radixSort`: the single-bucket test -/

theorem radixSort_eq_init (a : List Int) :
    radixSort a = (radixLoop 4 0 (radixInit a) >>= fun s =>
      if s.firstIsBegin then Run.ok s.first else copyBack s.first s.pBuffer 0) := rfl

/-- When the single-bucket test of a pass holds, the pass leaves both buffers as they are
and asks for a separate histogram in the next pass. -/
theorem radixPass_of_skipped (j : Nat) (s : RadixState) (h : scatterSkipped j s = Run.ok true) :
    radixPass j s = Run.ok { s with bucketSize := sizesAtTest j s,
                                    doSeparateHistogramCalculation := true } := by
  unfold scatterSkipped at h
  unfold radixPass
  cases hx : rd s.first 0 with
  | fault e => rw [hx] at h; simp at h
  | ok x0 =>
    rw [hx, Run.ok_bind] at h
    have ht : sizesAtTest j s (digit x0 j) = u32 s.first.length := by
      injection h with h; simpa using h
    unfold sizesAtTest at ht ⊢
    simp only [Run.ok_bind]
    rw [if_pos ht]

/-- When the single-bucket test of a pass fails, the pass scatters: if it completes, the
two buffers have exchanged their roles. -/
theorem radixPass_of_not_skipped (j : Nat) (s s1 : RadixState)
    (h : scatterSkipped j s = Run.ok false) (h1 : radixPass j s = Run.ok s1) :
    s1.firstIsBegin = !s.firstIsBegin ∧ s1.pBuffer = s.first := by
  unfold scatterSkipped at h
  unfold radixPass at h1
  cases hx : rd s.first 0 with
  | fault e => rw [hx] at h; simp at h
  | ok x0 =>
    rw [hx, Run.ok_bind] at h
    have ht : ¬ sizesAtTest j s (digit x0 j) = u32 s.first.length := by
      injection h with h; simpa using h
    unfold sizesAtTest at ht
    rw [hx] at h1
    simp only [Run.ok_bind] at h1
    rw [if_neg ht] at h1
    split at h1
    · cases hs : scatterLast j s.first s.pBuffer (bucketPos
          (if s.doSeparateHistogramCalculation then histogram j s.first (fun _ => 0)
            else s.bucketSize)) with
      | fault e => rw [hs] at h1; simp at h1
      | ok r =>
        rw [hs, Run.ok_bind] at h1
        injection h1 with h1
        rw [← h1]; exact ⟨rfl, rfl⟩
    · cases hs : scatterFused j (j + DIGIT_BITS) s.first s.pBuffer
          (bucketPos (if s.doSeparateHistogramCalculation then histogram j s.first (fun _ => 0)
            else s.bucketSize))
          (clearSizes (if s.doSeparateHistogramCalculation then histogram j s.first (fun _ => 0)
            else s.bucketSize)) with
      | fault e => rw [hs] at h1; simp at h1
      | ok r =>
        rw [hs, Run.ok_bind] at h1
        injection h1 with h1
        rw [← h1]; exact ⟨rfl, rfl⟩

/-- After a separate histogram the single-bucket test is accurate: it holds exactly when
every element of the range has the digit of the first one. -/
theorem scatterSkipped_of_separate (j : Nat) (s : RadixState) (x0 : Int) (rest : List Int)
    (hf : s.first = x0 :: rest) (hn : s.first.length < 4294967296)
    (hsep : s.doSeparateHistogramCalculation = true) :
    scatterSkipped j s = Run.ok (decide (∀ x ∈ s.first, digit x j = digit x0 j)) := by
  have hc := cnt_le_length j (digit x0 j) s.first
  have hs : sizesAtTest j s (digit x0 j) = cnt j (digit x0 j) s.first := by
    unfold sizesAtTest
    rw [hsep, if_pos rfl, histogram_apply j s.first _ _ (by omega)]
    simp
  have hrd : rd s.first 0 = Run.ok x0 := by rw [hf]; simp [rd]
  unfold scatterSkipped
  rw [hrd, Run.ok_bind, hs, u32_of_lt hn]
  congr 1
  unfold cnt
  rw [decide_eq_decide, List.countP_eq_length]
  simp

/-! ## `quick_sort`: the offsets it accesses -/

theorem mem_swapLog (x : Access) (i j : Int) (h : x ∈ swapLog i j) :
    x.offset = i ∨ x.offset = j := by
  simp only [swapLog, List.mem_cons, List.mem_singleton, List.not_mem_nil, or_false] at h
  rcases h with h | h | h | h <;> subst h <;> simp [Access.offset]

/-- The lower scan with accesses returns what the lower scan returns, and reads exactly the
offsets from its start to its stop. -/
theorem scanLowerT_of (a : List Int) (bound : Int) : ∀ (fuel : Nat) (lower l1 : Int),
    scanLower a bound fuel lower = Run.ok l1 →
    ∃ log, scanLowerT a bound fuel lower = Run.ok (l1, log) ∧ lower ≤ l1 ∧
      ∀ x ∈ log, x.isWrite = false ∧ lower ≤ x.offset ∧ x.offset ≤ l1 := by
  intro fuel
  induction fuel with
  | zero => intro lower l1 h; simp [scanLower] at h
  | succ fuel ih =>
    intro lower l1 h
    unfold scanLower at h
    unfold scanLowerT
    cases hv : rdI a lower with
    | fault e => rw [hv] at h; simp at h
    | ok v =>
      rw [hv, Run.ok_bind] at h
      rw [Run.ok_bind]
      by_cases hlt : v < bound
      · rw [if_pos hlt] at h
        obtain ⟨log, h1, h2, h3⟩ := ih (lower + 1) l1 h
        rw [if_pos hlt, h1, Run.ok_bind]
        refine ⟨_, rfl, by omega, ?_⟩
        intro x hx
        rw [List.mem_cons] at hx
        rcases hx with hx | hx
        · subst hx; simp [Access.isWrite, Access.offset]; omega
        · obtain ⟨w, h4, h5⟩ := h3 x hx
          exact ⟨w, by omega, by omega⟩
      · rw [if_neg hlt] at h
        injection h with h
        subst h
        rw [if_neg hlt]
        refine ⟨_, rfl, le_refl _, ?_⟩
        intro x hx
        rw [List.mem_singleton] at hx
        subst hx; simp [Access.isWrite, Access.offset]

/-- The upper scan with accesses returns what the upper scan returns, and reads exactly the
offsets from its start down to its stop. -/
theorem scanUpperT_of (a : List Int) (bound : Int) : ∀ (fuel : Nat) (upper u1 : Int),
    scanUpper a bound fuel upper = Run.ok u1 →
    ∃ log, scanUpperT a bound fuel upper = Run.ok (u1, log) ∧ u1 ≤ upper ∧
      ∀ x ∈ log, x.isWrite = false ∧ u1 ≤ x.offset ∧ x.offset ≤ upper := by
  intro fuel
  induction fuel with
  | zero => intro upper u1 h; simp [scanUpper] at h
  | succ fuel ih =>
    intro upper u1 h
    unfold scanUpper at h
    unfold scanUpperT
    cases hv : rdI a upper with
    | fault e => rw [hv] at h; simp at h
    | ok v =>
      rw [hv, Run.ok_bind] at h
      rw [Run.ok_bind]
      by_cases hlt : bound < v
      · rw [if_pos hlt] at h
        obtain ⟨log, h1, h2, h3⟩ := ih (upper - 1) u1 h
        rw [if_pos hlt, h1, Run.ok_bind]
        refine ⟨_, rfl, by omega, ?_⟩
        intro x hx
        rw [List.mem_cons] at hx
        rcases hx with hx | hx
        · subst hx; simp [Access.isWrite, Access.offset]; omega
        · obtain ⟨w, h4, h5⟩ := h3 x hx
          exact ⟨w, by omega, by omega⟩
      · rw [if_neg hlt] at h
        injection h with h
        subst h
        rw [if_neg hlt]
        refine ⟨_, rfl, le_refl _, ?_⟩
        intro x hx
        rw [List.mem_singleton] at hx
        subst hx; simp [Access.isWrite, Access.offset]

/-- The partition loop with accesses, started in a state as in `partitionLoop_spec`: it
returns what the partition loop returns, reads only offsets in `first..last + 1` and writes
only offsets in `first + 1..last`. -/
theorem partitionLoopT_spec (bound first last : Int) (h0 : 0 ≤ first) :
    ∀ (fuel : Nat) (a : List Int) (lower upper : Int), last + 1 < a.length →
    first < lower → first ≤ upper → upper ≤ last →
    a.getD first.toNat 0 = bound → ¬ (a.getD (last + 1).toNat 0 < bound) →
    (∀ k : Nat, first < (k : Int) → (k : Int) < lower → (k : Int) ≤ upper → a.getD k 0 ≤ bound) →
    (∀ k : Nat, upper < (k : Int) → (k : Int) ≤ last → bound ≤ a.getD k 0) →
    (upper + 1 - lower).toNat < fuel →
    ∃ r log, partitionLoopT bound fuel a lower upper = Run.ok (r, log) ∧
      partitionLoop bound fuel a lower upper = Run.ok r ∧
      ∀ x ∈ log, first ≤ x.offset ∧ x.offset ≤ last + 1 ∧
        (x.isWrite = true → first < x.offset ∧ x.offset ≤ last) := by
  intro fuel
  induction fuel with
  | zero => intro a lower upper _ _ _ _ _ _ _ _ hf; omega
  | succ fuel ih =>
    intro a lower upper hlen hfl hfu hul hb hsent hlo hhi hf
    unfold partitionLoopT partitionLoop
    by_cases hc : lower ≤ upper
    · rw [if_pos hc, if_pos hc]
      have hstop : ¬ (a.getD (upper + 1).toNat 0 < bound) := by
        by_cases hu : upper = last
        · rw [hu]; exact hsent
        · have := hhi (upper + 1).toNat (by omega) (by omega)
          omega
      obtain ⟨l1, hl1, hl1a, hl1b, hl1c, hl1d⟩ := scanLower_spec a bound (a.length + 1) lower
        (upper + 1) (by omega) (by omega) (by omega) hstop (by omega)
      obtain ⟨u1, hu1, hu1a, hu1b, hu1c, hu1d⟩ := scanUpper_spec a bound (a.length + 1) upper
        first h0 hfu (by omega) (by rw [hb]; omega) (by omega)
      obtain ⟨llog, hlT, _, hllog⟩ := scanLowerT_of a bound _ _ _ hl1
      obtain ⟨ulog, huT, _, hulog⟩ := scanUpperT_of a bound _ _ _ hu1
      rw [hl1, Run.ok_bind, hu1, Run.ok_bind, hlT, Run.ok_bind, huT, Run.ok_bind]
      simp only []
      have hscan : ∀ x, x ∈ llog ∨ x ∈ ulog → first ≤ x.offset ∧ x.offset ≤ last + 1 ∧
          (x.isWrite = true → first < x.offset ∧ x.offset ≤ last) := by
        intro x hx
        rcases hx with hx | hx
        · obtain ⟨w, h4, h5⟩ := hllog x hx
          exact ⟨by omega, by omega, fun hw => by rw [w] at hw; exact absurd hw (by simp)⟩
        · obtain ⟨w, h4, h5⟩ := hulog x hx
          exact ⟨by omega, by omega, fun hw => by rw [w] at hw; exact absurd hw (by simp)⟩
      by_cases hsw : l1 < u1
      · rw [if_pos hsw, if_pos hsw,
          swapI_eq_exch (by omega) (by omega) (by omega) (by omega), Run.ok_bind, Run.ok_bind]
        have hli : l1.toNat < a.length := by omega
        have hui : u1.toNat < a.length := by omega
        have hg := fun k => getD_exch a l1.toNat u1.toNat k hli hui
        obtain ⟨r, log, hrT, hr, hlog⟩ := ih (exch a l1.toNat u1.toNat) (l1 + 1) (u1 - 1)
          (by simpa using hlen) (by omega) (by omega) (by omega)
          (by rw [hg, if_neg (by omega), if_neg (by omega)]; exact hb)
          (by rw [hg, if_neg (by omega), if_neg (by omega)]; exact hsent)
          (by
            intro k hk1 hk2 hk3
            rw [hg]
            by_cases hku : k = u1.toNat
            · omega
            · rw [if_neg hku]
              by_cases hkl : k = l1.toNat
              · rw [if_pos hkl]; omega
              · rw [if_neg hkl]
                by_cases hkk : (k : Int) < lower
                · exact hlo k hk1 hkk (by omega)
                · exact le_of_lt (hl1d k (by omega) (by omega)))
          (by
            intro k hk1 hk2
            rw [hg]
            by_cases hku : k = u1.toNat
            · rw [if_pos hku]; omega
            · rw [if_neg hku, if_neg (by omega)]
              by_cases hkk : (k : Int) ≤ upper
              · exact le_of_lt (hu1d k (by omega) hkk)
              · exact hhi k (by omega) hk2)
          (by omega)
        rw [hrT, hr, Run.ok_bind]
        refine ⟨r, _, rfl, rfl, ?_⟩
        intro x hx
        simp only [List.mem_append] at hx
        rcases hx with ((hx | hx) | hx) | hx
        · exact hscan x (Or.inl hx)
        · exact hscan x (Or.inr hx)
        · have := mem_swapLog x l1 u1 hx
          exact ⟨by omega, by omega, fun _ => by omega⟩
        · exact hlog x hx
      · rw [if_neg hsw, if_neg hsw]
        obtain ⟨r, log, hrT, hr, hlog⟩ := ih a (l1 + 1) u1 hlen (by omega) hu1a
          (by omega) hb hsent
          (by
            intro k hk1 hk2 hk3
            by_cases hkk : (k : Int) < lower
            · exact hlo k hk1 hkk (by omega)
            · by_cases hkl : (k : Int) < l1
              · exact le_of_lt (hl1d k (by omega) hkl)
              · have hke : k = u1.toNat := by omega
                rw [hke]; omega)
          (by
            intro k hk1 hk2
            by_cases hkk : (k : Int) ≤ upper
            · exact le_of_lt (hu1d k hk1 hkk)
            · exact hhi k (by omega) hk2)
          (by omega)
        rw [hrT, hr, Run.ok_bind]
        refine ⟨r, _, rfl, rfl, ?_⟩
        intro x hx
        simp only [List.mem_append] at hx
        rcases hx with (hx | hx) | hx
        · exact hscan x (Or.inl hx)
        · exact hscan x (Or.inr hx)
        · exact hlog x hx
    · rw [if_neg hc, if_neg hc]
      exact ⟨(a, upper), [], rfl, rfl, fun x hx => by simp at hx⟩

/-- The partition step with accesses, under the conditions of `partition_spec`: it returns
what the partition step returns, reads only offsets in `first..last + 1` and writes only
offsets in `first..last`. -/
theorem partitionT_spec (a : List Int) (first last : Int) (h0 : 0 ≤ first) (hfl : first ≤ last)
    (hlen : last + 1 < a.length)
    (hsent : ∀ k : Nat, first ≤ (k : Int) → (k : Int) ≤ last →
      a.getD k 0 ≤ a.getD (last + 1).toNat 0) :
    ∃ r log, partitionT a first last = Run.ok (r, log) ∧ partition a first last = Run.ok r ∧
      ∀ x ∈ log, first ≤ x.offset ∧ x.offset ≤ last + 1 ∧
        (x.isWrite = true → x.offset ≤ last) := by
  have hs := hsent first.toNat (by omega) (by omega)
  obtain ⟨r, log, hrT, hr, hlog⟩ := partitionLoopT_spec (a.getD first.toNat 0) first last
    h0 (a.length + 1) a (first + 1) last hlen (by omega) hfl (le_refl _) rfl (by omega)
    (fun k h1 h2 _ => by omega) (fun k h1 h2 => by omega) (by omega)
  obtain ⟨r1, hr1, hre, hr2, hr3, _⟩ := partitionLoop_spec (a.getD first.toNat 0) first last
    h0 (a.length + 1) a (first + 1) last hlen (by omega) hfl (le_refl _) rfl (by omega)
    (fun k h1 h2 _ => by omega) (fun k h1 h2 => by omega) (by omega)
  rw [hr] at hr1
  injection hr1 with hr1
  subst hr1
  have hl := rearranged_length_eq hre
  unfold partitionT partition
  rw [rdI_eq_getD h0 (by omega), Run.ok_bind, Run.ok_bind, hrT, hr, Run.ok_bind, Run.ok_bind]
  simp only []
  rw [swapI_eq_exch (by omega) (by omega) h0 (by omega), Run.ok_bind, Run.ok_bind]
  refine ⟨_, _, rfl, rfl, ?_⟩
  intro x hx
  rw [List.mem_append, List.mem_cons] at hx
  rcases hx with (hx | hx) | hx
  · subst hx
    simp only [Access.offset, Access.isWrite]
    exact ⟨le_refl _, by omega, fun h => by simp at h⟩
  · obtain ⟨h1, h2, h3⟩ := hlog x hx
    exact ⟨h1, h2, fun hw => (h3 hw).2⟩
  · have := mem_swapLog x r.2 first hx
    exact ⟨by omega, by omega, fun _ => by omega⟩

/-- The routine `quick_sort(begin, first, last)` with accesses, under the conditions of
`quick_sort_spec`: it returns what `quick_sort` returns, and the call and all the calls
below it read only offsets in `first..last + 1` and write only offsets in `first..last`. -/
theorem quick_sortT_spec : ∀ (fuel : Nat) (a : List Int) (first last : Int), 0 ≤ first →
    first ≤ last → last + 1 < a.length →
    (∀ k : Nat, first ≤ (k : Int) → (k : Int) ≤ last → a.getD k 0 ≤ a.getD (last + 1).toNat 0) →
    (last - first).toNat < fuel →
    ∃ out log, quick_sortT fuel a first last = Run.ok (out, log) ∧
      quick_sort fuel a first last = Run.ok out ∧
      ∀ x ∈ log, first ≤ x.offset ∧ x.offset ≤ last + 1 ∧
        (x.isWrite = true → x.offset ≤ last) := by
  intro fuel
  induction fuel with
  | zero => intro a first last _ _ _ _ hf; omega
  | succ fuel ih =>
    intro a first last h0 hfl hlen hsent hf
    obtain ⟨r, plog, hpT, hp, hplog⟩ := partitionT_spec a first last h0 hfl hlen hsent
    obtain ⟨r1, hp1, hr1, hr2, hr3, hr4, hr5, hr6⟩ := partition_spec a first last h0 hfl hlen hsent
    rw [hp] at hp1
    injection hp1 with hp1
    subst hp1
    have hl1 := rearranged_length_eq hr1
    -- the call on the left part
    have hleft : ∃ a1 llog, (if first < r.2 - 1 then quick_sortT fuel r.1 first (r.2 - 1)
          else Run.ok (r.1, [])) = Run.ok (a1, llog) ∧
        (if first < r.2 - 1 then quick_sort fuel r.1 first (r.2 - 1) else Run.ok r.1)
          = Run.ok a1 ∧ Rearranged r.1 a1 first (r.2 - 1) ∧
        ∀ x ∈ llog, first ≤ x.offset ∧ x.offset ≤ last + 1 ∧
          (x.isWrite = true → x.offset ≤ last) := by
      by_cases hc : first < r.2 - 1
      · rw [if_pos hc, if_pos hc]
        have he : (r.2 - 1 + 1).toNat = r.2.toNat := by omega
        have hs1 : ∀ k : Nat, first ≤ (k : Int) → (k : Int) ≤ r.2 - 1 →
            r.1.getD k 0 ≤ r.1.getD (r.2 - 1 + 1).toNat 0 :=
          fun k hk1 hk2 => by rw [he]; exact hr5 k hk1 (by omega)
        obtain ⟨a1, llog, hlT, hl, hllog⟩ := ih r.1 first (r.2 - 1) h0 (by omega) (by omega)
          hs1 (by omega)
        obtain ⟨a2, hl2, hra, _⟩ := quick_sort_spec fuel r.1 first (r.2 - 1) h0 (by omega)
          (by omega) hs1 (by omega)
        rw [hl] at hl2
        injection hl2 with hl2
        subst hl2
        refine ⟨a1, llog, hlT, hl, hra, ?_⟩
        intro x hx
        obtain ⟨h1, h2, h3⟩ := hllog x hx
        exact ⟨h1, by omega, fun hw => by have := h3 hw; omega⟩
      · rw [if_neg hc, if_neg hc]
        exact ⟨r.1, [], rfl, rfl, rearranged_refl _ _ _, fun x hx => by simp at hx⟩
    obtain ⟨a1, llog, hlT, hl, hra1, hllog⟩ := hleft
    have hl2 := rearranged_length_eq hra1
    -- the call on the right part
    have hright : ∃ out rlog, (if r.2 + 1 < last then quick_sortT fuel a1 (r.2 + 1) last
          else Run.ok (a1, [])) = Run.ok (out, rlog) ∧
        (if r.2 + 1 < last then quick_sort fuel a1 (r.2 + 1) last else Run.ok a1)
          = Run.ok out ∧
        ∀ x ∈ rlog, first ≤ x.offset ∧ x.offset ≤ last + 1 ∧
          (x.isWrite = true → x.offset ≤ last) := by
      by_cases hc : r.2 + 1 < last
      · rw [if_pos hc, if_pos hc]
        obtain ⟨out, rlog, hrT, hr, hrlog⟩ := ih a1 (r.2 + 1) last (by omega) (by omega)
          (by omega)
          (by
            intro k hk1 hk2
            rw [hra1.2.1 k (by omega), hra1.2.1 (last + 1).toNat (by omega),
              hr1.2.1 (last + 1).toNat (by omega)]
            exact hr1.2.2 (fun v => v ≤ a.getD (last + 1).toNat 0) hsent k (by omega) hk2)
          (by omega)
        refine ⟨out, rlog, hrT, hr, ?_⟩
        intro x hx
        obtain ⟨h1, h2, h3⟩ := hrlog x hx
        exact ⟨by omega, h2, h3⟩
      · rw [if_neg hc, if_neg hc]
        exact ⟨a1, [], rfl, rfl, fun x hx => by simp at hx⟩
    obtain ⟨out, rlog, hrT, hr, hrlog⟩ := hright
    refine ⟨out, plog ++ llog ++ rlog, ?_, ?_, ?_⟩
    · rw [quick_sortT, hpT, Run.ok_bind]
      simp only []
      rw [hlT, Run.ok_bind]
      simp only []
      rw [hrT, Run.ok_bind]
    · rw [quick_sort, hp, Run.ok_bind, hl, Run.ok_bind, hr]
    · intro x hx
      simp only [List.mem_append] at hx
      rcases hx with (hx | hx) | hx
      · exact hplog x hx
      · exact hllog x hx
      · exact hrlog x hx

/-! ## `quickSort` on a strictly ascending array -/

theorem exch_self (a : List Int) (i : Nat) (hi : i < a.length) : exch a i i = a := by
  apply List.ext_getElem?
  intro k
  have h := getD_exch a i i k hi hi
  by_cases hk : k < a.length
  · have hk1 : k < (exch a i i).length := by simpa using hk
    rw [List.getElem?_eq_getElem hk, List.getElem?_eq_getElem hk1]
    rw [List.getD_eq_getElem _ _ hk1, List.getD_eq_getElem _ _ hk] at h
    rw [h]
    by_cases hki : k = i
    · subst hki; rw [if_pos rfl, List.getD_eq_getElem _ _ hk]
    · rw [if_neg hki, if_neg hki]
  · rw [List.getElem?_eq_none (by simpa using hk), List.getElem?_eq_none (by simpa using hk)]

/-- On a strictly ascending array the partition step of `quick_sort(begin, first, last)`
leaves the array as it is and ends with `upper == first`. -/
theorem partition_ascending (a : List Int)
    (hasc : ∀ p q : Nat, p < q → q < a.length → a.getD p 0 < a.getD q 0)
    (first last : Int) (h0 : 0 ≤ first) (hfl : first ≤ last) (hlen : last + 1 < a.length) :
    partition a first last = Run.ok (a, first) := by
  have hloop : partitionLoop (a.getD first.toNat 0) (a.length + 1) a (first + 1) last
      = Run.ok (a, first) := by
    rw [partitionLoop]
    by_cases hc : first + 1 ≤ last
    · rw [if_pos hc]
      obtain ⟨l1, hl1, hl1a, hl1b, _, _⟩ := scanLower_spec a (a.getD first.toNat 0)
        (a.length + 1) (first + 1) (first + 1) (by omega) (le_refl _) (by omega)
        (by have := hasc first.toNat (first + 1).toNat (by omega) (by omega); omega) (by omega)
      obtain ⟨u1, hu1, hu1a, hu1b, hu1c, _⟩ := scanUpper_spec a (a.getD first.toNat 0)
        (a.length + 1) last first h0 hfl (by omega) (by omega) (by omega)
      have hl : l1 = first + 1 := by omega
      have hu : u1 = first := by
        by_contra hne
        have := hasc first.toNat u1.toNat (by omega) (by omega)
        omega
      subst hl hu
      rw [hl1, Run.ok_bind, hu1, Run.ok_bind, if_neg (by omega)]
      obtain ⟨m, hm⟩ : ∃ m, a.length = m + 1 := ⟨a.length - 1, by omega⟩
      rw [hm, partitionLoop, if_neg (by omega)]
    · rw [if_neg hc]
      have : last = first := by omega
      rw [this]
  unfold partition
  rw [rdI_eq_getD h0 (by omega), Run.ok_bind, hloop, Run.ok_bind]
  simp only []
  rw [swapI_eq_exch h0 (by omega) h0 (by omega), Run.ok_bind, exch_self a _ (by omega)]

/-- On a strictly ascending array a call of `quick_sort` makes no call on a left part and
one call on the right part `first + 1..last`, until that part has one element; the array is
never changed, and the call returns exactly when the recursion budget is at least the
length of that chain of calls. -/
theorem quick_sort_ascending (a : List Int)
    (hasc : ∀ p q : Nat, p < q → q < a.length → a.getD p 0 < a.getD q 0)
    (last : Int) (hlen : last + 1 < a.length) :
    ∀ (fuel : Nat) (first : Int), 0 ≤ first → first ≤ last →
    quick_sort fuel a first last
      = if max 1 (last - first).toNat ≤ fuel then Run.ok a else Run.fault Fault.fuel := by
  intro fuel
  induction fuel with
  | zero => intro first _ _; rw [quick_sort, if_neg (by omega)]
  | succ fuel ih =>
    intro first h0 hfl
    rw [quick_sort, partition_ascending a hasc first last h0 hfl hlen, Run.ok_bind]
    simp only []
    rw [if_neg (by omega), Run.ok_bind]
    by_cases hc : first + 1 < last
    · rw [if_pos hc, ih (first + 1) (by omega) (by omega)]
      by_cases hf : max 1 (last - (first + 1)).toNat ≤ fuel
      · rw [if_pos hf, if_pos (by omega)]
      · rw [if_neg hf, if_neg (by omega)]
    · rw [if_neg hc, if_pos (by omega)]

theorem quick_sort_ascending_step (a : List Int)
    (hasc : ∀ p q : Nat, p < q → q < a.length → a.getD p 0 < a.getD q 0)
    (fuel : Nat) (first last : Int) (h0 : 0 ≤ first) (hfl : first ≤ last)
    (hlen : last + 1 < a.length) :
    quick_sort (fuel + 1) a first last
      = if first + 1 < last then quick_sort fuel a (first + 1) last else Run.ok a := by
  rw [quick_sort, partition_ascending a hasc first last h0 hfl hlen, Run.ok_bind]
  simp only []
  rw [if_neg (by omega), Run.ok_bind]

/-- On a strictly ascending array the preprocessing of `quickSort` finds the largest element
in the last position and leaves the array as it is. -/
theorem quickSort_ascending (a : List Int)
    (hasc : ∀ p q : Nat, p < q → q < a.length → a.getD p 0 < a.getD q 0)
    (h2 : 2 ≤ a.length) (hn : a.length < 2147483648) :
    quickSort a = quick_sort a.length a 0 ((a.length : Int) - 2) := by
  have hw : wrap32 (a.length : Int) = a.length := wrap32_of_range (by omega) (by omega)
  obtain ⟨m, hm, hm0, hm1, hm2⟩ := maxLoop_spec a a.length 1 0 (le_refl _) (by omega)
    (by omega) (fun k hk => by have : k = 0 := by omega
                               rw [this]; rfl) (by omega)
  have hme : m = (a.length : Int) - 1 := by
    by_contra hne
    have h1 := hasc m.toNat (a.length - 1) (by omega) (by omega)
    have h3 := hm2 (a.length - 1) (by omega)
    omega
  subst hme
  unfold quickSort
  simp only [hw]
  rw [if_neg (by omega), hm, Run.ok_bind,
    swapI_eq_exch (by omega) (by omega) (by omega) (by omega), Run.ok_bind,
    exch_self a _ (by omega)]

theorem generateUp_ascending (n : Nat) (i : Int) :
    ∀ p q : Nat, p < q → q < (generateUp n i).length →
      (generateUp n i).getD p 0 < (generateUp n i).getD q 0 := by
  intro p q hpq hq
  rw [length_generateUp] at hq
  rw [getD_generateUp n i p (by omega), getD_generateUp n i q hq]
  omega

/-- The preprocessing of `quickSort` on an array of at least two elements: the search for
the largest element and the exchange with the last position complete, and afterwards no
element exceeds the last one. -/
theorem quickSort_preprocess (a : List Int) (h2 : 2 ≤ a.length) :
    ∃ m, maxLoop a a.length a.length 1 0 = Run.ok m ∧ 0 ≤ m ∧ m < a.length ∧
      swapI a ((a.length : Int) - 1) m = Run.ok (exch a (a.length - 1) m.toNat) ∧
      ∀ k : Nat, k < a.length →
        (exch a (a.length - 1) m.toNat).getD k 0
          ≤ (exch a (a.length - 1) m.toNat).getD (a.length - 1) 0 := by
  obtain ⟨m, hm, hm0, hm1, hm2⟩ := maxLoop_spec a a.length 1 0 (le_refl _) (by omega)
    (by omega) (fun k hk => by have : k = 0 := by omega
                               rw [this]; rfl) (by omega)
  have hi : a.length - 1 < a.length := by omega
  have hmi : m.toNat < a.length := by omega
  have he : ((a.length : Int) - 1).toNat = a.length - 1 := by omega
  have hg := fun k => getD_exch a (a.length - 1) m.toNat k hi hmi
  refine ⟨m, hm, hm0, hm1, ?_, ?_⟩
  · rw [swapI_eq_exch (by omega) (by omega) hm0 hm1, he]
  · intro k hk
    have hmax : (exch a (a.length - 1) m.toNat).getD (a.length - 1) 0 = a.getD m.toNat 0 := by
      rw [hg]
      by_cases h : a.length - 1 = m.toNat
      · rw [if_pos h, h]
      · rw [if_neg h, if_pos rfl]
    rw [hmax, hg]
    split
    · exact hm2 _ hi
    · split
      · exact hm2 _ hmi
      · exact hm2 k hk

/-! ## `combSort`: the gaps of the passes -/

/-- The gap that follows a gap between 1 and the length `L >= 2`: it is at least 1, less
than `L`, smaller than the gap before when that one is greater than 1, and 1 after 1. -/
theorem nextSpace_gap (L s : Int) (hL : 2 ≤ L) (hn : L * 10 + 3 ≤ 2147483647) (h1 : 1 ≤ s)
    (h2 : s ≤ L) :
    1 ≤ nextSpace s ∧ nextSpace s < L ∧ nextSpace s ≤ s ∧ GapStep s (nextSpace s) := by
  obtain ⟨h3, h4, h5⟩ := nextSpace_spec s h1 (by omega)
  refine ⟨h3, ?_, h4, ?_, ?_⟩
  · by_cases hs : 2 ≤ s
    · have := h5 hs; omega
    · omega
  · intro hs; exact h5 (by omega)
  · intro hs; omega

/-- A pass of `combSort` with a gap between 1 and the length completes: every comparison is
between two elements of the array and the test `next != end` ends the inner loop. -/
theorem combPass_complete (a : List Int) (g : Int) (h1 : 1 ≤ g) (h2 : g < a.length) :
    ∃ r, combPass a.length (a.length + 1) a 0 g false = Run.ok r ∧ r.1.length = a.length := by
  obtain ⟨r, hr, hp, _⟩ := combPass_spec a.length g.toNat (by omega) (a.length + 1) a 0 0 g
    false rfl rfl (by omega) (by omega) (by omega)
  exact ⟨r, hr, hp.length_eq⟩

/-- The pass loop of `combSort` with gaps returns what the pass loop returns; the gaps of
its passes are at least 1 and less than the length, the first one follows the gap the loop
starts with, and consecutive ones are in the order `GapStep`. -/
theorem combLoopT_of (L : Nat) (hL : 2 ≤ L) (hn : (L : Int) * 10 + 3 ≤ 2147483647) :
    ∀ (fuel : Nat) (a : List Int) (space : Int) (swapped : Bool) (out : List Int),
    a.length = L → 1 ≤ space → space ≤ L →
    combLoop L fuel a space swapped = Run.ok out →
    ∃ gaps, combLoopT L fuel a space swapped = Run.ok (out, gaps) ∧
      (∀ g ∈ gaps, 1 ≤ g ∧ g < L) ∧
      gaps.head? = (if space > 1 ∨ swapped = true then some (nextSpace space) else none) ∧
      List.Chain' GapStep gaps := by
  intro fuel
  induction fuel with
  | zero => intro a space swapped out _ _ _ h; simp [combLoop] at h
  | succ fuel ih =>
    intro a space swapped out hlen hs1 hs2 h
    unfold combLoop at h
    unfold combLoopT
    by_cases hc : space > 1 ∨ swapped = true
    · obtain ⟨g1, g2, g3, g4⟩ := nextSpace_gap L space (by omega) hn hs1 hs2
      obtain ⟨r, hr, hrl⟩ := combPass_complete a (nextSpace space) g1 (by rw [hlen]; exact g2)
      rw [hlen] at hr
      rw [if_pos hc, hlen, hr, Run.ok_bind] at h
      obtain ⟨gaps, hT, hg, hh, hch⟩ := ih r.1 (nextSpace space) r.2 out (by rw [hrl, hlen]) g1
        (by omega) h
      rw [if_pos hc, hlen, hr, Run.ok_bind, hT, Run.ok_bind]
      refine ⟨nextSpace space :: gaps, rfl, ?_, ?_, ?_⟩
      · intro g hgm
        rw [List.mem_cons] at hgm
        rcases hgm with hgm | hgm
        · rw [hgm]; exact ⟨g1, g2⟩
        · exact hg g hgm
      · rw [if_pos hc]; rfl
      · rw [List.chain'_cons']
        refine ⟨?_, hch⟩
        intro y hy
        rw [hh] at hy
        split at hy
        · simp only [Option.mem_def, Option.some.injEq] at hy
          rw [← hy]
          exact (nextSpace_gap L (nextSpace space) (by omega) hn g1 (by omega)).2.2.2
        · simp at hy
    · rw [if_neg hc] at h
      injection h with h
      subst h
      rw [if_neg hc]
      exact ⟨[], rfl, fun g hg => by simp at hg, by rw [if_neg hc]; rfl, List.chain'_nil⟩

/-! ## `quick_sort`: what a call leaves unchanged -/

theorem getElem?_eq_of_getD (a b : List Int) (hl : b.length = a.length) (k : Nat)
    (h : b.getD k 0 = a.getD k 0) : b[k]? = a[k]? := by
  by_cases hk : k < a.length
  · have hk1 : k < b.length := by omega
    rw [List.getD_eq_getElem _ _ hk1, List.getD_eq_getElem _ _ hk] at h
    rw [List.getElem?_eq_getElem hk, List.getElem?_eq_getElem hk1, h]
  · rw [List.getElem?_eq_none (by omega), List.getElem?_eq_none (by omega)]

theorem take_eq_of_getD (a b : List Int) (hl : b.length = a.length) (f : Nat)
    (h : ∀ k : Nat, k < f → b.getD k 0 = a.getD k 0) : b.take f = a.take f := by
  apply List.ext_getElem?
  intro k
  rw [List.getElem?_take, List.getElem?_take]
  split
  · rename_i hk; exact getElem?_eq_of_getD a b hl k (h k hk)
  · rfl

theorem drop_eq_of_getD (a b : List Int) (hl : b.length = a.length) (m : Nat)
    (h : ∀ k : Nat, m ≤ k → b.getD k 0 = a.getD k 0) : b.drop m = a.drop m := by
  apply List.ext_getElem?
  intro k
  rw [List.getElem?_drop, List.getElem?_drop]
  exact getElem?_eq_of_getD a b hl (m + k) (h (m + k) (by omega))

theorem eq_take_segment_drop (a : List Int) (first last : Int) (h0 : 0 ≤ first)
    (hfl : first ≤ last + 1) :
    a = a.take first.toNat ++ (segment a first last ++ a.drop (last + 1).toNat) := by
  have he : (last + 1).toNat = first.toNat + (last + 1 - first).toNat := by omega
  unfold segment
  rw [he, ← List.drop_drop, List.take_append_drop, List.take_append_drop]

/-- A permutation of an array that agrees with it outside the offsets `first..last` is a
permutation of it within `first..last`. -/
theorem segment_perm_of_frame (a b : List Int) (first last : Int) (h0 : 0 ≤ first)
    (hfl : first ≤ last + 1) (hp : b.Perm a)
    (hframe : ∀ k : Nat, ((k : Int) < first ∨ last < (k : Int)) → b.getD k 0 = a.getD k 0) :
    (segment b first last).Perm (segment a first last) := by
  have hl := hp.length_eq
  have ht : b.take first.toNat = a.take first.toNat :=
    take_eq_of_getD a b hl _ (fun k hk => hframe k (by omega))
  have hd : b.drop (last + 1).toNat = a.drop (last + 1).toNat :=
    drop_eq_of_getD a b hl _ (fun k hk => hframe k (by omega))
  have ha := eq_take_segment_drop a first last h0 hfl
  have hb := eq_take_segment_drop b first last h0 hfl
  rw [ht, hd] at hb
  rw [ha, hb] at hp
  exact (List.perm_append_right_iff _).mp ((List.perm_append_left_iff _).mp hp)

/-! ## `insertionSort`: the accesses and the exchanges of a run -/

theorem exchangeWrites_append (e1 e2 : List (Nat × Nat)) :
    exchangeWrites (e1 ++ e2) = exchangeWrites e1 ++ exchangeWrites e2 := by
  induction e1 with
  | nil => rfl
  | cons p rest ih => simp [exchangeWrites, ih]

theorem exchAll_append (e1 e2 : List (Nat × Nat)) (a : List Int) :
    exchAll (e1 ++ e2) a = exchAll e2 (exchAll e1 a) := by
  induction e1 generalizing a with
  | nil => rfl
  | cons p rest ih => simp [exchAll, ih]

theorem adjacentExchanges_append (e1 e2 : List (Nat × Nat)) (a : List Int)
    (h1 : AdjacentExchanges a e1) (h2 : AdjacentExchanges (exchAll e1 a) e2) :
    AdjacentExchanges a (e1 ++ e2) := by
  induction e1 generalizing a with
  | nil => exact h2
  | cons p rest ih =>
    obtain ⟨ha, hb, hc, hd⟩ := h1
    exact ⟨ha, hb, hc, ih _ hd h2⟩

/-- The inner loop of `insertionSort` with its accesses and exchanges returns the array that
the inner loop returns; its writes are those of its exchanges, every exchange is of an
element with its greater predecessor, and the array returned is the array after these
exchanges. -/
theorem insertionInnerT_spec : ∀ (j : Nat) (a : List Int), j < a.length →
    ∃ out log ex, insertionInnerT j a = Run.ok (out, log, ex) ∧
      insertionInner j a = Run.ok out ∧ out.length = a.length ∧
      log.filter Access.isWrite = exchangeWrites ex ∧
      (∀ x ∈ log, 0 ≤ x.offset ∧ x.offset < a.length) ∧
      AdjacentExchanges a ex ∧ out = exchAll ex a := by
  intro j
  induction j with
  | zero =>
    intro a _
    exact ⟨a, [], [], rfl, rfl, rfl, rfl, by simp, trivial, rfl⟩
  | succ j ih =>
    intro a hj1
    have hj : j < a.length := by omega
    unfold insertionInnerT insertionInner
    simp only [rd_eq_getD hj1, rd_eq_getD hj, Run.ok_bind]
    by_cases hlt : a.getD (j + 1) 0 < a.getD j 0
    · simp only [if_pos hlt, swap_eq_exch hj1 hj, Run.ok_bind]
      obtain ⟨out, log, ex, h1, h2, h3, h4, h5, h6, h7⟩ :=
        ih (exch a (j + 1) j) (by simpa using hj)
      simp only [h1, h2, Run.ok_bind]
      refine ⟨out, _, _, rfl, rfl, by simpa using h3, ?_, ?_, ⟨rfl, hj1, hlt, h6⟩, h7⟩
      · simp [swapLog, Access.isWrite, exchangeWrites, List.filter_cons, h4]
      · intro x hx
        simp only [swapLog, List.mem_cons, List.mem_append, List.mem_nil_iff, or_false] at hx
        rcases hx with hx | hx | (hx | hx | hx | hx) | hx
        · subst hx; simp only [Access.offset]; omega
        · subst hx; simp only [Access.offset]; omega
        · subst hx; simp only [Access.offset]; omega
        · subst hx; simp only [Access.offset]; omega
        · subst hx; simp only [Access.offset]; omega
        · subst hx; simp only [Access.offset]; omega
        · have := h5 x hx
          simpa using this
    · simp only [if_neg hlt]
      refine ⟨a, _, [], rfl, rfl, rfl, by simp [Access.isWrite, exchangeWrites], ?_, trivial, rfl⟩
      intro x hx
      simp only [List.mem_cons, List.mem_nil_iff, or_false] at hx
      rcases hx with hx | hx
      · subst hx; simp only [Access.offset]; omega
      · subst hx; simp only [Access.offset]; omega

/-- The outer loop of `insertionSort` with its accesses and exchanges returns the array that
the outer loop returns; its writes are those of its exchanges, every exchange is of an
element with its greater predecessor, and the array returned is the array after these
exchanges. -/
theorem insertionOuterT_spec : ∀ (k i : Nat) (a : List Int), i + k = a.length →
    ∃ out log ex, insertionOuterT k i a = Run.ok (out, log, ex) ∧
      insertionOuter k i a = Run.ok out ∧
      log.filter Access.isWrite = exchangeWrites ex ∧
      (∀ x ∈ log, 0 ≤ x.offset ∧ x.offset < a.length) ∧
      AdjacentExchanges a ex ∧ out = exchAll ex a := by
  intro k
  induction k with
  | zero =>
    intro i a _
    exact ⟨a, [], [], rfl, rfl, rfl, by simp, trivial, rfl⟩
  | succ k ih =>
    intro i a hik
    obtain ⟨a1, l1, e1, h1, h2, h3, h4, h5, h6, h7⟩ := insertionInnerT_spec i a (by omega)
    obtain ⟨out, l2, e2, g1, g2, g4, g5, g6, g7⟩ := ih (i + 1) a1 (by omega)
    unfold insertionOuterT insertionOuter
    simp only [h1, h2, Run.ok_bind, g1, g2]
    refine ⟨out, _, _, rfl, rfl, ?_, ?_, ?_, ?_⟩
    · rw [List.filter_append, h4, g4, exchangeWrites_append]
    · intro x hx
      simp only [List.mem_append] at hx
      rcases hx with hx | hx
      · exact h5 x hx
      · have := g5 x hx
        rw [h3] at this
        exact this
    · exact adjacentExchanges_append e1 e2 a h6 (h7 ▸ g6)
    · rw [exchAll_append, ← h7]
      exact g7

/-- The run of `insertionSort` with its accesses and exchanges completes with the array that
`insertionSort` returns; every access is inside the array, the writes are those of the
exchanges, every exchange is of an element with its greater predecessor, and the array
returned is the array after these exchanges. -/
theorem insertionSortT_spec (a : List Int) :
    ∃ out log ex, insertionSortT a = Run.ok (out, log, ex) ∧ insertionSort a = Run.ok out ∧
      log.filter Access.isWrite = exchangeWrites ex ∧
      (∀ x ∈ log, 0 ≤ x.offset ∧ x.offset < a.length) ∧
      AdjacentExchanges a ex ∧ out = exchAll ex a :=
  insertionOuterT_spec a.length 0 a (by omega)

/-! ## The claims -/

set_option maxRecDepth 100000

/-- Claim C1 fails on the code: on the non-negative input `[65280, 255]` the run of
`radixSort` completes and leaves `[65280, 255]`, which is not non-decreasing. The fused
scatter of the first pass leaves the count of bucket 255 uncleared, so the single-bucket
test of the second pass sees 1 + 1 = 2 elements in bucket 255 and skips the scatter. -/
theorem radixSort_leaves_unsorted :
    radixSort [65280, 255] = Run.ok [65280, 255] ∧
      ¬ List.Sorted (· ≤ ·) ([65280, 255] : List Int) := by
  constructor <;> decide

/-- Claim C2: on every non-empty array, negative values included, whose length fits the
`uint32_t` counters of the routine, the run of `radixSort` completes and the array it leaves
is a permutation of the input (same multiset of values). -/
theorem radixSort_perm (a : List Int) (hne : a ≠ []) (hlen : a.length < 4294967296) :
    ∃ out, radixSort a = Run.ok out ∧ out.Perm a :=
  radixSort_run a hne hlen

theorem radixSort_perm_witness :
    ([-1, 65280, 255, -1] : List Int) ≠ [] ∧
      ([-1, 65280, 255, -1] : List Int).length < 4294967296 ∧
      ∃ out, radixSort [-1, 65280, 255, -1] = Run.ok out ∧ out.Perm [-1, 65280, 255, -1] :=
  ⟨by decide, by decide, radixSort_perm [-1, 65280, 255, -1] (by decide) (by decide)⟩

/-- Claim C3: on every array whose length fits the `int` that `quickSort` keeps it in,
duplicates and already-ordered input included, the run of `quickSort` completes and leaves
the ascending sort of the input: a non-decreasing permutation of it. -/
theorem quickSort_sorts (a : List Int) (hlen : a.length < 2147483648) :
    ∃ out, quickSort a = Run.ok out ∧ List.Sorted (· ≤ ·) out ∧ out.Perm a := by
  obtain ⟨out, h1, h2, h3⟩ := quickSort_spec a hlen
  exact ⟨out, h1, h3, h2⟩

theorem quickSort_sorts_witness :
    ([1, 2, 3, 4, 5, 5, 6] : List Int).length < 2147483648 ∧
      ∃ out, quickSort [1, 2, 3, 4, 5, 5, 6] = Run.ok out ∧ List.Sorted (· ≤ ·) out ∧
        out.Perm [1, 2, 3, 4, 5, 5, 6] :=
  ⟨by decide, quickSort_sorts [1, 2, 3, 4, 5, 5, 6] (by decide)⟩

/-- Claim C4: on every non-empty array of `int` values in which `max - min + 1` and
`max + 1` do not overflow (and whose length fits the `unsigned` counters), the run of
`countingSort` completes and leaves the ascending sort of the input: non-decreasing, a
permutation of the input, every value occurring exactly as often as in the input. -/
theorem countingSort_sorts (a : List Int) (hne : a ≠ []) (hlen : a.length < 4294967296)
    (hlo : ∀ x ∈ a, -2147483648 ≤ x) (hhi : ∀ x ∈ a, x + 1 ≤ 2147483647)
    (hrange : ∀ x ∈ a, ∀ y ∈ a, y - x + 1 ≤ 2147483647) :
    ∃ out, countingSort a = Run.ok out ∧ List.Sorted (· ≤ ·) out ∧ out.Perm a ∧
      ∀ v, out.count v = a.count v := by
  obtain ⟨out, h1, h2, h3⟩ := countingSort_spec a hne hlen hlo hhi hrange
  exact ⟨out, h1, h3, h2, fun v => h2.count_eq v⟩

theorem countingSort_sorts_witness :
    countingSort [2, 9, 3, 3, 5, 9, 2, 7] = Run.ok [2, 2, 3, 3, 5, 7, 9, 9] ∧
      ∃ out, countingSort [2, 9, 3, 3, 5, 9, 2, 7] = Run.ok out ∧ List.Sorted (· ≤ ·) out ∧
        out.Perm [2, 9, 3, 3, 5, 9, 2, 7] ∧
        ∀ v, out.count v = ([2, 9, 3, 3, 5, 9, 2, 7] : List Int).count v :=
  ⟨by decide, countingSort_sorts [2, 9, 3, 3, 5, 9, 2, 7] (by decide) (by decide) (by decide)
    (by decide) (by decide)⟩

/-- Claim C5: on every array of length `L` with `L * 10 + 3` representable as a 32-bit
`int`, the run of `combSort` completes (the pass loop ends within the iteration budget) and
leaves the ascending sort of the input: a non-decreasing permutation of it. -/
theorem combSort_sorts (a : List Int) (hlen : (a.length : Int) * 10 + 3 ≤ 2147483647) :
    ∃ out, combSort a = Run.ok out ∧ List.Sorted (· ≤ ·) out ∧ out.Perm a := by
  obtain ⟨out, h1, h2, h3⟩ := combSort_spec a hlen
  exact ⟨out, h1, h3, h2⟩

theorem combSort_sorts_witness :
    ((([5, 4, 3, 2, 1, 4] : List Int).length : Nat) : Int) * 10 + 3 ≤ 2147483647 ∧
      ∃ out, combSort [5, 4, 3, 2, 1, 4] = Run.ok out ∧ List.Sorted (· ≤ ·) out ∧
        out.Perm [5, 4, 3, 2, 1, 4] :=
  ⟨by decide, combSort_sorts [5, 4, 3, 2, 1, 4] (by decide)⟩

/-- Claim C6: on every array, the empty and the one-element array included, the run of
`insertionSort` completes and leaves the ascending sort of the input: a non-decreasing
permutation of it. The run recorded with its element accesses and its calls of `std::swap`
returns the same array; its writes are, in order, the writes of these calls and no others;
every call exchanges the elements at the offsets `j` and `j - 1` at a moment when the
predecessor compares greater; and the array left is the input after exactly these exchanges.
On `[3, 1, 2]` the exchanges are at the offsets `(1, 0)` and then `(2, 1)`. -/
theorem insertionSort_sorts (a : List Int) :
    (∃ out log ex, insertionSort a = Run.ok out ∧ List.Sorted (· ≤ ·) out ∧ out.Perm a ∧
      AdjacentSwaps a out ∧
      insertionSortT a = Run.ok (out, log, ex) ∧
      log.filter Access.isWrite = exchangeWrites ex ∧
      (∀ x ∈ log, 0 ≤ x.offset ∧ x.offset < a.length) ∧
      AdjacentExchanges a ex ∧ out = exchAll ex a) ∧
    insertionSortT [3, 1, 2] = Run.ok ([1, 2, 3],
      [Access.read 1, Access.read 0, Access.read 1, Access.read 0, Access.write 1,
        Access.write 0, Access.read 2, Access.read 1, Access.read 2, Access.read 1,
        Access.write 2, Access.write 1, Access.read 1, Access.read 0],
      [(1, 0), (2, 1)]) := by
  refine ⟨?_, by decide⟩
  obtain ⟨out, h1, h2, h3, h4⟩ := insertionSort_spec a
  obtain ⟨out2, log, ex, g1, g2, g3, g4, g5, g6⟩ := insertionSortT_spec a
  have he : out2 = out := by
    rw [h1] at g2
    exact (Run.ok.inj g2).symm
  subst he
  exact ⟨out2, log, ex, h1, h4, h2, h3, g1, g3, g4, g5, g6⟩

/-- Claim C7: for every element count, ordering mode, sequence of random draws and sort
routine `S`, `benchmark` ends with the verification error exactly when `n > 0` and the array
that `S` leaves is not non-decreasing; for `n = 0` it returns without generating an array,
calling `S` or raising. -/
theorem benchmark_verifies (S : List Int → Run (List Int)) (draw : Nat → Nat) (n : Int)
    (type : order) :
    ((benchmark S draw n type).2 = Ending.sortFailed ↔
      0 < n ∧ ∃ arr out, constructTestArray draw n type = Run.ok arr ∧ S arr = Run.ok out ∧
        ¬ List.Sorted (· ≤ ·) out) ∧
    benchmark S draw 0 type = ([], Ending.returned) := by
  refine ⟨?_, benchmark_zero S draw type⟩
  rw [benchmark_sortFailed]
  constructor
  · rintro ⟨h0, arr, out, h1, h2, h3⟩
    refine ⟨?_, arr, out, h1, h2, h3⟩
    by_contra hneg
    have hlt : n < 0 := by omega
    simp [constructTestArray, hlt] at h1
  · rintro ⟨h0, h⟩
    exact ⟨by omega, h⟩

/-- Claim C8 fails on the code: on the empty range `countingSort` dereferences the result of
`std::min_element`, which is `end`, and `radixSort` reads `*first` for the single-bucket
test; both are reads outside the (empty) array, and the functor of `Sort` hands the empty
range to either routine as it is. On the same range `insertionSort`, `combSort` and
`quickSort` complete and leave it empty, `insertionSort` with no element access. -/
theorem empty_range_read_out_of_range :
    countingSort [] = Run.fault Fault.outOfRange ∧ radixSort [] = Run.fault Fault.outOfRange ∧
    sortCall countingSort [] = Run.fault Fault.outOfRange ∧
    sortCall radixSort [] = Run.fault Fault.outOfRange ∧
    sortCall insertionSort [] = Run.ok [] ∧ sortCall combSort [] = Run.ok [] ∧
    sortCall quickSort [] = Run.ok [] ∧ insertionSortT [] = Run.ok ([], [], []) := by
  refine ⟨by decide, by decide, by decide, by decide, by decide, by decide, by decide,
    by decide⟩

/-- The routines `insertionSort`, `combSort` and `quickSort` complete on the empty range and
leave it empty, and for the element count 0 `benchmark` returns before generating an array or
calling its sort routine. -/
theorem empty_range_noop :
    insertionSort [] = Run.ok [] ∧ combSort [] = Run.ok [] ∧ quickSort [] = Run.ok [] ∧
      ∀ (S : List Int → Run (List Int)) (draw : Nat → Nat) (type : order),
        benchmark S draw 0 type = ([], Ending.returned) :=
  ⟨by decide, by decide, by decide, benchmark_zero⟩

/-- Claim C9 fails on the code: the non-decreasing non-negative input `[255, 65280]` is left
by `radixSort` as `[65280, 255]` (the uncleared count of bucket 255 makes the second pass
skip its scatter), and on the non-decreasing input `[2147483647]` the run of `countingSort`
reads its counting array out of range (`++i` wraps and `i <= max` stays true). -/
theorem sorted_input_not_preserved :
    List.Sorted (· ≤ ·) ([255, 65280] : List Int) ∧
      radixSort [255, 65280] = Run.ok [65280, 255] ∧
      countingSort [2147483647] = Run.fault Fault.outOfRange := by
  refine ⟨by decide, by decide, by decide⟩

/-- Claim C10 fails on the code: with `int` arithmetic modulo 2^32, the run of
`countingSort` on `[INT_MAX, INT_MAX]` emits both values, wraps `i` to `INT_MIN`, finds
`i <= max` still true and reads `count[1]` of a one-element counting array; on
`[INT_MIN, INT_MAX]` the size `(max - min) + 1` wraps to 0 and the first tally reads
`count[0]` of an empty counting array. -/
theorem countingSort_extremes_out_of_range :
    countingSort [2147483647, 2147483647] = Run.fault Fault.outOfRange ∧
      countingSort [-2147483648, 2147483647] = Run.fault Fault.outOfRange := by
  constructor <;> decide

/-- Sorting an already sorted array with `insertionSort`, `combSort` or `quickSort` leaves
it unchanged. -/
theorem sorted_input_unchanged (a : List Int) (hs : List.Sorted (· ≤ ·) a)
    (hlen : (a.length : Int) * 10 + 3 ≤ 2147483647) :
    insertionSort a = Run.ok a ∧ combSort a = Run.ok a ∧ quickSort a = Run.ok a := by
  obtain ⟨o1, h1, p1, _, s1⟩ := insertionSort_spec a
  obtain ⟨o2, h2, p2, s2⟩ := combSort_spec a hlen
  obtain ⟨o3, h3, p3, s3⟩ := quickSort_spec a (by omega)
  rw [h1, h2, h3, List.eq_of_perm_of_sorted p1 s1 hs, List.eq_of_perm_of_sorted p2 s2 hs,
    List.eq_of_perm_of_sorted p3 s3 hs]
  exact ⟨rfl, rfl, rfl⟩

/-- Claim C11 fails on the code: the positions come from `dist(0, n)`, whose range includes
`n`. For `n = 1` with both draws equal to 1 (inside that range) the exchange
`std::swap(a[1], a[1])` accesses the offset 1 of a one-element array. -/
theorem mostlyOrdered_swap_out_of_range :
    (∀ i : Nat, (fun _ : Nat => 1) i ≤ 1) ∧
      constructTestArray (fun _ => 1) 1 order.MOSTLY_ORDERED = Run.fault Fault.outOfRange :=
  ⟨fun _ => le_refl 1, by decide⟩

/-- Claim C12 fails on the code: for `n = -1` the test `if (n)` holds and `benchmark`
calls the array generator. -/
theorem benchmark_negative_calls_generator :
    (benchmark radixSort (fun _ => 0) (-1) order.ORDERED).1 = [Event.generate] := by
  decide

/-- Claim C12 as amended: for every negative element count and every ordering mode,
`benchmark` calls the array generator, whose allocation `new T[n]` fails, and calls neither
the sort routine nor the verification. -/
theorem benchmark_negative_count (S : List Int → Run (List Int)) (draw : Nat → Nat) (n : Int)
    (type : order) (hn : n < 0) :
    constructTestArray draw n type = Run.fault Fault.alloc ∧
      benchmark S draw n type = ([Event.generate], Ending.faulted Fault.alloc) :=
  ⟨constructTestArray_negative draw n type hn, benchmark_negative S draw n type hn⟩

theorem benchmark_negative_count_witness :
    (-5 : Int) < 0 ∧
      constructTestArray (fun _ => 0) (-5) order.RANDOM = Run.fault Fault.alloc ∧
      benchmark insertionSort (fun _ => 0) (-5) order.RANDOM
        = ([Event.generate], Ending.faulted Fault.alloc) :=
  ⟨by decide, benchmark_negative_count insertionSort (fun _ => 0) (-5) order.RANDOM (by decide)⟩

/-- Claim C13: `radixSort` does not handle the sign bit: on the array `[-1, 0]` of 32-bit
signed integers the run completes and leaves `[0, -1]`, which is not non-decreasing under
signed comparison. -/
theorem radixSort_negative_unsorted :
    (∀ x ∈ ([-1, 0] : List Int), isInt32 x) ∧ radixSort [-1, 0] = Run.ok [0, -1] ∧
      ¬ List.Sorted (· ≤ ·) ([0, -1] : List Int) := by
  refine ⟨by decide, by decide, by decide⟩

/-- Claim C14: for every `n >= 1` the mostly-ordered generation is the swap loop with
exactly `max(1, n / 20)` iterations, one exchange each, run on the array that the ordered
generation produces; that array has length `n`, its element at the 0-based position `i` is
`i + 1`, and it is strictly ascending; with every draw a valid offset the result is that
array after exactly that many exchanges at the drawn pairs of offsets. -/
theorem mostlyOrdered_swaps (draw : Nat → Nat) (n : Int) (hn : 1 ≤ n) :
    constructTestArray draw n order.ORDERED = Run.ok (generateUp n.toNat 1) ∧
    ((generateUp n.toNat 1).length : Int) = n ∧
    (∀ i : Nat, (i : Int) < n → (generateUp n.toNat 1).getD i 0 = i + 1) ∧
    List.Sorted (· < ·) (generateUp n.toNat 1) ∧
    constructTestArray draw n order.MOSTLY_ORDERED
      = swapLoop draw (max 1 (n.toNat / 20)) 0 (generateUp n.toNat 1) ∧
    (drawPairs draw (max 1 (n.toNat / 20)) 0).length = max 1 (n.toNat / 20) ∧
    ((∀ d, draw d < n.toNat) →
      constructTestArray draw n order.MOSTLY_ORDERED
        = Run.ok (exchAll (drawPairs draw (max 1 (n.toNat / 20)) 0) (generateUp n.toNat 1))) := by
  have hm := constructTestArray_mostly draw n (by omega)
  rw [swapCount_eq] at hm
  refine ⟨constructTestArray_ordered draw n (by omega), ?_, ?_, sorted_generateUp _ _, hm,
    length_drawPairs draw _ _, ?_⟩
  · rw [length_generateUp]; omega
  · intro i hi
    rw [getD_generateUp n.toNat 1 i (by omega)]
    omega
  · intro hd
    rw [hm]
    exact swapLoop_eq draw _ 0 _ (by simpa using hd)

theorem mostlyOrdered_swaps_witness :
    (1 : Int) ≤ 40 ∧
      (generateUp (40 : Int).toNat 1).getD 7 0 = ((7 : Nat) : Int) + 1 ∧
      List.Sorted (· < ·) (generateUp (40 : Int).toNat 1) ∧
      constructTestArray (fun i => i % 40) 40 order.MOSTLY_ORDERED
        = swapLoop (fun i => i % 40) (max 1 ((40 : Int).toNat / 20)) 0
            (generateUp (40 : Int).toNat 1) ∧
      (drawPairs (fun i => i % 40) (max 1 ((40 : Int).toNat / 20)) 0).length
        = max 1 ((40 : Int).toNat / 20) ∧
      constructTestArray (fun i => i % 40) 40 order.MOSTLY_ORDERED
        = Run.ok [2, 1, 4, 3, 5, 6, 7, 8, 9, 10, 11, 12, 13, 14, 15, 16, 17, 18, 19, 20, 21,
            22, 23, 24, 25, 26, 27, 28, 29, 30, 31, 32, 33, 34, 35, 36, 37, 38, 39, 40] :=
  ⟨by decide, (mostlyOrdered_swaps (fun i => i % 40) 40 (by decide)).2.2.1 7 (by decide),
    (mostlyOrdered_swaps (fun i => i % 40) 40 (by decide)).2.2.2.1,
    (mostlyOrdered_swaps (fun i => i % 40) 40 (by decide)).2.2.2.2.1,
    (mostlyOrdered_swaps (fun i => i % 40) 40 (by decide)).2.2.2.2.2.1,
    ((mostlyOrdered_swaps (fun i => i % 40) 40 (by decide)).2.2.2.2.2.2
      (fun d => Nat.mod_lt d (by decide))).trans (by decide)⟩

/-- Claim C15: for every `n >= 1` the reversed generation produces an array of length `n`
whose element at the 0-based position `i` is `n - i`, so it is strictly descending; for
`n = 5` it is `[5, 4, 3, 2, 1]`. -/
theorem reversed_array (draw : Nat → Nat) (n : Int) (hn : 1 ≤ n) :
    (∃ arr, constructTestArray draw n order.REVERSED = Run.ok arr ∧ (arr.length : Int) = n ∧
      (∀ i : Nat, (i : Int) < n → arr.getD i 0 = n - i) ∧ List.Sorted (· > ·) arr) ∧
    constructTestArray draw 5 order.REVERSED = Run.ok [5, 4, 3, 2, 1] := by
  refine ⟨⟨generateDown n.toNat n, constructTestArray_reversed draw n (by omega), ?_, ?_,
    sorted_generateDown _ _⟩, ?_⟩
  · rw [length_generateDown]; omega
  · intro i hi
    exact getD_generateDown n.toNat n i (by omega)
  · rw [constructTestArray_reversed draw 5 (by omega)]
    rfl

theorem reversed_array_witness :
    (1 : Int) ≤ 5 ∧
      (∃ arr, constructTestArray (fun _ => 0) 5 order.REVERSED = Run.ok arr ∧
        (arr.length : Int) = 5 ∧ (∀ i : Nat, (i : Int) < 5 → arr.getD i 0 = 5 - i) ∧
        List.Sorted (· > ·) arr) ∧
      constructTestArray (fun _ => 0) 5 order.REVERSED = Run.ok [5, 4, 3, 2, 1] :=
  ⟨by decide, reversed_array (fun _ => 0) 5 (by decide)⟩

/-- Claim C16: for every `n >= 1` the ordered generation produces an array of length `n`
whose element at the 1-based position `p` is `p`, so it is strictly ascending. -/
theorem ordered_array (draw : Nat → Nat) (n : Int) (hn : 1 ≤ n) :
    ∃ arr, constructTestArray draw n order.ORDERED = Run.ok arr ∧ (arr.length : Int) = n ∧
      (∀ p : Nat, 1 ≤ p → (p : Int) ≤ n → arr.getD (p - 1) 0 = p) ∧
      List.Sorted (· < ·) arr := by
  refine ⟨generateUp n.toNat 1, constructTestArray_ordered draw n (by omega), ?_, ?_,
    sorted_generateUp _ _⟩
  · rw [length_generateUp]; omega
  · intro p hp1 hp2
    rw [getD_generateUp n.toNat 1 (p - 1) (by omega)]
    omega

theorem ordered_array_witness :
    (1 : Int) ≤ 4 ∧ constructTestArray (fun _ => 0) 4 order.ORDERED = Run.ok [1, 2, 3, 4] ∧
      ∃ arr, constructTestArray (fun _ => 0) 4 order.ORDERED = Run.ok arr ∧
        (arr.length : Int) = 4 ∧
        (∀ p : Nat, 1 ≤ p → (p : Int) ≤ 4 → arr.getD (p - 1) 0 = p) ∧
        List.Sorted (· < ·) arr :=
  ⟨by decide, by decide, ordered_array (fun _ => 0) 4 (by decide)⟩

/-- Claim C17 fails on the code: on the non-negative input `[65280, 255]` the pass at bit
offset 8 skips its scatter although the two elements of its source buffer have different
digits; the bucket count that the single-bucket test consults, derived from the fused
scatter of the pass before, is 2 while the true occupancy of that bucket is 1. -/
theorem scatter_skipped_with_two_digits :
    (radixPass 0 (radixInit [65280, 255]) >>= fun s1 => scatterSkipped 8 s1) = Run.ok true ∧
      (radixPass 0 (radixInit [65280, 255]) >>= fun s1 =>
        Run.ok (s1.first, sizesAtTest 8 s1 (digit 65280 8), cnt 8 (digit 65280 8) s1.first))
        = Run.ok ([65280, 255], 2, 1) ∧
      digit 65280 8 ≠ digit 255 8 := by
  refine ⟨by decide, by decide, by decide⟩

/-- Claim C18: for every call `quick_sort(a, first, last)` with `0 <= first <= last` whose
element after `last` exists and is not less than those at `first..last`, the partition step
completes with the pivot, the former `a[first]`, at an offset `upper` in `first..last`, the
elements before it in the range not greater, those after it not less, and the call goes on
with calls on `first..upper - 1` and `upper + 1..last` only. -/
theorem partition_places_pivot (a : List Int) (first last : Int) (h0 : 0 ≤ first)
    (hfl : first ≤ last) (hlen : last + 1 < a.length)
    (hsent : ∀ k : Nat, first ≤ (k : Int) → (k : Int) ≤ last →
      a.getD k 0 ≤ a.getD (last + 1).toNat 0) :
    ∃ b upper, partition a first last = Run.ok (b, upper) ∧ first ≤ upper ∧ upper ≤ last ∧
      b.Perm a ∧ b.getD upper.toNat 0 = a.getD first.toNat 0 ∧
      (∀ k : Nat, first ≤ (k : Int) → (k : Int) < upper → b.getD k 0 ≤ a.getD first.toNat 0) ∧
      (∀ k : Nat, upper < (k : Int) → (k : Int) ≤ last → a.getD first.toNat 0 ≤ b.getD k 0) ∧
      ∀ fuel : Nat, quick_sort (fuel + 1) a first last
        = ((if first < upper - 1 then quick_sort fuel b first (upper - 1) else Run.ok b) >>=
            fun a1 => if upper + 1 < last then quick_sort fuel a1 (upper + 1) last
              else Run.ok a1) := by
  obtain ⟨r, hr, hr1, hr2, hr3, hr4, hr5, hr6⟩ := partition_spec a first last h0 hfl hlen hsent
  refine ⟨r.1, r.2, hr, hr2, hr3, hr1.1, hr4, ?_, ?_, ?_⟩
  · intro k hk1 hk2; rw [← hr4]; exact hr5 k hk1 hk2
  · intro k hk1 hk2; rw [← hr4]; exact hr6 k hk1 hk2
  · intro fuel
    rw [quick_sort, hr, Run.ok_bind]

theorem partition_places_pivot_witness :
    partition [3, 1, 2, 5] 0 2 = Run.ok ([2, 1, 3, 5], 2) ∧
      ∃ b upper, partition [3, 1, 2, 5] 0 2 = Run.ok (b, upper) ∧ 0 ≤ upper ∧ upper ≤ 2 ∧
        b.Perm [3, 1, 2, 5] ∧ b.getD upper.toNat 0 = ([3, 1, 2, 5] : List Int).getD (0 : Int).toNat 0 ∧
        (∀ k : Nat, 0 ≤ (k : Int) → (k : Int) < upper →
          b.getD k 0 ≤ ([3, 1, 2, 5] : List Int).getD (0 : Int).toNat 0) ∧
        (∀ k : Nat, upper < (k : Int) → (k : Int) ≤ 2 →
          ([3, 1, 2, 5] : List Int).getD (0 : Int).toNat 0 ≤ b.getD k 0) ∧
        ∀ fuel : Nat, quick_sort (fuel + 1) [3, 1, 2, 5] 0 2
          = ((if 0 < upper - 1 then quick_sort fuel b 0 (upper - 1) else Run.ok b) >>=
              fun a1 => if upper + 1 < 2 then quick_sort fuel a1 (upper + 1) 2
                else Run.ok a1) :=
  ⟨by decide, partition_places_pivot [3, 1, 2, 5] 0 2 (by decide) (by decide) (by decide)
    (by
      intro k _ hk
      have hk3 : k < 3 := by omega
      interval_cases k <;> decide)⟩

/-- Claim C19: for every array of length `n >= 2` (fitting an `int`), the preprocessing of
`quickSort` completes and leaves a maximum of the array at `n - 1`; the run of
`quick_sort(a, 0, n - 2)` that follows completes, every offset it reads or writes lies in
`0..n - 1`, it writes only offsets in `0..n - 2`, and the element at `n - 1` is the same
afterwards. In general every call `quick_sort(b, first, last)` that meets the sentinel
condition reads (in its scans and exchanges, and in the calls below it) only offsets in
`first..last + 1` and writes only offsets in `first..last`. -/
theorem quickSort_sentinel_bound (a : List Int) (h2 : 2 ≤ a.length)
    (hlen : a.length < 2147483648) :
    (∃ m a1 out log,
      maxLoop a a.length a.length 1 0 = Run.ok m ∧
      swapI a ((a.length : Int) - 1) m = Run.ok a1 ∧
      (∀ k : Nat, k < a.length → a1.getD k 0 ≤ a1.getD (a.length - 1) 0) ∧
      quick_sortT a.length a1 0 ((a.length : Int) - 2) = Run.ok (out, log) ∧
      quick_sort a.length a1 0 ((a.length : Int) - 2) = Run.ok out ∧
      quickSort a = Run.ok out ∧
      (∀ x ∈ log, 0 ≤ x.offset ∧ x.offset ≤ (a.length : Int) - 1 ∧
        (x.isWrite = true → x.offset ≤ (a.length : Int) - 2)) ∧
      out.getD (a.length - 1) 0 = a1.getD (a.length - 1) 0) ∧
    ∀ (fuel : Nat) (b : List Int) (first last : Int), 0 ≤ first → first ≤ last →
      last + 1 < b.length →
      (∀ k : Nat, first ≤ (k : Int) → (k : Int) ≤ last →
        b.getD k 0 ≤ b.getD (last + 1).toNat 0) →
      (last - first).toNat < fuel →
      ∃ out log, quick_sortT fuel b first last = Run.ok (out, log) ∧
        quick_sort fuel b first last = Run.ok out ∧
        ∀ x ∈ log, first ≤ x.offset ∧ x.offset ≤ last + 1 ∧
          (x.isWrite = true → x.offset ≤ last) := by
  refine ⟨?_, quick_sortT_spec⟩
  obtain ⟨m, hm, hm0, hm1, hsw, hmax⟩ := quickSort_preprocess a h2
  have he : ((a.length : Int) - 2 + 1).toNat = a.length - 1 := by omega
  have hsent : ∀ k : Nat, (0 : Int) ≤ (k : Int) → (k : Int) ≤ (a.length : Int) - 2 →
      (exch a (a.length - 1) m.toNat).getD k 0
        ≤ (exch a (a.length - 1) m.toNat).getD ((a.length : Int) - 2 + 1).toNat 0 := by
    intro k _ hk
    rw [he]; exact hmax k (by omega)
  obtain ⟨out, log, hT, hq, hlog⟩ := quick_sortT_spec a.length (exch a (a.length - 1) m.toNat)
    0 ((a.length : Int) - 2) (le_refl _) (by omega) (by rw [length_exch]; omega) hsent
    (by omega)
  obtain ⟨out1, hq1, hre, _⟩ := quick_sort_spec a.length (exch a (a.length - 1) m.toNat)
    0 ((a.length : Int) - 2) (le_refl _) (by omega) (by rw [length_exch]; omega) hsent
    (by omega)
  rw [hq] at hq1
  injection hq1 with hq1
  subst hq1
  have hw : wrap32 (a.length : Int) = a.length := wrap32_of_range (by omega) (by omega)
  refine ⟨m, _, out, log, hm, hsw, hmax, hT, hq, ?_, ?_, ?_⟩
  · unfold quickSort
    simp only [hw]
    rw [if_neg (by omega), hm, Run.ok_bind, hsw, Run.ok_bind, hq]
  · intro x hx
    obtain ⟨h1, h2, h3⟩ := hlog x hx
    exact ⟨h1, by omega, h3⟩
  · exact hre.2.1 (a.length - 1) (by omega)

theorem quickSort_sentinel_bound_witness :
    2 ≤ ([3, 9, 1, 4, 1] : List Int).length ∧
      ∃ m a1 out log,
        maxLoop [3, 9, 1, 4, 1] (([3, 9, 1, 4, 1] : List Int).length : Nat)
          ([3, 9, 1, 4, 1] : List Int).length 1 0 = Run.ok m ∧
        swapI [3, 9, 1, 4, 1] (((([3, 9, 1, 4, 1] : List Int).length : Nat) : Int) - 1) m
          = Run.ok a1 ∧
        (∀ k : Nat, k < ([3, 9, 1, 4, 1] : List Int).length →
          a1.getD k 0 ≤ a1.getD (([3, 9, 1, 4, 1] : List Int).length - 1) 0) ∧
        quick_sortT ([3, 9, 1, 4, 1] : List Int).length a1 0
          (((([3, 9, 1, 4, 1] : List Int).length : Nat) : Int) - 2) = Run.ok (out, log) ∧
        quick_sort ([3, 9, 1, 4, 1] : List Int).length a1 0
          (((([3, 9, 1, 4, 1] : List Int).length : Nat) : Int) - 2) = Run.ok out ∧
        quickSort [3, 9, 1, 4, 1] = Run.ok out ∧
        (∀ x ∈ log, 0 ≤ x.offset ∧
          x.offset ≤ ((([3, 9, 1, 4, 1] : List Int).length : Nat) : Int) - 1 ∧
          (x.isWrite = true →
            x.offset ≤ ((([3, 9, 1, 4, 1] : List Int).length : Nat) : Int) - 2)) ∧
        out.getD (([3, 9, 1, 4, 1] : List Int).length - 1) 0
          = a1.getD (([3, 9, 1, 4, 1] : List Int).length - 1) 0 :=
  ⟨by decide, (quickSort_sentinel_bound [3, 9, 1, 4, 1] (by decide) (by decide)).1⟩

/-- Claim C20: for every `n >= 2` (fitting an `int`), on the strictly ascending array
`[1, 2, ..., n]` that the ordered generation produces, the preprocessing of `quickSort`
changes nothing, every partition step of `quick_sort(a, first, last)` leaves the array
unchanged and ends with `upper == first`, so the call makes no call on a left part and one
call on `first + 1..last` while that range has more than one element; the calls form a
single chain, and the run returns exactly when the recursion budget is at least
`max(1, n - 2)`, the depth of that chain. -/
theorem quickSort_ordered_degenerate (n : Nat) (h2 : 2 ≤ n) (hn : n < 2147483648) :
    (∀ draw : Nat → Nat,
      constructTestArray draw n order.ORDERED = Run.ok (generateUp n 1)) ∧
    (∀ first last : Int, 0 ≤ first → first ≤ last → last ≤ (n : Int) - 2 →
      partition (generateUp n 1) first last = Run.ok (generateUp n 1, first)) ∧
    (∀ (fuel : Nat) (first last : Int), 0 ≤ first → first ≤ last → last ≤ (n : Int) - 2 →
      quick_sort (fuel + 1) (generateUp n 1) first last
        = if first + 1 < last then quick_sort fuel (generateUp n 1) (first + 1) last
          else Run.ok (generateUp n 1)) ∧
    quickSort (generateUp n 1) = quick_sort n (generateUp n 1) 0 ((n : Int) - 2) ∧
    (∀ fuel : Nat, quick_sort fuel (generateUp n 1) 0 ((n : Int) - 2)
      = if max 1 (n - 2) ≤ fuel then Run.ok (generateUp n 1) else Run.fault Fault.fuel) ∧
    quickSort (generateUp n 1) = Run.ok (generateUp n 1) := by
  have hasc := generateUp_ascending n 1
  have hl : (generateUp n 1).length = n := length_generateUp n 1
  have hq := quickSort_ascending (generateUp n 1) hasc (by omega) (by omega)
  rw [hl] at hq
  have hchain : ∀ fuel : Nat, quick_sort fuel (generateUp n 1) 0 ((n : Int) - 2)
      = if max 1 (n - 2) ≤ fuel then Run.ok (generateUp n 1) else Run.fault Fault.fuel := by
    intro fuel
    rw [quick_sort_ascending (generateUp n 1) hasc ((n : Int) - 2) (by omega) fuel 0
      (le_refl _) (by omega)]
    have : ((n : Int) - 2 - 0).toNat = n - 2 := by omega
    rw [this]
  refine ⟨?_, ?_, ?_, hq, hchain, ?_⟩
  · intro draw
    have := constructTestArray_ordered draw (n : Int) (by omega)
    simpa using this
  · intro first last h0 hfl hle
    exact partition_ascending (generateUp n 1) hasc first last h0 hfl (by omega)
  · intro fuel first last h0 hfl hle
    exact quick_sort_ascending_step (generateUp n 1) hasc fuel first last h0 hfl (by omega)
  · rw [hq, hchain n, if_pos (by omega)]

theorem quickSort_ordered_degenerate_witness :
    2 ≤ 5 ∧ generateUp 5 1 = [1, 2, 3, 4, 5] ∧
      partition (generateUp 5 1) 1 3 = Run.ok (generateUp 5 1, 1) ∧
      quickSort (generateUp 5 1) = Run.ok (generateUp 5 1) ∧
      quick_sort 2 (generateUp 5 1) 0 (((5 : Nat) : Int) - 2) = Run.fault Fault.fuel ∧
      quick_sort 3 (generateUp 5 1) 0 (((5 : Nat) : Int) - 2) = Run.ok (generateUp 5 1) :=
  ⟨by decide, by decide,
    (quickSort_ordered_degenerate 5 (by decide) (by decide)).2.1 1 3 (by decide) (by decide)
      (by decide),
    (quickSort_ordered_degenerate 5 (by decide) (by decide)).2.2.2.2.2,
    by decide, by decide⟩

/-- Claim C21: in `combSort` on an array of length `L >= 2` with `L * 10 + 3` representable
as a 32-bit `int`, the gap after a gap `s` in `1..L` (the forcing of 9 and 10 to 11
included) is at least 1 and less than `L`, smaller than `s` while `s > 1` and 1 after 1;
every pass with such a gap completes, so its comparisons stay within the array and its
inner loop ends at the test `next != end`; and in the run of `combSort` the gaps of the
passes, in order, are all in `1..L - 1`, strictly decreasing while greater than 1 and 1
afterwards. -/
theorem combSort_gaps (a : List Int) (h2 : 2 ≤ a.length)
    (hn : (a.length : Int) * 10 + 3 ≤ 2147483647) :
    (∀ s : Int, 1 ≤ s → s ≤ a.length →
      1 ≤ nextSpace s ∧ nextSpace s < a.length ∧ GapStep s (nextSpace s)) ∧
    (∀ (b : List Int) (g : Int), b.length = a.length → 1 ≤ g → g < a.length →
      ∃ r, combPass a.length (b.length + 1) b 0 g false = Run.ok r) ∧
    ∃ out gaps,
      combLoopT a.length (a.length + a.length * a.length + 2) a (wrap32 a.length) false
        = Run.ok (out, gaps) ∧
      combSort a = Run.ok out ∧
      gaps.head? = some (nextSpace a.length) ∧
      (∀ g ∈ gaps, 1 ≤ g ∧ g < a.length) ∧
      List.Chain' GapStep gaps := by
  refine ⟨?_, ?_, ?_⟩
  · intro s h1 hs
    obtain ⟨g1, g2, _, g4⟩ := nextSpace_gap a.length s (by omega) hn h1 hs
    exact ⟨g1, g2, g4⟩
  · intro b g hb h1 hg
    obtain ⟨r, hr, _⟩ := combPass_complete b g h1 (by rw [hb]; exact hg)
    rw [hb] at hr
    exact ⟨r, by rw [hb]; exact hr⟩
  · obtain ⟨out, hout, _, _⟩ := combSort_spec a hn
    have hw : wrap32 (a.length : Int) = a.length := wrap32_of_range (by omega) (by omega)
    have hrun := hout
    unfold combSort at hrun
    rw [hw] at hrun
    obtain ⟨gaps, hT, hg, hh, hch⟩ := combLoopT_of a.length h2 hn _ a a.length false out rfl
      (by omega) (le_refl _) hrun
    rw [if_pos (Or.inl (by omega))] at hh
    exact ⟨out, gaps, by rw [hw]; exact hT, hout, hh, hg, hch⟩

theorem combSort_gaps_witness :
    2 ≤ ([13, 12, 11, 10, 9, 8, 7, 6, 5, 4, 3, 2, 1] : List Int).length ∧
      nextSpace 13 = 11 ∧
      ∃ out gaps,
        combLoopT ([13, 12, 11, 10, 9, 8, 7, 6, 5, 4, 3, 2, 1] : List Int).length
          (([13, 12, 11, 10, 9, 8, 7, 6, 5, 4, 3, 2, 1] : List Int).length
            + ([13, 12, 11, 10, 9, 8, 7, 6, 5, 4, 3, 2, 1] : List Int).length
              * ([13, 12, 11, 10, 9, 8, 7, 6, 5, 4, 3, 2, 1] : List Int).length + 2)
          [13, 12, 11, 10, 9, 8, 7, 6, 5, 4, 3, 2, 1]
          (wrap32 ([13, 12, 11, 10, 9, 8, 7, 6, 5, 4, 3, 2, 1] : List Int).length) false
          = Run.ok (out, gaps) ∧
        combSort [13, 12, 11, 10, 9, 8, 7, 6, 5, 4, 3, 2, 1] = Run.ok out ∧
        gaps.head?
          = some (nextSpace ([13, 12, 11, 10, 9, 8, 7, 6, 5, 4, 3, 2, 1] : List Int).length) ∧
        (∀ g ∈ gaps, 1 ≤ g ∧
          g < ([13, 12, 11, 10, 9, 8, 7, 6, 5, 4, 3, 2, 1] : List Int).length) ∧
        List.Chain' GapStep gaps :=
  ⟨by decide, by decide,
    (combSort_gaps [13, 12, 11, 10, 9, 8, 7, 6, 5, 4, 3, 2, 1] (by decide) (by decide)).2.2⟩

/-- Claim C22: for every call `quick_sort(a, first, last)` with `0 <= first <= last` whose
element after `last` exists and is not less than those at `first..last`, the call (with
all the calls below it) completes, writes only offsets in `first..last`, leaves every
element at an offset outside `first..last` unchanged, and leaves at `first..last` a
permutation of the elements that were there. -/
theorem quick_sort_frame (fuel : Nat) (a : List Int) (first last : Int) (h0 : 0 ≤ first)
    (hfl : first ≤ last) (hlen : last + 1 < a.length)
    (hsent : ∀ k : Nat, first ≤ (k : Int) → (k : Int) ≤ last →
      a.getD k 0 ≤ a.getD (last + 1).toNat 0)
    (hf : (last - first).toNat < fuel) :
    ∃ out log, quick_sort fuel a first last = Run.ok out ∧
      quick_sortT fuel a first last = Run.ok (out, log) ∧
      (∀ x ∈ log, x.isWrite = true → first ≤ x.offset ∧ x.offset ≤ last) ∧
      out.length = a.length ∧
      (∀ k : Nat, ((k : Int) < first ∨ last < (k : Int)) → out.getD k 0 = a.getD k 0) ∧
      (segment out first last).Perm (segment a first last) := by
  obtain ⟨out, log, hT, hq, hlog⟩ := quick_sortT_spec fuel a first last h0 hfl hlen hsent hf
  obtain ⟨out1, hq1, hre, _⟩ := quick_sort_spec fuel a first last h0 hfl hlen hsent hf
  rw [hq] at hq1
  injection hq1 with hq1
  subst hq1
  refine ⟨out, log, hq, hT, ?_, hre.1.length_eq, hre.2.1, ?_⟩
  · intro x hx hw
    obtain ⟨h1, _, h3⟩ := hlog x hx
    exact ⟨h1, h3 hw⟩
  · exact segment_perm_of_frame a out first last h0 (by omega) hre.1 hre.2.1

theorem quick_sort_frame_witness :
    quick_sort 3 [9, 4, 2, 3, 1, 5, 0] 1 4 = Run.ok [9, 1, 2, 3, 4, 5, 0] ∧
      segment [9, 4, 2, 3, 1, 5, 0] 1 4 = [4, 2, 3, 1] ∧
      ∃ out log, quick_sort 4 [9, 4, 2, 3, 1, 5, 0] 1 4 = Run.ok out ∧
        quick_sortT 4 [9, 4, 2, 3, 1, 5, 0] 1 4 = Run.ok (out, log) ∧
        (∀ x ∈ log, x.isWrite = true → 1 ≤ x.offset ∧ x.offset ≤ 4) ∧
        out.length = ([9, 4, 2, 3, 1, 5, 0] : List Int).length ∧
        (∀ k : Nat, ((k : Int) < 1 ∨ 4 < (k : Int)) →
          out.getD k 0 = ([9, 4, 2, 3, 1, 5, 0] : List Int).getD k 0) ∧
        (segment out 1 4).Perm (segment [9, 4, 2, 3, 1, 5, 0] 1 4) :=
  ⟨by decide, by decide,
    quick_sort_frame 4 [9, 4, 2, 3, 1, 5, 0] 1 4 (by decide) (by decide) (by decide)
      (by
        intro k hk1 hk2
        have h1 : 1 ≤ k := by omega
        have h4 : k ≤ 4 := by omega
        interval_cases k <;> decide)
      (by decide)⟩

end SortFuncs
